import Mathlib

/-!
Verification of the stable sorting engine in src/src/new_stable_sort/mod.rs
(and the foreign-backend wrappers in src/src/cpp_pdqsort/mod.rs and
src/src/cpp_std_stable/mod.rs), via a shallow embedding on Lean lists.

Two embeddings of the core are developed:

* a plain embedding (suffix `A`) of each Rust function, faithful to the
  source control flow, used for the functional-correctness claims; and
* an effectful embedding (suffix `E`) in which the comparator may "panic"
  (modelled as returning `none`) and every comparator invocation is recorded
  together with the storage locations of its two arguments, used for the
  panic-safety, no-self-comparison and comparison-counting claims.

The comparator contract "implements a strict total order" is modelled by the
two axioms of a strict weak order on the boolean relation `lt` (asymmetry and
the weak-transitivity law); every strict total order satisfies them.
-/

namespace NewStableSort

variable {α : Type _} {β : Type _}

/-- The comparator model: the two laws a correctly-behaving `is_less`
(one derived from a strict total order) satisfies. -/
structure SWO (lt : α → α → Bool) : Prop where
  asymm : ∀ a b, lt a b = true → lt b a = false
  wtrans : ∀ a b c, lt a c = true → lt a b = true ∨ lt b c = true

theorem SWO.irrefl {lt : α → α → Bool} (h : SWO lt) (a : α) : lt a a = false := by
  cases hab : lt a a with
  | false => rfl
  | true => exact absurd (h.asymm a a hab) (by simp [hab])

theorem SWO.lt_trans {lt : α → α → Bool} (h : SWO lt) {a b c : α}
    (hab : lt a b = true) (hbc : lt b c = true) : lt a c = true := by
  rcases h.wtrans b a c hbc with hba | hac
  · exact absurd (h.asymm a b hab) (by simp [hba])
  · exact hac

theorem SWO.le_trans {lt : α → α → Bool} (h : SWO lt) {a b c : α}
    (hba : lt b a = false) (hcb : lt c b = false) : lt c a = false := by
  cases hca : lt c a with
  | false => rfl
  | true =>
    rcases h.wtrans c b a hca with hcb' | hba'
    · exact absurd hcb' (by simp [hcb])
    · exact absurd hba' (by simp [hba])

/-- From c < b and not a < b conclude c < a. -/
theorem SWO.lt_of_lt_of_nlt {lt : α → α → Bool} (h : SWO lt) {a b c : α}
    (h1 : lt c b = true) (h2 : lt a b = false) : lt c a = true := by
  rcases h.wtrans c a b h1 with h3 | h3
  · exact h3
  · exact absurd h3 (by simp [h2])

/-- From not b < a and b < c conclude a < c. -/
theorem SWO.lt_of_nlt_of_lt {lt : α → α → Bool} (h : SWO lt) {a b c : α}
    (h1 : lt b a = false) (h2 : lt b c = true) : lt a c = true := by
  rcases h.wtrans b a c h2 with h3 | h3
  · exact absurd h3 (by simp [h1])
  · exact h3

/-- Sortedness check: no element is less than its predecessor
(non-decreasing per the comparator), on adjacent pairs. -/
def sortedB (lt : α → α → Bool) : List α → Bool
  | [] => true
  | [_] => true
  | a :: b :: l => !lt b a && sortedB lt (b :: l)

theorem sortedB_cons_cons {lt : α → α → Bool} {a b : α} {l : List α} :
    sortedB lt (a :: b :: l) = (!lt b a && sortedB lt (b :: l)) := rfl

theorem sortedB_cons_of {lt : α → α → Bool} {a b : α} {l : List α}
    (h1 : lt b a = false) (h2 : sortedB lt (b :: l) = true) :
    sortedB lt (a :: b :: l) = true := by
  simp [sortedB_cons_cons, h1, h2]

theorem sortedB_tail {lt : α → α → Bool} {a : α} {l : List α}
    (h : sortedB lt (a :: l) = true) : sortedB lt l = true := by
  cases l with
  | nil => rfl
  | cons b l =>
    rw [sortedB_cons_cons, Bool.and_eq_true] at h
    exact h.2

theorem sortedB_head {lt : α → α → Bool} {a b : α} {l : List α}
    (h : sortedB lt (a :: b :: l) = true) : lt b a = false := by
  rw [sortedB_cons_cons, Bool.and_eq_true] at h
  simpa using h.1

/-- Under the comparator laws, adjacent sortedness gives the pairwise form. -/
theorem sortedB_pairwise {lt : α → α → Bool} (hs : SWO lt) :
    ∀ {l : List α}, sortedB lt l = true → l.Pairwise (fun a b => lt b a = false)
  | [], _ => List.Pairwise.nil
  | [_], _ => by simp
  | a :: b :: l, h => by
    have hba := sortedB_head h
    have htail := sortedB_tail h
    have ih := sortedB_pairwise hs htail
    refine List.Pairwise.cons ?_ ih
    intro c hc
    rcases List.mem_cons.1 hc with hc | hc
    · subst hc; exact hba
    · exact hs.le_trans hba (List.rel_of_pairwise_cons ih hc)

theorem sortedB_append {lt : α → α → Bool} :
    ∀ {l r : List α}, sortedB lt l = true → sortedB lt r = true →
      (∀ x, l.getLast? = some x → ∀ y, r.head? = some y → lt y x = false) →
      sortedB lt (l ++ r) = true
  | [], r, _, hr, _ => hr
  | [a], r, _, hr, hlast => by
    cases r with
    | nil => rfl
    | cons b r =>
      exact sortedB_cons_of (hlast a (by simp) b rfl) hr
  | a :: b :: l, r, hl, hr, hlast => by
    have htail : sortedB lt ((b :: l) ++ r) = true :=
      sortedB_append (sortedB_tail hl) hr (by
        intro x hx y hy
        exact hlast x (by simpa using hx) y hy)
    exact sortedB_cons_of (sortedB_head hl) htail

/-! ### The reference stable sort

`insertR` inserts a new element after all elements it is not strictly less
than; folding it over the input from the left yields the unique stable sorted
arrangement. -/

def insertR (lt : α → α → Bool) (x : α) : List α → List α
  | [] => [x]
  | y :: ys => if lt x y then x :: y :: ys else y :: insertR lt x ys

def foldIns (lt : α → α → Bool) : List α → List α → List α
  | acc, [] => acc
  | acc, x :: xs => foldIns lt (insertR lt x acc) xs

/-- The reference stable sort of the specification: stable insertion sort. -/
def refSort (lt : α → α → Bool) (l : List α) : List α := foldIns lt [] l

theorem insertR_perm (lt : α → α → Bool) (x : α) :
    ∀ A : List α, (insertR lt x A).Perm (x :: A)
  | [] => List.Perm.refl _
  | y :: ys => by
    unfold insertR
    split
    · exact List.Perm.refl _
    · exact ((insertR_perm lt x ys).cons y).trans (List.Perm.swap x y ys)

theorem foldIns_perm (lt : α → α → Bool) :
    ∀ (l A : List α), (foldIns lt A l).Perm (A ++ l)
  | [], A => by simp [foldIns]
  | x :: xs, A => by
    have h1 := foldIns_perm lt xs (insertR lt x A)
    have h2 : (insertR lt x A ++ xs).Perm (A ++ x :: xs) := by
      have := (insertR_perm lt x A).append_right xs
      refine this.trans ?_
      simpa using (@List.perm_middle _ x A xs).symm
    exact h1.trans h2

theorem refSort_perm (lt : α → α → Bool) (l : List α) : (refSort lt l).Perm l := by
  simpa using foldIns_perm lt l []

theorem insertR_sorted {lt : α → α → Bool} (hs : SWO lt) (x : α) :
    ∀ {A : List α}, sortedB lt A = true → sortedB lt (insertR lt x A) = true
  | [], _ => rfl
  | y :: ys, hA => by
    unfold insertR
    split
    · next hxy =>
      exact sortedB_cons_of (hs.asymm _ _ hxy) hA
    · next hxy =>
      have htail := insertR_sorted hs x (sortedB_tail hA)
      cases ys with
      | nil =>
        simp only [insertR] at htail ⊢
        exact sortedB_cons_of (by simpa using hxy) htail
      | cons z zs =>
        simp only [insertR] at htail ⊢
        split at htail
        · next hxz =>
          simp only [if_pos hxz]
          exact sortedB_cons_of (by simpa using hxy) htail
        · next hxz =>
          simp only [if_neg hxz]
          exact sortedB_cons_of (sortedB_head hA) htail

theorem foldIns_sorted {lt : α → α → Bool} (hs : SWO lt) :
    ∀ (l : List α) {A : List α}, sortedB lt A = true →
      sortedB lt (foldIns lt A l) = true
  | [], _, hA => hA
  | x :: xs, _, hA => foldIns_sorted hs xs (insertR_sorted hs x hA)

theorem refSort_sorted {lt : α → α → Bool} (hs : SWO lt) (l : List α) :
    sortedB lt (refSort lt l) = true := foldIns_sorted hs l rfl

theorem insertR_append_last {lt : α → α → Bool} (x : α) :
    ∀ {A : List α}, (∀ z ∈ A, lt x z = false) → insertR lt x A = A ++ [x]
  | [], _ => rfl
  | y :: ys, h => by
    unfold insertR
    rw [if_neg (by simp [h y (by simp)])]
    rw [insertR_append_last x (fun z hz => h z (by simp [hz]))]
    simp

/-- A sorted list is fixed by the reference sort. -/
theorem foldIns_of_sorted {lt : α → α → Bool} (hs : SWO lt) :
    ∀ (l A : List α), sortedB lt (A ++ l) = true → foldIns lt A l = A ++ l
  | [], A, _ => by simp [foldIns]
  | x :: xs, A, h => by
    have hpair := sortedB_pairwise hs h
    have hall : ∀ z ∈ A, lt x z = false := by
      intro z hz
      exact (List.pairwise_append.1 hpair).2.2 z hz x (by simp)
    unfold foldIns
    rw [insertR_append_last x hall]
    have h2 : sortedB lt ((A ++ [x]) ++ xs) = true := by
      simpa using h
    rw [foldIns_of_sorted hs xs (A ++ [x]) h2]
    simp

theorem refSort_of_sorted {lt : α → α → Bool} (hs : SWO lt) {l : List α}
    (h : sortedB lt l = true) : refSort lt l = l := by
  simpa [refSort] using foldIns_of_sorted hs l [] (by simpa using h)

/-! ### Stable rearrangement equivalence

Two lists are `SEquiv` when inserting their elements in order into any
accumulator gives the same result.  All in-place steps the algorithm performs
(swapping strictly inverted adjacent pairs, reversing strictly descending
segments, stable insertion, stable merging of sorted neighbours) preserve this
relation, and `SEquiv l l'` with `l'` sorted forces `l' = refSort lt l`. -/

def SEquiv (lt : α → α → Bool) (l l' : List α) : Prop :=
  ∀ A : List α, foldIns lt A l = foldIns lt A l'

theorem SEquiv.refl (lt : α → α → Bool) (l : List α) : SEquiv lt l l :=
  fun _ => rfl

theorem SEquiv.symm {lt : α → α → Bool} {l l' : List α}
    (h : SEquiv lt l l') : SEquiv lt l' l := fun A => (h A).symm

theorem SEquiv.trans {lt : α → α → Bool} {l l' l'' : List α}
    (h1 : SEquiv lt l l') (h2 : SEquiv lt l' l'') : SEquiv lt l l'' :=
  fun A => (h1 A).trans (h2 A)

theorem foldIns_append (lt : α → α → Bool) :
    ∀ (p q A : List α), foldIns lt A (p ++ q) = foldIns lt (foldIns lt A p) q
  | [], _, _ => rfl
  | _ :: p, q, A => foldIns_append lt p q (insertR lt _ A)

theorem SEquiv.append_congr {lt : α → α → Bool} {l l' : List α}
    (h : SEquiv lt l l') (p s : List α) :
    SEquiv lt (p ++ l ++ s) (p ++ l' ++ s) := by
  intro A
  rw [List.append_assoc, List.append_assoc, foldIns_append, foldIns_append,
    foldIns_append, foldIns_append, h]

theorem SEquiv.append_right {lt : α → α → Bool} {l l' : List α}
    (h : SEquiv lt l l') (p : List α) : SEquiv lt (p ++ l) (p ++ l') := by
  intro A
  rw [foldIns_append, foldIns_append]
  exact h _

theorem SEquiv.append_left {lt : α → α → Bool} {l l' : List α}
    (h : SEquiv lt l l') (s : List α) : SEquiv lt (l ++ s) (l' ++ s) := by
  intro A
  rw [foldIns_append, foldIns_append, h A]

/-- Inserting two strictly ordered elements commutes. -/
theorem insertR_comm {lt : α → α → Bool} (hs : SWO lt) {x y : α}
    (hyx : lt y x = true) :
    ∀ A : List α, insertR lt y (insertR lt x A) = insertR lt x (insertR lt y A)
  | [] => by
    have hxy := hs.asymm _ _ hyx
    simp [insertR, hyx, hxy]
  | a :: A => by
    have hxy := hs.asymm _ _ hyx
    by_cases hxa : lt x a = true
    · have hya : lt y a = true := hs.lt_trans hyx hxa
      simp [insertR, hxa, hya, hyx, hxy]
    · have hxa' : lt x a = false := by simpa using hxa
      by_cases hya : lt y a = true
      · simp [insertR, hxa', hya, hyx, hxy]
      · have hya' : lt y a = false := by simpa using hya
        have ih := insertR_comm hs hyx A
        simp [insertR, hxa', hya', ih]

/-- Swapping a strictly inverted adjacent pair is a stable rearrangement. -/
theorem sequiv_swap {lt : α → α → Bool} (hs : SWO lt) {x y : α}
    (hyx : lt y x = true) (s : List α) :
    SEquiv lt (x :: y :: s) (y :: x :: s) := by
  intro A
  show foldIns lt (insertR lt y (insertR lt x A)) s
      = foldIns lt (insertR lt x (insertR lt y A)) s
  rw [insertR_comm hs hyx]

theorem SEquiv.cons_congr {lt : α → α → Bool} {l l' : List α}
    (h : SEquiv lt l l') (x : α) : SEquiv lt (x :: l) (x :: l') := by
  intro A
  show foldIns lt (insertR lt x A) l = foldIns lt (insertR lt x A) l'
  exact h _

/-- An element strictly below a whole block moves to its front. -/
theorem sequiv_move_front {lt : α → α → Bool} (hs : SWO lt) {x : α} :
    ∀ {L : List α}, (∀ z ∈ L, lt x z = true) → ∀ (S : List α),
      SEquiv lt (L ++ x :: S) (x :: (L ++ S))
  | [], _, S => SEquiv.refl lt _
  | z :: L, h, S => by
    have h1 : SEquiv lt (L ++ x :: S) (x :: (L ++ S)) :=
      sequiv_move_front hs (fun w hw => h w (by simp [hw])) S
    have h2 : SEquiv lt (z :: (L ++ x :: S)) (z :: x :: (L ++ S)) :=
      h1.cons_congr z
    have h3 : SEquiv lt (z :: x :: (L ++ S)) (x :: z :: (L ++ S)) :=
      sequiv_swap hs (h z (by simp)) _
    exact h2.trans h3

/-- An element strictly above a whole block moves to its back. -/
theorem sequiv_move_back {lt : α → α → Bool} (hs : SWO lt) {x : α} :
    ∀ {L : List α}, (∀ z ∈ L, lt z x = true) → ∀ (S : List α),
      SEquiv lt (x :: (L ++ S)) (L ++ x :: S)
  | [], _, S => SEquiv.refl lt _
  | z :: L, h, S => by
    have h3 : SEquiv lt (x :: z :: (L ++ S)) (z :: x :: (L ++ S)) :=
      sequiv_swap hs (h z (by simp)) _
    have h1 : SEquiv lt (x :: (L ++ S)) (L ++ x :: S) :=
      sequiv_move_back hs (fun w hw => h w (by simp [hw])) S
    exact h3.trans (h1.cons_congr z)

/-- Strictly descending lists (per adjacent pairs). -/
def descB (lt : α → α → Bool) : List α → Bool
  | [] => true
  | [_] => true
  | a :: b :: l => lt b a && descB lt (b :: l)

theorem descB_head {lt : α → α → Bool} {a b : α} {l : List α}
    (h : descB lt (a :: b :: l) = true) : lt b a = true := by
  rw [show descB lt (a :: b :: l) = (lt b a && descB lt (b :: l)) from rfl,
    Bool.and_eq_true] at h
  exact h.1

theorem descB_tail {lt : α → α → Bool} {a : α} {l : List α}
    (h : descB lt (a :: l) = true) : descB lt l = true := by
  cases l with
  | nil => rfl
  | cons b l =>
    rw [show descB lt (a :: b :: l) = (lt b a && descB lt (b :: l)) from rfl,
      Bool.and_eq_true] at h
    exact h.2

theorem descB_pairwise {lt : α → α → Bool} (hs : SWO lt) :
    ∀ {l : List α}, descB lt l = true → l.Pairwise (fun a b => lt b a = true)
  | [], _ => List.Pairwise.nil
  | [_], _ => by simp
  | a :: b :: l, h => by
    have hba := descB_head h
    have ih := descB_pairwise hs (descB_tail h)
    refine List.Pairwise.cons ?_ ih
    intro c hc
    rcases List.mem_cons.1 hc with hc | hc
    · subst hc; exact hba
    · exact hs.lt_trans (List.rel_of_pairwise_cons ih hc) hba

/-- Reversing a strictly descending list is a stable rearrangement. -/
theorem sequiv_reverse_desc {lt : α → α → Bool} (hs : SWO lt) :
    ∀ {l : List α}, descB lt l = true → SEquiv lt l l.reverse
  | [], _ => SEquiv.refl lt _
  | x :: xs, h => by
    have hall : ∀ z ∈ xs, lt z x = true := by
      intro z hz
      exact List.rel_of_pairwise_cons (descB_pairwise hs h) hz
    have h1 : SEquiv lt (x :: (xs ++ [])) (xs ++ x :: []) :=
      sequiv_move_back hs hall []
    have h2 : SEquiv lt xs xs.reverse := sequiv_reverse_desc hs (descB_tail h)
    have h3 : SEquiv lt (xs ++ [x]) (xs.reverse ++ [x]) := by
      have := h2.append_congr [] [x]
      simpa using this
    have := h1.trans h3
    simpa using this

/-! ### Merge specifications -/

/-- Stable two-way merge consuming from the front; ties prefer the left run. -/
def mergePure (lt : α → α → Bool) : List α → List α → List α
  | [], r => r
  | l, [] => l
  | a :: l, b :: r =>
    if lt b a then b :: mergePure lt (a :: l) r
    else a :: mergePure lt l (b :: r)
  termination_by l r => l.length + r.length

theorem mergePure_nil_left (lt : α → α → Bool) (r : List α) :
    mergePure lt [] r = r := by simp [mergePure]

theorem mergePure_nil_right (lt : α → α → Bool) (l : List α) :
    mergePure lt l [] = l := by cases l <;> simp [mergePure]

theorem mergePure_cons_cons (lt : α → α → Bool) (a b : α) (l r : List α) :
    mergePure lt (a :: l) (b :: r) =
      if lt b a then b :: mergePure lt (a :: l) r
      else a :: mergePure lt l (b :: r) := by
  rw [mergePure]

theorem mergePure_perm (lt : α → α → Bool) :
    ∀ l r : List α, (mergePure lt l r).Perm (l ++ r)
  | [], r => by simp [mergePure_nil_left]
  | a :: l, [] => by simp [mergePure_nil_right]
  | a :: l, b :: r => by
    rw [mergePure_cons_cons]
    split
    · have ih := mergePure_perm lt (a :: l) r
      refine (ih.cons b).trans ?_
      exact (@List.perm_middle _ b (a :: l) r).symm
    · exact (mergePure_perm lt l (b :: r)).cons a
  termination_by l r => l.length + r.length

/-- Merging two sorted neighbours is a stable rearrangement of their
concatenation. -/
theorem sequiv_mergePure {lt : α → α → Bool} (hs : SWO lt) :
    ∀ (l r : List α), sortedB lt l = true →
      SEquiv lt (l ++ r) (mergePure lt l r)
  | [], r, _ => by simpa [mergePure_nil_left] using SEquiv.refl lt r
  | a :: l, [], _ => by simpa [mergePure_nil_right] using SEquiv.refl lt (a :: l)
  | a :: l, b :: r, hl => by
    rw [mergePure_cons_cons]
    split
    · next hba =>
      have hallb : ∀ z ∈ a :: l, lt b z = true := by
        intro z hz
        rcases List.mem_cons.1 hz with hz | hz
        · subst hz; exact hba
        · exact hs.lt_of_lt_of_nlt hba
            (List.rel_of_pairwise_cons (sortedB_pairwise hs hl) hz)
      have h1 : SEquiv lt ((a :: l) ++ b :: r) (b :: ((a :: l) ++ r)) :=
        sequiv_move_front hs hallb r
      have h2 : SEquiv lt ((a :: l) ++ r) (mergePure lt (a :: l) r) :=
        sequiv_mergePure hs (a :: l) r hl
      exact h1.trans (h2.cons_congr b)
    · next hba =>
      have h2 : SEquiv lt (l ++ b :: r) (mergePure lt l (b :: r)) :=
        sequiv_mergePure hs l (b :: r) (sortedB_tail hl)
      exact h2.cons_congr a
  termination_by l r => l.length + r.length

theorem mergePure_head {lt : α → α → Bool} :
    ∀ {l r : List α} {c : α}, (mergePure lt l r).head? = some c →
      l.head? = some c ∨ r.head? = some c
  | [], r, c, h => by
    rw [mergePure_nil_left] at h; exact Or.inr h
  | a :: l, [], c, h => by
    rw [mergePure_nil_right] at h; exact Or.inl h
  | a :: l, b :: r, c, h => by
    rw [mergePure_cons_cons] at h
    split at h
    · exact Or.inr (by simpa using h)
    · exact Or.inl (by simpa using h)

/-- Merging sorted lists yields a sorted list. -/
theorem mergePure_sorted {lt : α → α → Bool} (hs : SWO lt) :
    ∀ {l r : List α}, sortedB lt l = true → sortedB lt r = true →
      sortedB lt (mergePure lt l r) = true
  | [], r, _, hr => by rw [mergePure_nil_left]; exact hr
  | a :: l, [], hl, _ => by rw [mergePure_nil_right]; exact hl
  | a :: l, b :: r, hl, hr => by
    rw [mergePure_cons_cons]
    split
    · next hba =>
      have htail : sortedB lt (mergePure lt (a :: l) r) = true :=
        mergePure_sorted hs hl (sortedB_tail hr)
      cases hm : mergePure lt (a :: l) r with
      | nil => rfl
      | cons c m =>
        refine sortedB_cons_of ?_ (hm ▸ htail)
        rcases mergePure_head (by rw [hm]; rfl) with hc | hc
        · have : a = c := by simpa using hc
          subst this
          exact hs.asymm _ _ hba
        · cases r with
          | nil => simp at hc
          | cons b' r' =>
            have : b' = c := by simpa using hc
            subst this
            exact sortedB_head hr
    · next hba =>
      have htail : sortedB lt (mergePure lt l (b :: r)) = true :=
        mergePure_sorted hs (sortedB_tail hl) hr
      cases hm : mergePure lt l (b :: r) with
      | nil => rfl
      | cons c m =>
        refine sortedB_cons_of ?_ (hm ▸ htail)
        rcases mergePure_head (by rw [hm]; rfl) with hc | hc
        · cases l with
          | nil => simp at hc
          | cons a' l' =>
            have : a' = c := by simpa using hc
            subst this
            exact sortedB_head hl
        · have : b = c := by simpa using hc
          subst this
          simpa using hba
  termination_by l r => l.length + r.length

theorem sortedB_append_left {lt : α → α → Bool} :
    ∀ {l s : List α}, sortedB lt (l ++ s) = true → sortedB lt l = true
  | [], _, _ => rfl
  | [_], _, _ => rfl
  | a :: b :: l, s, h => by
    have hh : lt b a = false := sortedB_head h
    have ht : sortedB lt ((b :: l) ++ s) = true := sortedB_tail h
    exact sortedB_cons_of hh (sortedB_append_left ht)

/-- In a sorted list, nothing is greater than the last element. -/
theorem last_ge_all {lt : α → α → Bool} (hs : SWO lt) :
    ∀ {l : List α} {x : α}, sortedB lt l = true → l.getLast? = some x →
      ∀ z ∈ l, lt x z = false
  | [], _, _, hx => by simp at hx
  | [a], x, _, hx => by
    intro z hz
    have hax : a = x := by simpa using hx
    have haz : z = a := by simpa using hz
    subst hax; subst haz
    exact hs.irrefl _
  | a :: b :: l, x, hl, hx => by
    intro z hz
    have hx' : (b :: l).getLast? = some x := by simpa using hx
    rcases List.mem_cons.1 hz with hz | hz
    · subst hz
      have hxa : lt x z = false := by
        have hxmem : x ∈ b :: l := List.mem_of_mem_getLast? hx'
        exact List.rel_of_pairwise_cons (sortedB_pairwise hs hl) hxmem
      exact hxa
    · exact last_ge_all hs (sortedB_tail hl) hx' z hz

/-- If b is not above the last of a sorted list, it is not above any element. -/
theorem all_nlt_of_nlt_last {lt : α → α → Bool} (hs : SWO lt) {l : List α}
    {x b : α} (hl : sortedB lt l = true) (hx : l.getLast? = some x)
    (hb : lt b x = false) : ∀ z ∈ l, lt b z = false := by
  intro z hz
  cases hbz : lt b z with
  | false => rfl
  | true =>
    have hxz : lt x z = false := last_ge_all hs hl hx z hz
    have : lt b x = true := hs.lt_of_lt_of_nlt hbz hxz
    exact absurd this (by simp [hb])

/-- Merge is concatenation when the right head does not go below the left. -/
theorem mergePure_eq_append {lt : α → α → Bool} :
    ∀ (l r : List α), (∀ x ∈ l, ∀ y, r.head? = some y → lt y x = false) →
      mergePure lt l r = l ++ r
  | [], r, _ => by simp [mergePure_nil_left]
  | a :: l, [], _ => by simp [mergePure_nil_right]
  | a :: l, b :: r, h => by
    rw [mergePure_cons_cons, if_neg (by simp [h a (by simp) b rfl])]
    rw [mergePure_eq_append l (b :: r) (fun x hx => h x (by simp [hx]))]
    simp

/-- The strictly largest element, appended to the left run, ends the merge. -/
theorem mergePure_append_big {lt : α → α → Bool} (hs : SWO lt) :
    ∀ (l r : List α) (a : α), sortedB lt r = true →
      (∀ y, r.getLast? = some y → lt y a = true) →
      mergePure lt (l ++ [a]) r = mergePure lt l r ++ [a]
  | l, [], a, _, _ => by simp [mergePure_nil_right]
  | [], y :: r', a, hr, hy => by
    rcases hgl : (y :: r').getLast? with _ | w
    · simp at hgl
    · have hwa : lt w a = true := hy w hgl
      have hwy : lt w y = false := last_ge_all hs hr hgl y (by simp)
      have hya : lt y a = true := hs.lt_of_nlt_of_lt hwy hwa
      show mergePure lt (a :: []) (y :: r') = mergePure lt [] (y :: r') ++ [a]
      rw [mergePure_cons_cons, if_pos (by simp [hya]), mergePure_nil_left]
      have ih : mergePure lt ([] ++ [a]) r' = mergePure lt [] r' ++ [a] := by
        refine mergePure_append_big hs [] r' a (sortedB_tail hr) ?_
        intro y' hy'
        cases r' with
        | nil => simp at hy'
        | cons z r'' =>
          exact hy y' (by rw [List.getLast?_cons_cons]; exact hy')
      simpa [mergePure_nil_left] using congrArg (y :: ·) ih
  | x :: l'', y :: r', a, hr, hy => by
    have hy' : ∀ y', r'.getLast? = some y' → lt y' a = true := by
      intro y' hgl
      cases r' with
      | nil => simp at hgl
      | cons z r'' =>
        exact hy y' (by rw [List.getLast?_cons_cons]; exact hgl)
    show mergePure lt (x :: (l'' ++ [a])) (y :: r')
        = mergePure lt (x :: l'') (y :: r') ++ [a]
    rw [mergePure_cons_cons, mergePure_cons_cons]
    by_cases hyx : lt y x = true
    · rw [if_pos hyx, if_pos hyx]
      have ih := mergePure_append_big hs (x :: l'') r' a (sortedB_tail hr) hy'
      simpa using congrArg (y :: ·) ih
    · rw [if_neg hyx, if_neg hyx]
      have ih := mergePure_append_big hs l'' (y :: r') a hr hy
      simpa using congrArg (x :: ·) ih
  termination_by l r a => l.length + r.length

/-- An element not below anything in the left run, appended to the right run,
ends the merge. -/
theorem mergePure_append_small {lt : α → α → Bool} :
    ∀ (l r : List α) (b : α), (∀ x ∈ l, lt b x = false) →
      mergePure lt l (r ++ [b]) = mergePure lt l r ++ [b]
  | [], r, b, _ => by simp [mergePure_nil_left]
  | x :: l'', [], b, h => by
    show mergePure lt (x :: l'') (b :: []) = mergePure lt (x :: l'') [] ++ [b]
    rw [mergePure_cons_cons, if_neg (by simp [h x (by simp)]), mergePure_nil_right]
    have ih := mergePure_append_small l'' [] b (fun z hz => h z (by simp [hz]))
    simpa [mergePure_nil_right] using congrArg (x :: ·) ih
  | x :: l'', y :: r', b, h => by
    show mergePure lt (x :: l'') (y :: (r' ++ [b]))
        = mergePure lt (x :: l'') (y :: r') ++ [b]
    rw [mergePure_cons_cons, mergePure_cons_cons]
    by_cases hyx : lt y x = true
    · rw [if_pos hyx, if_pos hyx]
      have ih := mergePure_append_small (x :: l'') r' b h
      simpa using congrArg (y :: ·) ih
    · rw [if_neg hyx, if_neg hyx]
      have ih := mergePure_append_small l'' (y :: r') b
        (fun z hz => h z (by simp [hz]))
      simpa using congrArg (x :: ·) ih
  termination_by l r b => l.length + r.length

/-- Backward merge consuming the greater element from the back, on reversed
lists: first argument is the reversed left run, second the reversed right run.
Ties prefer the right run (which, read forward, keeps left-run elements
first). -/
def mergeBackR (lt : α → α → Bool) : List α → List α → List α
  | rl, [] => rl
  | [], rr => rr
  | a :: rl, b :: rr =>
    if lt b a then a :: mergeBackR lt rl (b :: rr)
    else b :: mergeBackR lt (a :: rl) rr
  termination_by rl rr => rl.length + rr.length

theorem mergeBackR_nil_right (lt : α → α → Bool) (rl : List α) :
    mergeBackR lt rl [] = rl := by cases rl <;> simp [mergeBackR]

theorem mergeBackR_nil_left (lt : α → α → Bool) (rr : List α) :
    mergeBackR lt [] rr = rr := by cases rr <;> simp [mergeBackR]

theorem mergeBackR_cons_cons (lt : α → α → Bool) (a b : α) (rl rr : List α) :
    mergeBackR lt (a :: rl) (b :: rr) =
      if lt b a then a :: mergeBackR lt rl (b :: rr)
      else b :: mergeBackR lt (a :: rl) rr := by
  rw [mergeBackR]

/-- The net effect of the backward merge, read forward. -/
def mergeBack (lt : α → α → Bool) (l r : List α) : List α :=
  (mergeBackR lt l.reverse r.reverse).reverse

theorem mergeBackR_reverse {lt : α → α → Bool} (hs : SWO lt) :
    ∀ (rl rr : List α), sortedB lt rl.reverse = true →
      sortedB lt rr.reverse = true →
      (mergeBackR lt rl rr).reverse = mergePure lt rl.reverse rr.reverse
  | rl, [], _, _ => by simp [mergeBackR_nil_right, mergePure_nil_right]
  | [], b :: rr, _, _ => by simp [mergeBackR_nil_left, mergePure_nil_left]
  | a :: rl, b :: rr, hl, hr => by
    have hrev : (a :: rl).reverse = rl.reverse ++ [a] := by simp
    have hrevr : (b :: rr).reverse = rr.reverse ++ [b] := by simp
    rw [mergeBackR_cons_cons]
    by_cases hba : lt b a = true
    · rw [if_pos hba]
      have hlr : sortedB lt rl.reverse = true := by
        rw [hrev] at hl
        exact sortedB_append_left hl
      have ih := mergeBackR_reverse hs rl (b :: rr) hlr hr
      have hy : ∀ y, ((b :: rr).reverse).getLast? = some y → lt y a = true := by
        intro y hgl
        rw [List.getLast?_reverse] at hgl
        have : b = y := by simpa using hgl
        subst this
        exact hba
      rw [hrev, mergePure_append_big hs rl.reverse ((b :: rr).reverse) a hr hy]
      simp [ih]
    · rw [if_neg hba]
      have hba' : lt b a = false := by simpa using hba
      have hrr : sortedB lt rr.reverse = true := by
        rw [hrevr] at hr
        exact sortedB_append_left hr
      have ih := mergeBackR_reverse hs (a :: rl) rr hl hrr
      have hall : ∀ x ∈ (a :: rl).reverse, lt b x = false := by
        refine all_nlt_of_nlt_last hs hl ?_ hba'
        rw [List.getLast?_reverse]
        rfl
      rw [hrevr, mergePure_append_small ((a :: rl).reverse) rr.reverse b hall]
      simp [ih]
  termination_by rl rr => rl.length + rr.length

/-- On sorted runs the backward merge agrees with the forward merge. -/
theorem mergeBack_eq_mergePure {lt : α → α → Bool} (hs : SWO lt)
    {l r : List α} (hl : sortedB lt l = true) (hr : sortedB lt r = true) :
    mergeBack lt l r = mergePure lt l r := by
  unfold mergeBack
  rw [mergeBackR_reverse hs l.reverse r.reverse (by simpa using hl)
    (by simpa using hr)]
  simp

/-! ### Plain embedding of the core (net array effect of each source function)

Lists model slices; an index pair models a sub-slice window.  `gD` models a
raw read at an index the source guarantees in bounds. -/

def gD [Inhabited α] (l : List α) (i : Nat) : α := l.getD i default

/-- Apply an in-place operation to the window [i, j) of v, as the source does
when passing the sub-slice v[i..j] to a helper. -/
def applyIn (i j : Nat) (f : List α → List α) (v : List α) : List α :=
  v.take i ++ f ((v.drop i).take (j - i)) ++ v.drop j

/-- Net effect of swap_next_if_less on the two slots it touches. -/
def cswap (lt : α → α → Bool) (x y : α) : α × α :=
  if lt y x then (y, x) else (x, y)

/-- sort2: one conditional swap of the first two slots. -/
def sort2A (lt : α → α → Bool) : List α → List α
  | x1 :: x2 :: rest =>
    let p := cswap lt x1 x2
    p.1 :: p.2 :: rest
  | l => l

/-- sort3: swap_next_if_less at offsets 0, 1, 0. -/
def sort3A (lt : α → α → Bool) : List α → List α
  | x1 :: x2 :: x3 :: rest =>
    let p1 := cswap lt x1 x2
    let p2 := cswap lt p1.2 x3
    let p3 := cswap lt p1.1 p2.1
    p3.1 :: p3.2 :: p2.2 :: rest
  | l => l

/-- sort4: swaps at offsets 0 and 2, then, if slots 1 and 2 are inverted,
an unconditional swap of slots 1 and 2 followed by swaps at offsets 0, 2, 1. -/
def sort4A (lt : α → α → Bool) : List α → List α
  | x1 :: x2 :: x3 :: x4 :: rest =>
    let p1 := cswap lt x1 x2
    let p2 := cswap lt x3 x4
    if lt p2.1 p1.2 then
      let q1 := cswap lt p1.1 p2.1
      let q2 := cswap lt p1.2 p2.2
      let q3 := cswap lt q1.2 q2.1
      q1.1 :: q3.1 :: q3.2 :: q2.2 :: rest
    else
      p1.1 :: p1.2 :: p2.1 :: p2.2 :: rest
  | l => l

/-- merge_up: one branchless forward step; both slots dest[pd], dest[pd+1]
are written, exactly one cursor advances. -/
def merge_upA [Inhabited α] (lt : α → α → Bool) (src : List α)
    (st : Nat × Nat × Nat) (dest : List α) : (Nat × Nat × Nat) × List α :=
  let pl := st.1
  let pr := st.2.1
  let pd := st.2.2
  let x := !lt (gD src pr) (gD src pl)
  let d1 := dest.set (pd + cond x 1 0) (gD src pr)
  let d2 := d1.set (pd + cond x 0 1) (gD src pl)
  ((pl + cond x 1 0, pr + cond x 0 1, pd + 1), d2)

/-- merge_down: one branchless backward step. -/
def merge_downA [Inhabited α] (lt : α → α → Bool) (src : List α)
    (st : Nat × Nat × Nat) (dest : List α) : (Nat × Nat × Nat) × List α :=
  let pl := st.1
  let pr := st.2.1
  let pd := st.2.2
  let x := !lt (gD src pr) (gD src pl)
  let pd' := pd - 1
  let d1 := dest.set (pd' + cond x 1 0) (gD src pr)
  let d2 := d1.set (pd' + cond x 0 1) (gD src pl)
  ((pl - cond x 0 1, pr - cond x 1 0, pd'), d2)

def finish_upA [Inhabited α] (lt : α → α → Bool) (src : List α)
    (pl pr pd : Nat) (dest : List α) : List α :=
  dest.set pd (if lt (gD src pr) (gD src pl) then gD src pr else gD src pl)

def finish_downA [Inhabited α] (lt : α → α → Bool) (src : List α)
    (pl pr pd : Nat) (dest : List α) : List α :=
  dest.set pd (if lt (gD src pr) (gD src pl) then gD src pl else gD src pr)

/-- parity_merge8: merge the sorted halves src[0..4] and src[4..8] into
dest[0..8], three merge_up steps plus finish_up from the front and three
merge_down steps plus finish_down from the back. -/
def parity_merge8A [Inhabited α] (lt : α → α → Bool) (src dest : List α) :
    List α :=
  let r1 := merge_upA lt src (0, 4, 0) dest
  let r2 := merge_upA lt src r1.1 r1.2
  let r3 := merge_upA lt src r2.1 r2.2
  let d4 := finish_upA lt src r3.1.1 r3.1.2.1 r3.1.2.2 r3.2
  let t1 := merge_downA lt src (3, 7, 7) d4
  let t2 := merge_downA lt src t1.1 t1.2
  let t3 := merge_downA lt src t2.1 t2.2
  finish_downA lt src t3.1.1 t3.1.2.1 t3.1.2.2 t3.2

/-- The while loop of parity_merge: one merge_up and one merge_down per
iteration. -/
def parity_merge_loopA [Inhabited α] (lt : α → α → Bool) (src : List α) :
    Nat → Nat × Nat × Nat → Nat × Nat × Nat → List α →
      (Nat × Nat × Nat) × (Nat × Nat × Nat) × List α
  | 0, up, down, dest => (up, down, dest)
  | block + 1, up, down, dest =>
    let r := merge_upA lt src up dest
    let t := merge_downA lt src down r.2
    parity_merge_loopA lt src block r.1 t.1 t.2

/-- parity_merge: merge the sorted halves src[0..len/2] and src[len/2..len]
into dest[0..len]. -/
def parity_mergeA [Inhabited α] (lt : α → α → Bool) (src dest : List α)
    (len : Nat) : List α :=
  let block := len / 2
  let res := parity_merge_loopA lt src (block - 1) (0, block, 0)
    (block - 1, len - 1, len - 1) dest
  let d1 := finish_upA lt src res.1.1 res.1.2.1 res.1.2.2 res.2.2
  finish_downA lt src res.2.1.1 res.2.1.2.1 res.2.1.2.2 d1

/-- sort8: sort both halves with sort4, return early if the border pair is
already ordered, otherwise copy the 8 elements to a scratch array and
parity-merge them back into the slice. -/
def sort8A [Inhabited α] (lt : α → α → Bool) (v : List α) : List α :=
  let v1 := sort4A lt v
  let v2 := v1.take 4 ++ sort4A lt (v1.drop 4)
  if !lt (gD v2 4) (gD v2 3) then v2
  else
    let swp := v2.take 8
    parity_merge8A lt swp v2

/-- sort16: sort the four quadrants with sort4, return early if the three
border pairs are ordered, otherwise parity-merge the quadrant pairs into a
scratch array and parity-merge its halves back into the slice.  (The scratch
array is uninitialized in the source; its initial contents is irrelevant and
modelled by the corresponding slice contents.) -/
def sort16A [Inhabited α] (lt : α → α → Bool) (v : List α) : List α :=
  let v1 := sort4A lt v
  let v2 := v1.take 4 ++ sort4A lt (v1.drop 4)
  let v3 := v2.take 8 ++ sort4A lt (v2.drop 8)
  let v4 := v3.take 12 ++ sort4A lt (v3.drop 12)
  if !lt (gD v4 4) (gD v4 3) && !lt (gD v4 8) (gD v4 7) &&
      !lt (gD v4 12) (gD v4 11) then v4
  else
    let swp := parity_merge8A lt (v4.take 8) (v4.take 8) ++
      parity_merge8A lt ((v4.drop 8).take 8) ((v4.drop 8).take 8)
    parity_mergeA lt swp v4 16

/-- The shifting walk of insert_tail over the reversed sorted head of the
slice: keep moving left past elements the lifted value is less than. -/
def insert_tail_goA (lt : α → α → Bool) (x : α) : List α → List α
  | [] => [x]
  | y :: ys => if lt x y then y :: insert_tail_goA lt x ys else x :: y :: ys

/-- insert_tail: insert the last element of v into the sorted v[..len-1]. -/
def insert_tailA (lt : α → α → Bool) (v : List α) : List α :=
  match v.reverse with
  | [] => v
  | x :: rxs => (insert_tail_goA lt x rxs).reverse

/-- The shifting walk of insert_head: keep moving right past elements that
are less than the lifted head. -/
def insert_head_goA (lt : α → α → Bool) (x : α) : List α → List α
  | [] => [x]
  | z :: zs => if lt z x then z :: insert_head_goA lt x zs else x :: z :: zs

/-- insert_head: insert v[0] into the sorted v[1..]. -/
def insert_headA (lt : α → α → Bool) : List α → List α
  | x :: y :: rest => insert_head_goA lt x (y :: rest)
  | l => l

/-- The loop of insertion_sort_remaining: n remaining iterations, next
position i (insert_tail on v[..=i]). -/
def isr_loopA (lt : α → α → Bool) : Nat → List α → Nat → List α
  | 0, v, _ => v
  | n + 1, v, i =>
    isr_loopA lt n (insert_tailA lt (v.take (i + 1)) ++ v.drop (i + 1)) (i + 1)

/-- insertion_sort_remaining: v[..offset] is sorted; extend over the rest. -/
def insertion_sort_remainingA (lt : α → α → Bool) (v : List α)
    (offset : Nat) : List α :=
  if v.length < 2 ∨ offset = 0 then v
  else isr_loopA lt (v.length - offset) v offset

/-- The non-Copy branch of sort_small: insert_head on v[i..] for i from
len-2 down to 0; the argument is the number of remaining iterations. -/
def insert_head_loopA (lt : α → α → Bool) : Nat → List α → List α
  | 0, v => v
  | i + 1, v => insert_head_loopA lt i (v.take i ++ insert_headA lt (v.drop i))

/-- sort_small: dispatch on length (and trivial relocatability). -/
def sort_smallA [Inhabited α] (lt : α → α → Bool) (isCopy : Bool)
    (v : List α) : List α :=
  if v.length < 2 then v
  else if isCopy then
    if v.length = 2 then sort2A lt v
    else if v.length = 3 then sort3A lt v
    else if v.length < 8 then insertion_sort_remainingA lt (sort4A lt v) 4
    else if v.length < 16 then insertion_sort_remainingA lt (sort8A lt v) 8
    else insertion_sort_remainingA lt (sort16A lt v) 16
  else insert_head_loopA lt (v.length - 1) v

/-- The descending scan of the run detector (current index is the argument):
while start > 0 and v[start] < v[start-1], decrement. -/
def descWhileA [Inhabited α] (lt : α → α → Bool) (v : List α) : Nat → Nat
  | 0 => 0
  | s + 1 => if lt (gD v (s + 1)) (gD v s) then descWhileA lt v s else s + 1

/-- The non-descending scan of the run detector. -/
def ascendWhileA [Inhabited α] (lt : α → α → Bool) (v : List α) : Nat → Nat
  | 0 => 0
  | s + 1 => if !lt (gD v (s + 1)) (gD v s) then ascendWhileA lt v s else s + 1

/-- In-place reversal of the window [s, e) of v. -/
def reverseRange (v : List α) (s e : Nat) : List α :=
  v.take s ++ ((v.drop s).take (e - s)).reverse ++ v.drop e

/-- The run detection step of merge_sort: find the next natural run ending
at e, reversing it when strictly descending; returns its start and the
updated array. -/
def find_runA [Inhabited α] (lt : α → α → Bool) (v : List α) (e : Nat) :
    Nat × List α :=
  let start := e - 1
  if start > 0 then
    let start1 := start - 1
    if lt (gD v (start1 + 1)) (gD v start1) then
      let s := descWhileA lt v start1
      (s, reverseRange v s e)
    else
      (ascendWhileA lt v start1, v)
  else (start, v)

/-- The insert_head loop of provide_sorted_batch, i descending from
start' + n - 1 to start', each applied to the window [i, e). -/
def pb_insert_loopA (lt : α → α → Bool) (e start' : Nat) :
    Nat → List α → List α
  | 0, v => v
  | n + 1, v =>
    pb_insert_loopA lt e start' n (applyIn (start' + n) e (insert_headA lt) v)

/-- provide_sorted_batch: extend the already sorted range [start, e)
backwards with a sort16 batch (Copy types, short run, room for 16) or with
repeated insert_head until the minimum run length 10 is reached. -/
def provide_sorted_batchA [Inhabited α] (lt : α → α → Bool) (isCopy : Bool)
    (v : List α) (start e : Nat) : Nat × List α :=
  let start_found := start
  let start_end_diff := e - start
  if isCopy ∧ start_end_diff < 8 ∧ start_found ≥ 16 then
    let start' := start_found - 16
    let v1 := applyIn start' start_found (sort16A lt) v
    let v2 := applyIn start' e (fun w => insertion_sort_remainingA lt w 16) v1
    (start', v2)
  else if start_end_diff < 10 then
    let start' := start - (10 - start_end_diff)
    (start', pb_insert_loopA lt e start' (start_found - start') v)
  else (start, v)

/-- Run descriptor (fields as in the source). -/
structure Run where
  len : Nat
  start : Nat
deriving Repr, DecidableEq, Inhabited

/-- collapse: decide which adjacent pair of runs to merge next; the stack
grows to the right, runs[n-1] is the most recently pushed run. -/
def collapse (runs : List Run) : Option Nat :=
  let n := runs.length
  let rg := fun i => runs.getD i ⟨0, 0⟩
  if n ≥ 2 ∧ ((rg (n-1)).start = 0
      ∨ (rg (n-2)).len ≤ (rg (n-1)).len
      ∨ (n ≥ 3 ∧ (rg (n-3)).len ≤ (rg (n-2)).len + (rg (n-1)).len)
      ∨ (n ≥ 4 ∧ (rg (n-4)).len ≤ (rg (n-3)).len + (rg (n-2)).len)) then
    if n ≥ 3 ∧ (rg (n-3)).len < (rg (n-1)).len then some (n-3) else some (n-2)
  else none

theorem collapse_some_lt {runs : List Run} {r : Nat}
    (h : collapse runs = some r) : r + 1 < runs.length := by
  simp only [collapse] at h
  split at h
  · next hcond =>
    have h2 := hcond.1
    split at h
    · next h3 =>
      have h4 : runs.length - 3 = r := by simpa using h
      have h5 := h3.1
      omega
    · have h4 : runs.length - 2 = r := by simpa using h
      omega
  · exact absurd h (by simp)

/-- merge: the top-level two-run merge.  The source copies the shorter run
into the scratch buffer and runs the forward loop (left shorter, ties prefer
the left run) or the backward loop (right shorter, ties prefer the right
run); the MergeHole guard accounts for the unconsumed scratch tail, giving
these net effects. -/
def mergeA (lt : α → α → Bool) (v : List α) (mid : Nat) : List α :=
  if mid ≤ v.length - mid then mergePure lt (v.take mid) (v.drop mid)
  else mergeBack lt (v.take mid) (v.drop mid)

/-- The collapse loop of merge_sort: merge adjacent pairs while collapse
demands it. -/
def collapse_loopA (lt : α → α → Bool) (v : List α) (runs : List Run) :
    List α × List Run :=
  match h : collapse runs with
  | none => (v, runs)
  | some r =>
    let left := runs.getD (r + 1) ⟨0, 0⟩
    let right := runs.getD r ⟨0, 0⟩
    let v' := applyIn left.start (right.start + right.len)
      (fun w => mergeA lt w left.len) v
    let runs' := (runs.set r ⟨left.len + right.len, left.start⟩).eraseIdx (r + 1)
    collapse_loopA lt v' runs'
  termination_by runs.length
  decreasing_by
    have hlt := collapse_some_lt h
    simp only [List.length_eraseIdx, List.length_set]
    split
    · omega
    · omega

theorem descWhileA_le [Inhabited α] (lt : α → α → Bool) (v : List α) :
    ∀ s, descWhileA lt v s ≤ s
  | 0 => Nat.le_refl _
  | s + 1 => by
    unfold descWhileA
    split
    · exact (descWhileA_le lt v s).trans (Nat.le_succ s)
    · exact Nat.le_refl _

theorem ascendWhileA_le [Inhabited α] (lt : α → α → Bool) (v : List α) :
    ∀ s, ascendWhileA lt v s ≤ s
  | 0 => Nat.le_refl _
  | s + 1 => by
    unfold ascendWhileA
    split
    · exact (ascendWhileA_le lt v s).trans (Nat.le_succ s)
    · exact Nat.le_refl _

theorem find_runA_le [Inhabited α] (lt : α → α → Bool) (v : List α) (e : Nat) :
    (find_runA lt v e).1 ≤ e - 1 := by
  simp only [find_runA]
  split
  · next h =>
    split
    · exact (descWhileA_le lt v (e - 1 - 1)).trans (by omega)
    · exact (ascendWhileA_le lt v (e - 1 - 1)).trans (by omega)
  · exact Nat.le_refl _

theorem provide_sorted_batchA_le [Inhabited α] (lt : α → α → Bool)
    (isCopy : Bool) (v : List α) (start e : Nat) :
    (provide_sorted_batchA lt isCopy v start e).1 ≤ start := by
  simp only [provide_sorted_batchA]
  split
  · exact Nat.sub_le _ _
  · split
    · exact Nat.sub_le _ _
    · exact Nat.le_refl _

/-- The outer run-building loop of merge_sort, with e the end of the not yet
processed part. -/
def merge_sort_loopA [Inhabited α] (lt : α → α → Bool) (isCopy : Bool)
    (v : List α) (runs : List Run) (e : Nat) : List α :=
  if he : e > 0 then
    let fr := find_runA lt v e
    let ps := provide_sorted_batchA lt isCopy fr.2 fr.1 e
    let runs1 := runs ++ [⟨e - ps.1, ps.1⟩]
    let cl := collapse_loopA lt ps.2 runs1
    merge_sort_loopA lt isCopy cl.1 cl.2 ps.1
  else v
  termination_by e
  decreasing_by
    have h1 := find_runA_le lt v e
    have h2 := provide_sorted_batchA_le lt isCopy (find_runA lt v e).2
      (find_runA lt v e).1 e
    omega

/-- merge_sort: zero-sized check, small path, or the run loop. -/
def merge_sortA [Inhabited α] (lt : α → α → Bool) (isZst isCopy : Bool)
    (v : List α) : List α :=
  if isZst then v
  else if v.length ≤ 20 then sort_smallA lt isCopy v
  else merge_sort_loopA lt isCopy v [] v.length

/-- stable_sort: zero-sized check then merge_sort. -/
def stable_sortA [Inhabited α] (lt : α → α → Bool) (isZst isCopy : Bool)
    (v : List α) : List α :=
  if isZst then v else merge_sortA lt isZst isCopy v

/-- sort_by: comparator to boolean is_less. -/
def sort_byA [Inhabited α] (compare : α → α → Ordering) (isZst isCopy : Bool)
    (v : List α) : List α :=
  stable_sortA (fun a b => compare a b == Ordering.lt) isZst isCopy v

/-- sort: the Ord-based entry point, is_less a < b. -/
def sortA {γ : Type _} [Inhabited γ] [LinearOrder γ] (isZst isCopy : Bool)
    (v : List γ) : List γ :=
  stable_sortA (fun a b => decide (a < b)) isZst isCopy v

/-! ### Correctness of the conditional-swap networks -/

theorem cswap_eq_of_lt {lt : α → α → Bool} {x y : α} (h : lt y x = true) :
    cswap lt x y = (y, x) := by simp [cswap, h]

theorem cswap_eq_of_nlt {lt : α → α → Bool} {x y : α} (h : lt y x = false) :
    cswap lt x y = (x, y) := by simp [cswap, h]

theorem cswap_sorted {lt : α → α → Bool} (hs : SWO lt) (x y : α) :
    lt (cswap lt x y).2 (cswap lt x y).1 = false := by
  cases h : lt y x with
  | true => simp [cswap, h, hs.asymm _ _ h]
  | false => simp [cswap, h]

theorem cswap_sequiv {lt : α → α → Bool} (hs : SWO lt) (x y : α) (s : List α) :
    SEquiv lt (x :: y :: s) ((cswap lt x y).1 :: (cswap lt x y).2 :: s) := by
  cases h : lt y x with
  | true => rw [cswap_eq_of_lt h]; exact sequiv_swap hs h s
  | false => rw [cswap_eq_of_nlt h]; exact SEquiv.refl lt _

theorem sort2A_spec {lt : α → α → Bool} (hs : SWO lt) (x1 x2 : α)
    (rest : List α) :
    ∃ y1 y2, sort2A lt (x1 :: x2 :: rest) = y1 :: y2 :: rest ∧
      lt y2 y1 = false ∧ SEquiv lt [x1, x2] [y1, y2] := by
  refine ⟨(cswap lt x1 x2).1, (cswap lt x1 x2).2, rfl, cswap_sorted hs x1 x2, ?_⟩
  simpa using cswap_sequiv hs x1 x2 []

theorem sort3A_spec {lt : α → α → Bool} (hs : SWO lt) (x1 x2 x3 : α)
    (rest : List α) :
    ∃ y1 y2 y3, sort3A lt (x1 :: x2 :: x3 :: rest) = y1 :: y2 :: y3 :: rest ∧
      sortedB lt [y1, y2, y3] = true ∧ SEquiv lt [x1, x2, x3] [y1, y2, y3] := by
  have h1 := cswap_sorted hs x1 x2
  set p1 := cswap lt x1 x2 with hp1
  have h2 := cswap_sorted hs p1.2 x3
  set p2 := cswap lt p1.2 x3 with hp2
  have h3 := cswap_sorted hs p1.1 p2.1
  set p3 := cswap lt p1.1 p2.1 with hp3
  refine ⟨p3.1, p3.2, p2.2, rfl, ?_, ?_⟩
  · -- sortedness of the first three slots
    have hlast : lt p2.2 p3.2 = false := by
      cases hq : lt p2.1 p1.1 with
      | false =>
        have : p3 = (p1.1, p2.1) := by rw [hp3, cswap_eq_of_nlt hq]
        rw [this]
        exact h2
      | true =>
        have hp3' : p3 = (p2.1, p1.1) := by rw [hp3, cswap_eq_of_lt hq]
        rw [hp3']
        cases hq2 : lt x3 p1.2 with
        | false =>
          have : p2 = (p1.2, x3) := by rw [hp2, cswap_eq_of_nlt hq2]
          rw [this] at hq
          exact absurd hq (by simp [h1])
        | true =>
          have : p2 = (x3, p1.2) := by rw [hp2, cswap_eq_of_lt hq2]
          rw [this]
          exact h1
    simp [sortedB_cons_cons, sortedB, h3, hlast]
  · -- stable rearrangement, one conditional swap at a time
    have s1 : SEquiv lt [x1, x2, x3] [p1.1, p1.2, x3] := cswap_sequiv hs x1 x2 [x3]
    have s2 : SEquiv lt [p1.1, p1.2, x3] [p1.1, p2.1, p2.2] :=
      (cswap_sequiv hs p1.2 x3 []).cons_congr p1.1
    have s3 : SEquiv lt [p1.1, p2.1, p2.2] [p3.1, p3.2, p2.2] := by
      have := (cswap_sequiv hs p1.1 p2.1 [p2.2])
      simpa using this
    exact (s1.trans s2).trans s3

theorem sort4A_spec {lt : α → α → Bool} (hs : SWO lt) (x1 x2 x3 x4 : α)
    (rest : List α) :
    ∃ y1 y2 y3 y4,
      sort4A lt (x1 :: x2 :: x3 :: x4 :: rest) = y1 :: y2 :: y3 :: y4 :: rest ∧
      sortedB lt [y1, y2, y3, y4] = true ∧
      SEquiv lt [x1, x2, x3, x4] [y1, y2, y3, y4] := by
  have h1 := cswap_sorted hs x1 x2
  set p1 := cswap lt x1 x2 with hp1
  have h2 := cswap_sorted hs x3 x4
  set p2 := cswap lt x3 x4 with hp2
  have s12 : SEquiv lt [x1, x2, x3, x4] [p1.1, p1.2, p2.1, p2.2] := by
    have sA : SEquiv lt [x1, x2, x3, x4] [p1.1, p1.2, x3, x4] :=
      cswap_sequiv hs x1 x2 [x3, x4]
    have sB : SEquiv lt [x3, x4] [p2.1, p2.2] := by
      simpa using cswap_sequiv hs x3 x4 []
    have sB' : SEquiv lt [p1.1, p1.2, x3, x4] [p1.1, p1.2, p2.1, p2.2] :=
      (sB.cons_congr p1.2).cons_congr p1.1
    exact sA.trans sB'
  by_cases hG : lt p2.1 p1.2 = true
  · -- the middle pair is inverted: swap it, then three more swaps
    rw [show sort4A lt (x1 :: x2 :: x3 :: x4 :: rest) =
      (let q1 := cswap lt p1.1 p2.1
       let q2 := cswap lt p1.2 p2.2
       let q3 := cswap lt q1.2 q2.1
       q1.1 :: q3.1 :: q3.2 :: q2.2 :: rest) by
        simp only [sort4A, ← hp1, ← hp2, if_pos hG]]
    have hq1 := cswap_sorted hs p1.1 p2.1
    set q1 := cswap lt p1.1 p2.1 with hq1d
    have hq2 := cswap_sorted hs p1.2 p2.2
    set q2 := cswap lt p1.2 p2.2 with hq2d
    have hq3 := cswap_sorted hs q1.2 q2.1
    set q3 := cswap lt q1.2 q2.1 with hq3d
    refine ⟨q1.1, q3.1, q3.2, q2.2, rfl, ?_, ?_⟩
    · -- sortedness by case analysis on the swaps taken
      have hGa : lt p1.2 p2.1 = false := hs.asymm _ _ hG
      have hfirst : lt q3.1 q1.1 = false ∧ lt q2.2 q3.2 = false := by
        cases hc1 : lt p2.1 p1.1 with
        | false =>
          have e1 : q1 = (p1.1, p2.1) := by rw [hq1d, cswap_eq_of_nlt hc1]
          cases hc2 : lt p2.2 p1.2 with
          | false =>
            have e2 : q2 = (p1.2, p2.2) := by rw [hq2d, cswap_eq_of_nlt hc2]
            have e3 : q3 = (p2.1, p1.2) := by
              rw [hq3d, e1, e2, cswap_eq_of_nlt hGa]
            rw [e1, e2, e3]
            exact ⟨hc1, hc2⟩
          | true =>
            have e2 : q2 = (p2.2, p1.2) := by rw [hq2d, cswap_eq_of_lt hc2]
            have e3 : q3 = (p2.1, p2.2) := by
              rw [hq3d, e1, e2, cswap_eq_of_nlt h2]
            rw [e1, e2, e3]
            exact ⟨hc1, hs.asymm _ _ hc2⟩
        | true =>
          have e1 : q1 = (p2.1, p1.1) := by rw [hq1d, cswap_eq_of_lt hc1]
          cases hc2 : lt p2.2 p1.2 with
          | false =>
            have e2 : q2 = (p1.2, p2.2) := by rw [hq2d, cswap_eq_of_nlt hc2]
            have e3 : q3 = (p1.1, p1.2) := by
              rw [hq3d, e1, e2, cswap_eq_of_nlt h1]
            rw [e1, e2, e3]
            exact ⟨hs.asymm _ _ hc1, hc2⟩
          | true =>
            have e2 : q2 = (p2.2, p1.2) := by rw [hq2d, cswap_eq_of_lt hc2]
            have e3 : q3 = cswap lt p1.1 p2.2 := by rw [hq3d, e1, e2]
            cases hc3 : lt p2.2 p1.1 with
            | false =>
              have e3' : q3 = (p1.1, p2.2) := by rw [e3, cswap_eq_of_nlt hc3]
              rw [e1, e2, e3']
              exact ⟨hs.asymm _ _ hc1, hs.asymm _ _ hc2⟩
            | true =>
              have e3' : q3 = (p2.2, p1.1) := by rw [e3, cswap_eq_of_lt hc3]
              rw [e1, e2, e3']
              exact ⟨h2, h1⟩
      simp [sortedB_cons_cons, sortedB, hfirst.1, hq3, hfirst.2]
    · -- stable rearrangement through the five swaps of this branch
      have sMid : SEquiv lt [p1.1, p1.2, p2.1, p2.2] [p1.1, p2.1, p1.2, p2.2] := by
        have := sequiv_swap hs hG [p2.2]
        exact this.cons_congr p1.1
      have sq1 : SEquiv lt [p1.1, p2.1, p1.2, p2.2] [q1.1, q1.2, p1.2, p2.2] :=
        cswap_sequiv hs p1.1 p2.1 [p1.2, p2.2]
      have sq2 : SEquiv lt [q1.1, q1.2, p1.2, p2.2] [q1.1, q1.2, q2.1, q2.2] := by
        have : SEquiv lt [p1.2, p2.2] [q2.1, q2.2] := by
          simpa using cswap_sequiv hs p1.2 p2.2 []
        exact (this.cons_congr q1.2).cons_congr q1.1
      have sq3 : SEquiv lt [q1.1, q1.2, q2.1, q2.2] [q1.1, q3.1, q3.2, q2.2] := by
        have := cswap_sequiv hs q1.2 q2.1 [q2.2]
        exact this.cons_congr q1.1
      exact (((s12.trans sMid).trans sq1).trans sq2).trans sq3
  · -- the two sorted pairs already chain
    have hG' : lt p2.1 p1.2 = false := by simpa using hG
    rw [show sort4A lt (x1 :: x2 :: x3 :: x4 :: rest) =
      p1.1 :: p1.2 :: p2.1 :: p2.2 :: rest by
        simp only [sort4A, ← hp1, ← hp2, if_neg hG]]
    exact ⟨p1.1, p1.2, p2.1, p2.2, rfl, by
      simp [sortedB_cons_cons, sortedB, h1, hG', h2], s12⟩

/-! ### Slice and window toolkit -/

theorem SEquiv.perm {lt : α → α → Bool} {l l' : List α} (h : SEquiv lt l l') :
    l.Perm l' := by
  have h0 := h []
  have p1 : (foldIns lt [] l).Perm l := refSort_perm lt l
  have p2 : (foldIns lt [] l').Perm l' := refSort_perm lt l'
  exact p1.symm.trans (h0 ▸ p2)

theorem SEquiv.length_eq {lt : α → α → Bool} {l l' : List α}
    (h : SEquiv lt l l') : l.length = l'.length := h.perm.length_eq

/-- The window [i, j) of v. -/
def slice (v : List α) (i j : Nat) : List α := (v.drop i).take (j - i)

theorem applyIn_eq_slice (i j : Nat) (f : List α → List α) (v : List α) :
    applyIn i j f v = v.take i ++ f (slice v i j) ++ v.drop j := rfl

theorem slice_length {v : List α} {i j : Nat} (hij : i ≤ j)
    (hj : j ≤ v.length) : (slice v i j).length = j - i := by
  simp [slice]
  omega

theorem slice_zero_length (v : List α) : slice v 0 v.length = v := by
  simp [slice]

theorem eq_take_slice_drop {v : List α} {i j : Nat} (hij : i ≤ j) :
    v = v.take i ++ slice v i j ++ v.drop j := by
  unfold slice
  conv_lhs => rw [← List.take_append_drop i v]
  rw [List.append_assoc]
  congr 1
  conv_lhs => rw [← List.take_append_drop (j - i) (v.drop i)]
  congr 1
  rw [List.drop_drop]
  congr 1
  omega

theorem sequiv_applyIn {lt : α → α → Bool} {f : List α → List α} {v : List α}
    {i j : Nat} (hij : i ≤ j)
    (hf : SEquiv lt (slice v i j) (f (slice v i j))) :
    SEquiv lt v (applyIn i j f v) := by
  intro A
  calc foldIns lt A v
      = foldIns lt A (v.take i ++ slice v i j ++ v.drop j) := by
        rw [← eq_take_slice_drop hij]
    _ = foldIns lt A (v.take i ++ f (slice v i j) ++ v.drop j) :=
        hf.append_congr (v.take i) (v.drop j) A
    _ = foldIns lt A (applyIn i j f v) := rfl

theorem applyIn_length {f : List α → List α} {v : List α} {i j : Nat}
    (hij : i ≤ j) (hj : j ≤ v.length)
    (hf : (f (slice v i j)).length = (slice v i j).length) :
    (applyIn i j f v).length = v.length := by
  rw [applyIn_eq_slice]
  simp [hf, slice_length hij hj]
  omega

theorem applyIn_take {f : List α → List α} {v : List α} {i j : Nat}
    (hi : i ≤ v.length) : (applyIn i j f v).take i = v.take i := by
  rw [applyIn_eq_slice]
  have h1 : (v.take i).length = i := by simp; omega
  rw [List.append_assoc]
  rw [List.take_append_of_le_length (by rw [h1])]
  rw [List.take_take]
  simp

theorem applyIn_drop {f : List α → List α} {v : List α} {i j : Nat}
    (hij : i ≤ j) (hj : j ≤ v.length)
    (hf : (f (slice v i j)).length = (slice v i j).length) :
    (applyIn i j f v).drop j = v.drop j := by
  rw [applyIn_eq_slice]
  have h2 : (f (slice v i j)).length = j - i := by
    rw [hf]; exact slice_length hij hj
  have h3 : (v.take i ++ f (slice v i j)).length = j := by
    simp [h2]; omega
  have e1 := List.drop_left (v.take i ++ f (slice v i j)) (v.drop j)
  rw [h3] at e1
  exact e1

theorem applyIn_slice {f : List α → List α} {v : List α} {i j : Nat}
    (hij : i ≤ j) (hj : j ≤ v.length)
    (hf : (f (slice v i j)).length = (slice v i j).length) :
    slice (applyIn i j f v) i j = f (slice v i j) := by
  have h1 : (v.take i).length = i := by simp; omega
  have h2 : (f (slice v i j)).length = j - i := by
    rw [hf]; exact slice_length hij hj
  have e1 := List.drop_left (v.take i) (f (slice v i j) ++ v.drop j)
  rw [h1] at e1
  show ((v.take i ++ f (slice v i j) ++ v.drop j).drop i).take (j - i)
      = f (slice v i j)
  rw [List.append_assoc, e1]
  have e2 := List.take_left (f (slice v i j)) (v.drop j)
  rw [h2] at e2
  exact e2

theorem sortedB_short {lt : α → α → Bool} {l : List α} (h : l.length ≤ 1) :
    sortedB lt l = true := by
  cases l with
  | nil => rfl
  | cons a l =>
    cases l with
    | nil => rfl
    | cons b l => simp at h

theorem sortedB_cons_headq {lt : α → α → Bool} {a : α} {l : List α}
    (h1 : ∀ w, l.head? = some w → lt w a = false)
    (h2 : sortedB lt l = true) : sortedB lt (a :: l) = true := by
  cases l with
  | nil => rfl
  | cons b l => exact sortedB_cons_of (h1 b rfl) h2

theorem take_succ_gD [Inhabited α] {v : List α} {i : Nat} (h : i < v.length) :
    v.take (i + 1) = v.take i ++ [gD v i] := by
  rw [List.take_succ]
  congr 1
  rw [List.getElem?_eq_getElem h]
  simp [gD, List.getD_eq_getElem?_getD, List.getElem?_eq_getElem h]

/-! ### Correctness of the panic-safe insertion routines -/

theorem insert_tail_goA_headq {lt : α → α → Bool} (x : α) (rxs : List α) :
    (insert_tail_goA lt x rxs).head? = some x ∨
      ∃ y rys, rxs = y :: rys ∧ lt x y = true ∧
        (insert_tail_goA lt x rxs).head? = some y := by
  cases rxs with
  | nil => exact Or.inl rfl
  | cons y rys =>
    unfold insert_tail_goA
    cases h : lt x y with
    | true => exact Or.inr ⟨y, rys, rfl, h, by simp [h]⟩
    | false => exact Or.inl (by simp [h])

theorem insert_tail_goA_sequiv {lt : α → α → Bool} (hs : SWO lt) (x : α) :
    ∀ rxs : List α,
      SEquiv lt (rxs.reverse ++ [x]) ((insert_tail_goA lt x rxs).reverse)
  | [] => by simpa using SEquiv.refl lt [x]
  | y :: rys => by
    unfold insert_tail_goA
    cases h : lt x y with
    | false =>
      simp only [Bool.false_eq_true, if_false, List.reverse_cons]
      exact SEquiv.refl lt _
    | true =>
      simp only [if_true, List.reverse_cons]
      have hswap : SEquiv lt [y, x] [x, y] := sequiv_swap hs h []
      have s1 := hswap.append_right rys.reverse
      have s3 := (insert_tail_goA_sequiv hs x rys).append_left [y]
      intro A
      calc foldIns lt A (rys.reverse ++ [y] ++ [x])
          = foldIns lt A (rys.reverse ++ [y, x]) :=
            congrArg (foldIns lt A) (by simp)
        _ = foldIns lt A (rys.reverse ++ [x, y]) := s1 A
        _ = foldIns lt A ((rys.reverse ++ [x]) ++ [y]) :=
            congrArg (foldIns lt A) (by simp)
        _ = foldIns lt A ((insert_tail_goA lt x rys).reverse ++ [y]) := s3 A

theorem insert_tail_goA_sorted {lt : α → α → Bool} (hs : SWO lt) (x : α) :
    ∀ rxs : List α, sortedB lt rxs.reverse = true →
      sortedB lt ((insert_tail_goA lt x rxs).reverse) = true
  | [], _ => rfl
  | y :: rys, hsx => by
    have hsx' : sortedB lt (rys.reverse ++ [y]) = true := by simpa using hsx
    unfold insert_tail_goA
    cases h : lt x y with
    | false =>
      simp only [Bool.false_eq_true, if_false, List.reverse_cons]
      have : sortedB lt ((rys.reverse ++ [y]) ++ [x]) = true := by
        refine sortedB_append hsx' rfl ?_
        intro w hw z hz
        have hw' : y = w := by simpa using hw
        have hz' : x = z := by simpa using hz
        subst hw'; subst hz'
        exact h
      simpa using this
    | true =>
      simp only [if_true, List.reverse_cons]
      have hrys : sortedB lt rys.reverse = true := sortedB_append_left hsx'
      have ih := insert_tail_goA_sorted hs x rys hrys
      refine sortedB_append ih rfl ?_
      intro w hw z hz
      have hz' : y = z := by simpa using hz
      subst hz'
      rw [List.getLast?_reverse] at hw
      rcases @insert_tail_goA_headq _ lt x rys with hh | ⟨y', rys', he, hxy', hh⟩
      · have hxw : w = x := by rw [hw] at hh; simpa using hh
        subst hxw
        exact hs.asymm _ _ h
      · have hyw : w = y' := by rw [hw] at hh; simpa using hh
        subst hyw
        have hmem : w ∈ rys.reverse := by
          subst he; simp
        have hpair := sortedB_pairwise hs hsx'
        exact (List.pairwise_append.1 hpair).2.2 w hmem y (by simp)

theorem insert_tailA_spec {lt : α → α → Bool} (hs : SWO lt) (xs : List α)
    (x : α) (hxs : sortedB lt xs = true) :
    SEquiv lt (xs ++ [x]) (insert_tailA lt (xs ++ [x])) ∧
      sortedB lt (insert_tailA lt (xs ++ [x])) = true := by
  have hrev : (xs ++ [x]).reverse = x :: xs.reverse := by simp
  unfold insert_tailA
  rw [hrev]
  constructor
  · have h1 := insert_tail_goA_sequiv hs x xs.reverse
    simpa using h1
  · exact insert_tail_goA_sorted hs x xs.reverse (by simpa using hxs)

theorem insert_head_goA_headq {lt : α → α → Bool} (x : α) (zs : List α) :
    (insert_head_goA lt x zs).head? = some x ∨
      ∃ z zs', zs = z :: zs' ∧ lt z x = true ∧
        (insert_head_goA lt x zs).head? = some z := by
  cases zs with
  | nil => exact Or.inl rfl
  | cons z zs' =>
    unfold insert_head_goA
    cases h : lt z x with
    | true => exact Or.inr ⟨z, zs', rfl, h, by simp [h]⟩
    | false => exact Or.inl (by simp [h])

theorem insert_head_goA_sequiv {lt : α → α → Bool} (hs : SWO lt) (x : α) :
    ∀ zs : List α, SEquiv lt (x :: zs) (insert_head_goA lt x zs)
  | [] => SEquiv.refl lt _
  | z :: zs' => by
    unfold insert_head_goA
    cases h : lt z x with
    | false =>
      simp only [Bool.false_eq_true, if_false]
      exact SEquiv.refl lt _
    | true =>
      simp only [if_true]
      have h1 : SEquiv lt (x :: z :: zs') (z :: x :: zs') := sequiv_swap hs h zs'
      exact h1.trans ((insert_head_goA_sequiv hs x zs').cons_congr z)

theorem insert_head_goA_sorted {lt : α → α → Bool} (hs : SWO lt) (x : α) :
    ∀ zs : List α, sortedB lt zs = true →
      sortedB lt (insert_head_goA lt x zs) = true
  | [], _ => rfl
  | z :: zs', hz => by
    unfold insert_head_goA
    cases h : lt z x with
    | false =>
      simp only [Bool.false_eq_true, if_false]
      exact sortedB_cons_of h hz
    | true =>
      simp only [if_true]
      have ih := insert_head_goA_sorted hs x zs' (sortedB_tail hz)
      refine sortedB_cons_headq ?_ ih
      intro w hw
      rcases @insert_head_goA_headq _ lt x zs' with hh | ⟨z', zs'', he, hz'x, hh⟩
      · have hxw : w = x := by rw [hw] at hh; simpa using hh
        subst hxw
        exact hs.asymm _ _ h
      · have hzw : w = z' := by rw [hw] at hh; simpa using hh
        subst hzw
        subst he
        exact sortedB_head hz

theorem insert_headA_spec {lt : α → α → Bool} (hs : SWO lt) (v : List α)
    (h : sortedB lt (v.drop 1) = true) :
    SEquiv lt v (insert_headA lt v) ∧
      sortedB lt (insert_headA lt v) = true := by
  match v with
  | [] => exact ⟨SEquiv.refl lt _, rfl⟩
  | [x] => exact ⟨SEquiv.refl lt _, rfl⟩
  | x :: y :: rest =>
    have h' : sortedB lt (y :: rest) = true := by simpa using h
    exact ⟨insert_head_goA_sequiv hs x (y :: rest),
      insert_head_goA_sorted hs x (y :: rest) h'⟩

/-! ### The insertion-sort driver loops -/

theorem isr_loopA_spec [Inhabited α] {lt : α → α → Bool} (hs : SWO lt) :
    ∀ (n : Nat) (v : List α) (i : Nat), i + n = v.length →
      sortedB lt (v.take i) = true →
      SEquiv lt v (isr_loopA lt n v i) ∧
        sortedB lt (isr_loopA lt n v i) = true ∧
        (isr_loopA lt n v i).length = v.length
  | 0, v, i, hlen, hsv => by
    refine ⟨SEquiv.refl lt _, ?_, rfl⟩
    have : v.take i = v := List.take_of_length_le (by omega)
    rw [← this]
    exact hsv
  | n + 1, v, i, hlen, hsv => by
    have hi : i < v.length := by omega
    have e1 : v.take (i + 1) = v.take i ++ [gD v i] := take_succ_gD hi
    have hins := insert_tailA_spec hs (v.take i) (gD v i) hsv
    set w := insert_tailA lt (v.take i ++ [gD v i]) with hw
    have hwlen : w.length = i + 1 := by
      have := hins.1.length_eq
      simp at this
      omega
    have hv' : SEquiv lt v (w ++ v.drop (i + 1)) := by
      intro A
      calc foldIns lt A v = foldIns lt A (v.take (i+1) ++ v.drop (i+1)) := by
            rw [List.take_append_drop]
        _ = foldIns lt A ((v.take i ++ [gD v i]) ++ v.drop (i+1)) := by rw [e1]
        _ = foldIns lt A (w ++ v.drop (i+1)) := by
            have := hins.1.append_congr [] (v.drop (i+1)) A
            simpa using this
    have hlen' : (w ++ v.drop (i + 1)).length = v.length := by
      simp [hwlen]
      omega
    have htake : (w ++ v.drop (i + 1)).take (i + 1) = w := by
      have := List.take_left w (v.drop (i+1))
      rwa [hwlen] at this
    have hsort' : sortedB lt ((w ++ v.drop (i + 1)).take (i + 1)) = true := by
      rw [htake]
      exact hins.2
    have ih := isr_loopA_spec hs n (w ++ v.drop (i + 1)) (i + 1)
      (by omega) hsort'
    unfold isr_loopA
    rw [e1, ← hw]
    exact ⟨hv'.trans ih.1, ih.2.1, by rw [ih.2.2, hlen']⟩

theorem insertion_sort_remainingA_spec [Inhabited α] {lt : α → α → Bool} (hs : SWO lt)
    (v : List α) (offset : Nat) (h1 : 1 ≤ offset)
    (h2 : sortedB lt (v.take offset) = true) :
    SEquiv lt v (insertion_sort_remainingA lt v offset) ∧
      sortedB lt (insertion_sort_remainingA lt v offset) = true ∧
      (insertion_sort_remainingA lt v offset).length = v.length := by
  unfold insertion_sort_remainingA
  split
  · next hcond =>
    rcases hcond with hcond | hcond
    · exact ⟨SEquiv.refl lt _, sortedB_short (by omega), rfl⟩
    · omega
  · next hcond =>
    rcases Nat.le_total offset v.length with hoff | hoff
    · exact isr_loopA_spec hs (v.length - offset) v offset (by omega) h2
    · have h0 : v.length - offset = 0 := by omega
      rw [h0]
      refine ⟨SEquiv.refl lt _, ?_, rfl⟩
      have : v.take offset = v := List.take_of_length_le (by omega)
      rw [← this]
      exact h2

theorem insert_head_loopA_spec {lt : α → α → Bool} (hs : SWO lt) :
    ∀ (k : Nat) (v : List α), k ≤ v.length →
      sortedB lt (v.drop k) = true →
      SEquiv lt v (insert_head_loopA lt k v) ∧
        sortedB lt (insert_head_loopA lt k v) = true ∧
        (insert_head_loopA lt k v).length = v.length
  | 0, v, _, hsv => ⟨SEquiv.refl lt _, by simpa using hsv, rfl⟩
  | k + 1, v, hk, hsv => by
    have hdl : sortedB lt ((v.drop k).drop 1) = true := by
      rw [List.drop_drop]
      simpa [Nat.add_comm] using hsv
    have hins := insert_headA_spec hs (v.drop k) hdl
    set w := insert_headA lt (v.drop k) with hwdef
    have hwlen : w.length = (v.drop k).length := hins.1.length_eq.symm
    have htl : (v.take k).length = k := by simp; omega
    have hv' : SEquiv lt v (v.take k ++ w) := by
      intro A
      calc foldIns lt A v = foldIns lt A (v.take k ++ v.drop k) := by
            rw [List.take_append_drop]
        _ = foldIns lt A (v.take k ++ (v.drop k) ++ []) := by simp
        _ = foldIns lt A (v.take k ++ w ++ []) :=
            hins.1.append_congr (v.take k) [] A
        _ = foldIns lt A (v.take k ++ w) := by simp
    have hlen' : (v.take k ++ w).length = v.length := by
      simp [hwlen]; omega
    have hdrop : (v.take k ++ w).drop k = w := by
      have := List.drop_left (v.take k) w
      rwa [htl] at this
    have ih := insert_head_loopA_spec hs k (v.take k ++ w)
      (by omega) (by rw [hdrop]; exact hins.2)
    unfold insert_head_loopA
    exact ⟨hv'.trans ih.1, ih.2.1, by rw [ih.2.2, hlen']⟩

/-! ### Raw-read and overlay toolkit for the parity merges -/

theorem gD_eq_getElem [Inhabited α] {l : List α} {i : Nat} (h : i < l.length) :
    gD l i = l[i] := by
  simp [gD, List.getD_eq_getElem?_getD, List.getElem?_eq_getElem h]

theorem gD_append_left [Inhabited α] {l r : List α} {i : Nat}
    (h : i < l.length) : gD (l ++ r) i = gD l i := by
  rw [gD_eq_getElem (by simp; omega), gD_eq_getElem h]
  exact List.getElem_append_left h

theorem gD_append_right [Inhabited α] {l r : List α} {i : Nat}
    (h1 : l.length ≤ i) (h2 : i < l.length + r.length) :
    gD (l ++ r) i = gD r (i - l.length) := by
  rw [gD_eq_getElem (by simp; omega), gD_eq_getElem (by omega)]
  exact List.getElem_append_right h1

theorem gD_reverse [Inhabited α] {l : List α} {i : Nat} (h : i < l.length) :
    gD l.reverse i = gD l (l.length - 1 - i) := by
  rw [gD_eq_getElem (by simpa using h), gD_eq_getElem (by omega)]
  exact List.getElem_reverse _

theorem drop_eq_gD_cons [Inhabited α] {l : List α} {i : Nat}
    (h : i < l.length) : l.drop i = gD l i :: l.drop (i + 1) := by
  rw [gD_eq_getElem h]
  exact List.drop_eq_getElem_cons h

/-- Write a block of values at consecutive positions. -/
def setRange (dest : List α) (i : Nat) : List α → List α
  | [] => dest
  | x :: xs => setRange (dest.set i x) (i + 1) xs

theorem setRange_nil (dest : List α) (i : Nat) : setRange dest i [] = dest := rfl

theorem setRange_cons (dest : List α) (i : Nat) (x : α) (xs : List α) :
    setRange dest i (x :: xs) = setRange (dest.set i x) (i + 1) xs := rfl

theorem setRange_length (i : Nat) :
    ∀ (ys : List α) (dest : List α), (setRange dest i ys).length = dest.length := by
  intro ys
  induction ys generalizing i with
  | nil => intro dest; rfl
  | cons y ys ih =>
    intro dest
    rw [setRange_cons, ih (i + 1)]
    simp

/-- The head write of a block erases a previous write at the same slot. -/
theorem setRange_set_head (dest : List α) (i : Nat) (a y : α) (ys : List α) :
    setRange (dest.set i a) i (y :: ys) = setRange dest i (y :: ys) := by
  rw [setRange_cons, setRange_cons, List.set_set]

/-- A write strictly below a block commutes with it. -/
theorem setRange_set_low {i m : Nat} (hlt : i < m) (a : α) :
    ∀ (ys : List α) (dest : List α),
      setRange (dest.set i a) m ys = (setRange dest m ys).set i a := by
  intro ys
  induction ys generalizing m with
  | nil => intro dest; rfl
  | cons y ys ih =>
    intro dest
    rw [setRange_cons, setRange_cons, List.set_comm _ _ _ (by omega)]
    exact ih (by omega) _

/-- A fully in-bounds block write is a take/append/drop splice. -/
theorem setRange_splice :
    ∀ (ys : List α) (dest : List α) (i : Nat), i + ys.length ≤ dest.length →
      setRange dest i ys = dest.take i ++ ys ++ dest.drop (i + ys.length) := by
  intro ys
  induction ys with
  | nil =>
    intro dest i h
    simp [setRange_nil]
  | cons y ys ih =>
    intro dest i h
    have hi : i < dest.length := by simp at h; omega
    rw [setRange_cons, ih _ (i + 1) (by simp at h ⊢; omega)]
    have hset : dest.set i y = dest.take i ++ y :: dest.drop (i + 1) :=
      List.set_eq_take_cons_drop y hi
    have htl : (dest.take i).length = i := by simp; omega
    have e1 : (dest.set i y).take (i + 1) = dest.take i ++ [y] := by
      rw [hset, List.take_append_eq_append_take, htl]
      rw [List.take_of_length_le (by omega)]
      simp
    have e2 : (dest.set i y).drop (i + 1 + ys.length) = dest.drop (i + 1 + ys.length) := by
      rw [hset, List.drop_append_eq_append_drop, htl]
      rw [List.drop_of_length_le (by simp; omega)]
      have : i + 1 + ys.length - i = 1 + ys.length := by omega
      rw [this]
      show List.drop (1 + ys.length) (y :: dest.drop (i + 1)) = _
      have : 1 + ys.length = ys.length + 1 := by omega
      rw [this]
      rw [List.drop_succ_cons, List.drop_drop]
    rw [e1, e2]
    have : i + 1 + ys.length = i + (y :: ys).length := by simp; omega
    rw [this]
    simp

/-- One merge_up step in half-relative coordinates: lc, rc elements already
consumed from the sorted halves L, R of src. -/
theorem merge_upA_eq [Inhabited α] {lt : α → α → Bool} {L R : List α}
    {lc rc pd : Nat} (dest : List α) (hlc : lc < L.length) (hrc : rc < R.length) :
    merge_upA lt (L ++ R) (lc, L.length + rc, pd) dest =
      if lt (gD R rc) (gD L lc) = true then
        ((lc, L.length + (rc + 1), pd + 1),
          (dest.set pd (gD R rc)).set (pd + 1) (gD L lc))
      else
        ((lc + 1, L.length + rc, pd + 1),
          (dest.set pd (gD L lc)).set (pd + 1) (gD R rc)) := by
  have e1 : gD (L ++ R) (L.length + rc) = gD R rc := by
    rw [gD_append_right (by omega) (by simp; omega)]
    congr 1
    omega
  have e2 : gD (L ++ R) lc = gD L lc := gD_append_left hlc
  unfold merge_upA
  simp only [e1, e2]
  cases hb : lt (gD R rc) (gD L lc) with
  | true =>
    simp [Nat.add_assoc]
  | false =>
    simp only [Bool.not_false, cond_true, Bool.false_eq_true, if_false]
    rw [List.set_comm _ _ _ (by omega)]
    simp

/-- One merge_down step: pl and L.length + prr index the current last
unconsumed elements of the halves L and R of src. -/
theorem merge_downA_eq [Inhabited α] {lt : α → α → Bool} {L R : List α}
    {pl prr pd : Nat} (dest : List α) (hpl : pl < L.length)
    (hprr : prr < R.length) (hpd : 1 ≤ pd) :
    merge_downA lt (L ++ R) (pl, L.length + prr, pd) dest =
      if lt (gD R prr) (gD L pl) = true then
        ((pl - 1, L.length + prr, pd - 1),
          (dest.set (pd - 1) (gD R prr)).set pd (gD L pl))
      else
        ((pl, L.length + prr - 1, pd - 1),
          (dest.set (pd - 1) (gD L pl)).set pd (gD R prr)) := by
  have e1 : gD (L ++ R) (L.length + prr) = gD R prr := by
    rw [gD_append_right (by omega) (by simp; omega)]
    congr 1
    omega
  have e2 : gD (L ++ R) pl = gD L pl := gD_append_left hpl
  unfold merge_downA
  simp only [e1, e2]
  have hp : pd - 1 + 1 = pd := by omega
  cases hb : lt (gD R prr) (gD L pl) with
  | true =>
    simp [hp]
  | false =>
    simp only [Bool.not_false, cond_true, cond_false, Bool.false_eq_true,
      if_false, hp, Nat.add_zero, Nat.sub_zero]
    rw [List.set_comm _ _ _ (by omega)]

theorem mergePure_length (lt : α → α → Bool) (l r : List α) :
    (mergePure lt l r).length = l.length + r.length := by
  simpa using (mergePure_perm lt l r).length_eq

theorem mergeBackR_length (lt : α → α → Bool) :
    ∀ rl rr : List α, (mergeBackR lt rl rr).length = rl.length + rr.length
  | rl, [] => by simp [mergeBackR_nil_right]
  | [], b :: rr => by simp [mergeBackR_nil_left]
  | a :: rl, b :: rr => by
    rw [mergeBackR_cons_cons]
    split
    · have := mergeBackR_length lt rl (b :: rr)
      simp at this ⊢
      omega
    · have := mergeBackR_length lt (a :: rl) rr
      simp at this ⊢
      omega
  termination_by rl rr => rl.length + rr.length

/-- A write into the span of a block is absorbed by the block. -/
theorem setRange_absorb {i m : Nat} (a : α) :
    ∀ (ys : List α) (dest : List α), m ≤ i → i < m + ys.length →
      setRange (dest.set i a) m ys = setRange dest m ys := by
  intro ys
  induction ys generalizing m with
  | nil => intro dest h1 h2; simp at h2; omega
  | cons y ys ih =>
    intro dest h1 h2
    rcases Nat.eq_or_lt_of_le h1 with he | hlt
    · subst he
      exact setRange_set_head dest m a y ys
    · rw [setRange_cons, setRange_cons,
        List.set_comm _ _ _ (by omega : i ≠ m)]
      exact ih _ (by omega) (by simp at h2; omega)

/-- A write above a block commutes out of it. -/
theorem setRange_set_high {i m : Nat} (a : α) :
    ∀ (ys : List α) (dest : List α), m + ys.length ≤ i →
      setRange (dest.set i a) m ys = (setRange dest m ys).set i a := by
  intro ys
  induction ys generalizing m with
  | nil => intro dest _; rfl
  | cons y ys ih =>
    intro dest h
    simp at h
    rw [setRange_cons, setRange_cons,
      List.set_comm _ _ _ (by omega : i ≠ m)]
    exact ih _ (by omega)

/-- k sequential merge_up steps. -/
def upIter [Inhabited α] (lt : α → α → Bool) (src : List α) :
    Nat → Nat × Nat × Nat → List α → (Nat × Nat × Nat) × List α
  | 0, st, dest => (st, dest)
  | k + 1, st, dest =>
    let r := merge_upA lt src st dest
    upIter lt src k r.1 r.2

/-- k sequential merge_down steps. -/
def downIter [Inhabited α] (lt : α → α → Bool) (src : List α) :
    Nat → Nat × Nat × Nat → List α → (Nat × Nat × Nat) × List α
  | 0, st, dest => (st, dest)
  | k + 1, st, dest =>
    let r := merge_downA lt src st dest
    downIter lt src k r.1 r.2

theorem upIter_spec [Inhabited α] {lt : α → α → Bool} (L R : List α) :
    ∀ (k lc rc : Nat) (dest : List α),
      lc + k ≤ L.length → rc + k ≤ R.length →
      ∃ lc' rc' junkl,
        lc ≤ lc' ∧ rc ≤ rc' ∧ lc' + rc' = lc + rc + k ∧
        junkl.length = min k 1 ∧
        mergePure lt (L.drop lc) (R.drop rc)
          = (mergePure lt (L.drop lc) (R.drop rc)).take k
            ++ mergePure lt (L.drop lc') (R.drop rc') ∧
        upIter lt (L ++ R) k (lc, L.length + rc, lc + rc) dest
          = ((lc', L.length + rc', lc' + rc'),
             setRange dest (lc + rc)
               ((mergePure lt (L.drop lc) (R.drop rc)).take k ++ junkl))
  | 0, lc, rc, dest, _, _ => by
    exact ⟨lc, rc, [], Nat.le_refl _, Nat.le_refl _, rfl, rfl, by simp,
      by simp [upIter, setRange_nil]⟩
  | k + 1, lc, rc, dest, hL, hR => by
    have hlc : lc < L.length := by omega
    have hrc : rc < R.length := by omega
    have hM : mergePure lt (L.drop lc) (R.drop rc)
        = if lt (gD R rc) (gD L lc) = true then
            gD R rc :: mergePure lt (L.drop lc) (R.drop (rc + 1))
          else
            gD L lc :: mergePure lt (L.drop (lc + 1)) (R.drop rc) := by
      conv_lhs => rw [drop_eq_gD_cons hlc, drop_eq_gD_cons hrc]
      rw [mergePure_cons_cons]
      split
      · rw [← drop_eq_gD_cons hlc]
      · rw [← drop_eq_gD_cons hrc]
    by_cases hb : lt (gD R rc) (gD L lc) = true
    · -- the right element is consumed
      have hMtrue : mergePure lt (L.drop lc) (R.drop rc)
          = gD R rc :: mergePure lt (L.drop lc) (R.drop (rc + 1)) := by
        rw [hM, if_pos hb]
      obtain ⟨lc', rc', junkl, h1, h2, h3, h4, h5, h6⟩ :=
        upIter_spec L R k lc (rc + 1)
          ((dest.set (lc + rc) (gD R rc)).set (lc + rc + 1) (gD L lc))
          (by omega) (by omega)
      have hstep : lc + (rc + 1) = lc + rc + 1 := by omega
      rw [hstep] at h6
      refine ⟨lc', rc', (if k = 0 then [gD L lc] else junkl), h1, by omega,
        by omega, ?_, ?_, ?_⟩
      · split
        · next hk => simp [hk]
        · next hk => rw [h4]; omega
      · rw [hMtrue]
        simp only [List.take_succ_cons, List.cons_append]
        congr 1
      · show upIter lt (L ++ R) (k + 1) (lc, L.length + rc, lc + rc) dest = _
        unfold upIter
        rw [merge_upA_eq dest hlc hrc, if_pos hb]
        show upIter lt (L ++ R) k (lc, L.length + (rc + 1), lc + rc + 1)
            ((dest.set (lc + rc) (gD R rc)).set (lc + rc + 1) (gD L lc)) = _
        rw [h6]
        rw [hMtrue]
        simp only [List.take_succ_cons, List.cons_append]
        rw [setRange_cons]
        congr 1
        split
        · next hk =>
          subst hk
          have hj : junkl = [] := List.length_eq_zero.1 (by simpa using h4)
          subst hj
          simp [setRange_nil, setRange_cons]
        · next hk =>
          have hlen : k ≤ (mergePure lt (L.drop lc) (R.drop (rc + 1))).length := by
            rw [mergePure_length]
            simp only [List.length_drop]
            omega
          have hys : 1 ≤ ((mergePure lt (L.drop lc) (R.drop (rc + 1))).take k
              ++ junkl).length := by
            simp only [List.length_append, List.length_take]
            omega
          exact setRange_absorb (gD L lc) _ _ (Nat.le_refl _) (by omega)
    · -- the left element is consumed
      have hb' : lt (gD R rc) (gD L lc) = false := by simpa using hb
      have hMfalse : mergePure lt (L.drop lc) (R.drop rc)
          = gD L lc :: mergePure lt (L.drop (lc + 1)) (R.drop rc) := by
        rw [hM, if_neg (by simp [hb'])]
      obtain ⟨lc', rc', junkl, h1, h2, h3, h4, h5, h6⟩ :=
        upIter_spec L R k (lc + 1) rc
          ((dest.set (lc + rc) (gD L lc)).set (lc + rc + 1) (gD R rc))
          (by omega) (by omega)
      have hstep : lc + 1 + rc = lc + rc + 1 := by omega
      rw [hstep] at h6
      refine ⟨lc', rc', (if k = 0 then [gD R rc] else junkl), by omega, h2,
        by omega, ?_, ?_, ?_⟩
      · split
        · next hk => simp [hk]
        · next hk => rw [h4]; omega
      · rw [hMfalse]
        simp only [List.take_succ_cons, List.cons_append]
        congr 1
      · show upIter lt (L ++ R) (k + 1) (lc, L.length + rc, lc + rc) dest = _
        unfold upIter
        rw [merge_upA_eq dest hlc hrc, if_neg (by simp [hb'])]
        show upIter lt (L ++ R) k (lc + 1, L.length + rc, lc + rc + 1)
            ((dest.set (lc + rc) (gD L lc)).set (lc + rc + 1) (gD R rc)) = _
        rw [h6]
        rw [hMfalse]
        simp only [List.take_succ_cons, List.cons_append]
        rw [setRange_cons]
        congr 1
        split
        · next hk =>
          subst hk
          have hj : junkl = [] := List.length_eq_zero.1 (by simpa using h4)
          subst hj
          simp [setRange_nil, setRange_cons]
        · next hk =>
          have hlen : k ≤ (mergePure lt (L.drop (lc + 1)) (R.drop rc)).length := by
            rw [mergePure_length]
            simp only [List.length_drop]
            omega
          have hys : 1 ≤ ((mergePure lt (L.drop (lc + 1)) (R.drop rc)).take k
              ++ junkl).length := by
            simp only [List.length_append, List.length_take]
            omega
          exact setRange_absorb (gD R rc) _ _ (Nat.le_refl _) (by omega)

theorem setRange_append :
    ∀ (ys zs : List α) (dest : List α) (i : Nat),
      setRange dest i (ys ++ zs)
        = setRange (setRange dest i ys) (i + ys.length) zs
  | [], zs, dest, i => by simp [setRange_nil]
  | y :: ys, zs, dest, i => by
    rw [List.cons_append, setRange_cons, setRange_cons,
      setRange_append ys zs (dest.set i y) (i + 1)]
    congr 1
    simp
    omega

theorem downIter_spec [Inhabited α] {lt : α → α → Bool} (L R : List α) :
    ∀ (k tlc trc pd : Nat) (dest : List α),
      tlc + k + 1 ≤ L.length → trc + k + 1 ≤ R.length → k ≤ pd →
      ∃ tlc' trc' junkl,
        tlc ≤ tlc' ∧ trc ≤ trc' ∧ tlc' + trc' = tlc + trc + k ∧
        junkl.length = min k 1 ∧
        mergeBackR lt (L.reverse.drop tlc) (R.reverse.drop trc)
          = (mergeBackR lt (L.reverse.drop tlc) (R.reverse.drop trc)).take k
            ++ mergeBackR lt (L.reverse.drop tlc') (R.reverse.drop trc') ∧
        downIter lt (L ++ R) k
            (L.length - 1 - tlc, L.length + (R.length - 1 - trc), pd) dest
          = ((L.length - 1 - tlc', L.length + (R.length - 1 - trc'), pd - k),
             setRange dest (pd - k)
               (junkl ++
                 ((mergeBackR lt (L.reverse.drop tlc) (R.reverse.drop trc)).take k).reverse))
  | 0, tlc, trc, pd, dest, _, _, _ => by
    exact ⟨tlc, trc, [], Nat.le_refl _, Nat.le_refl _, rfl, rfl, by simp,
      by simp [downIter, setRange_nil]⟩
  | k + 1, tlc, trc, pd, dest, hL, hR, hpd => by
    have htlcL : tlc < L.length := by omega
    have htrcR : trc < R.length := by omega
    have htlc' : tlc < L.reverse.length := by simpa using htlcL
    have htrc' : trc < R.reverse.length := by simpa using htrcR
    have hlv : gD L.reverse tlc = gD L (L.length - 1 - tlc) := gD_reverse htlcL
    have hrv : gD R.reverse trc = gD R (R.length - 1 - trc) := gD_reverse htrcR
    have hM : mergeBackR lt (L.reverse.drop tlc) (R.reverse.drop trc)
        = if lt (gD R (R.length - 1 - trc)) (gD L (L.length - 1 - tlc)) = true then
            gD L (L.length - 1 - tlc)
              :: mergeBackR lt (L.reverse.drop (tlc + 1)) (R.reverse.drop trc)
          else
            gD R (R.length - 1 - trc)
              :: mergeBackR lt (L.reverse.drop tlc) (R.reverse.drop (trc + 1)) := by
      conv_lhs => rw [drop_eq_gD_cons htlc', drop_eq_gD_cons htrc']
      rw [mergeBackR_cons_cons, hlv, hrv]
      split
      · rw [← hrv, ← drop_eq_gD_cons htrc']
      · rw [← hlv, ← drop_eq_gD_cons htlc']
    have hpl : L.length - 1 - tlc < L.length := by omega
    have hprr : R.length - 1 - trc < R.length := by omega
    by_cases hb : lt (gD R (R.length - 1 - trc)) (gD L (L.length - 1 - tlc)) = true
    · -- the last left element is the greater: consume left
      have hMtrue : mergeBackR lt (L.reverse.drop tlc) (R.reverse.drop trc)
          = gD L (L.length - 1 - tlc)
            :: mergeBackR lt (L.reverse.drop (tlc + 1)) (R.reverse.drop trc) := by
        rw [hM, if_pos hb]
      obtain ⟨tlc', trc', junkl, h1, h2, h3, h4, h5, h6⟩ :=
        downIter_spec L R k (tlc + 1) trc (pd - 1)
          ((dest.set (pd - 1) (gD R (R.length - 1 - trc))).set pd
            (gD L (L.length - 1 - tlc)))
          (by omega) (by omega) (by omega)
      refine ⟨tlc', trc', (if k = 0 then [gD R (R.length - 1 - trc)] else junkl),
        by omega, h2, by omega, ?_, ?_, ?_⟩
      · split
        · next hk => simp [hk]
        · next hk => rw [h4]; omega
      · rw [hMtrue]
        simp only [List.take_succ_cons, List.cons_append]
        congr 1
      · show downIter lt (L ++ R) (k + 1)
            (L.length - 1 - tlc, L.length + (R.length - 1 - trc), pd) dest = _
        unfold downIter
        rw [merge_downA_eq dest hpl hprr (by omega), if_pos hb]
        have e1 : L.length - 1 - tlc - 1 = L.length - 1 - (tlc + 1) := by omega
        rw [e1]
        show downIter lt (L ++ R) k
            (L.length - 1 - (tlc + 1), L.length + (R.length - 1 - trc), pd - 1)
            ((dest.set (pd - 1) (gD R (R.length - 1 - trc))).set pd
              (gD L (L.length - 1 - tlc))) = _
        rw [h6, hMtrue]
        have e2 : pd - 1 - k = pd - (k + 1) := by omega
        rw [e2]
        congr 1
        simp only [List.take_succ_cons, List.reverse_cons]
        by_cases hk : k = 0
        · subst hk
          rw [if_pos rfl]
          have hj : junkl = [] := List.length_eq_zero.1 (by simpa using h4)
          subst hj
          simp only [List.take_zero, List.reverse_nil, List.nil_append,
            List.append_nil, setRange_nil, List.cons_append]
          have e3 : pd - 1 + 1 = pd := by omega
          have e5 : pd - (0 + 1) = pd - 1 := by omega
          rw [e5, setRange_cons, setRange_cons, setRange_nil, e3]
        · rw [if_neg hk]
          have hjl : junkl.length = 1 := by rw [h4]; omega
          have hXlen : ((mergeBackR lt (L.reverse.drop (tlc + 1))
              (R.reverse.drop trc)).take k).length = k := by
            simp only [List.length_take, mergeBackR_length]
            simp only [List.length_drop, List.length_reverse]
            omega
          set X := ((mergeBackR lt (L.reverse.drop (tlc + 1))
              (R.reverse.drop trc)).take k).reverse with hX
          have hXlen' : X.length = k := by rw [hX]; simpa using hXlen
          have hhigh : setRange ((dest.set (pd - 1)
              (gD R (R.length - 1 - trc))).set pd (gD L (L.length - 1 - tlc)))
              (pd - (k + 1)) (junkl ++ X)
              = (setRange (dest.set (pd - 1) (gD R (R.length - 1 - trc)))
                  (pd - (k + 1)) (junkl ++ X)).set pd (gD L (L.length - 1 - tlc)) := by
            refine setRange_set_high _ _ _ ?_
            simp only [List.length_append, hjl, hXlen']
            omega
          have habs : setRange (dest.set (pd - 1) (gD R (R.length - 1 - trc)))
              (pd - (k + 1)) (junkl ++ X)
              = setRange dest (pd - (k + 1)) (junkl ++ X) := by
            refine setRange_absorb _ _ _ (by omega) ?_
            simp only [List.length_append, hjl, hXlen']
            omega
          rw [hhigh, habs]
          have e4 : pd - (k + 1) + (junkl ++ X).length = pd := by
            simp only [List.length_append, hjl, hXlen']
            omega
          have hrhs : setRange dest (pd - (k + 1))
              ((junkl ++ X) ++ [gD L (L.length - 1 - tlc)])
              = (setRange dest (pd - (k + 1)) (junkl ++ X)).set pd
                  (gD L (L.length - 1 - tlc)) := by
            rw [setRange_append, e4, setRange_cons, setRange_nil]
          rw [← List.append_assoc, hrhs]
    · -- the last right element is the greater or tied: consume right
      have hb' : lt (gD R (R.length - 1 - trc)) (gD L (L.length - 1 - tlc)) = false := by
        simpa using hb
      have hMfalse : mergeBackR lt (L.reverse.drop tlc) (R.reverse.drop trc)
          = gD R (R.length - 1 - trc)
            :: mergeBackR lt (L.reverse.drop tlc) (R.reverse.drop (trc + 1)) := by
        rw [hM, if_neg (by simp [hb'])]
      obtain ⟨tlc', trc', junkl, h1, h2, h3, h4, h5, h6⟩ :=
        downIter_spec L R k tlc (trc + 1) (pd - 1)
          ((dest.set (pd - 1) (gD L (L.length - 1 - tlc))).set pd
            (gD R (R.length - 1 - trc)))
          (by omega) (by omega) (by omega)
      refine ⟨tlc', trc', (if k = 0 then [gD L (L.length - 1 - tlc)] else junkl),
        h1, by omega, by omega, ?_, ?_, ?_⟩
      · split
        · next hk => simp [hk]
        · next hk => rw [h4]; omega
      · rw [hMfalse]
        simp only [List.take_succ_cons, List.cons_append]
        congr 1
      · show downIter lt (L ++ R) (k + 1)
            (L.length - 1 - tlc, L.length + (R.length - 1 - trc), pd) dest = _
        unfold downIter
        rw [merge_downA_eq dest hpl hprr (by omega), if_neg (by simp [hb'])]
        have e1 : L.length + (R.length - 1 - trc) - 1
            = L.length + (R.length - 1 - (trc + 1)) := by omega
        rw [e1]
        show downIter lt (L ++ R) k
            (L.length - 1 - tlc, L.length + (R.length - 1 - (trc + 1)), pd - 1)
            ((dest.set (pd - 1) (gD L (L.length - 1 - tlc))).set pd
              (gD R (R.length - 1 - trc))) = _
        rw [h6, hMfalse]
        have e2 : pd - 1 - k = pd - (k + 1) := by omega
        rw [e2]
        congr 1
        simp only [List.take_succ_cons, List.reverse_cons]
        by_cases hk : k = 0
        · subst hk
          rw [if_pos rfl]
          have hj : junkl = [] := List.length_eq_zero.1 (by simpa using h4)
          subst hj
          simp only [List.take_zero, List.reverse_nil, List.nil_append,
            List.append_nil, setRange_nil, List.cons_append]
          have e3 : pd - 1 + 1 = pd := by omega
          have e5 : pd - (0 + 1) = pd - 1 := by omega
          rw [e5, setRange_cons, setRange_cons, setRange_nil, e3]
        · rw [if_neg hk]
          have hjl : junkl.length = 1 := by rw [h4]; omega
          have hXlen : ((mergeBackR lt (L.reverse.drop tlc)
              (R.reverse.drop (trc + 1))).take k).length = k := by
            simp only [List.length_take, mergeBackR_length]
            simp only [List.length_drop, List.length_reverse]
            omega
          set X := ((mergeBackR lt (L.reverse.drop tlc)
              (R.reverse.drop (trc + 1))).take k).reverse with hX
          have hXlen' : X.length = k := by rw [hX]; simpa using hXlen
          have hhigh : setRange ((dest.set (pd - 1)
              (gD L (L.length - 1 - tlc))).set pd (gD R (R.length - 1 - trc)))
              (pd - (k + 1)) (junkl ++ X)
              = (setRange (dest.set (pd - 1) (gD L (L.length - 1 - tlc)))
                  (pd - (k + 1)) (junkl ++ X)).set pd (gD R (R.length - 1 - trc)) := by
            refine setRange_set_high _ _ _ ?_
            simp only [List.length_append, hjl, hXlen']
            omega
          have habs : setRange (dest.set (pd - 1) (gD L (L.length - 1 - tlc)))
              (pd - (k + 1)) (junkl ++ X)
              = setRange dest (pd - (k + 1)) (junkl ++ X) := by
            refine setRange_absorb _ _ _ (by omega) ?_
            simp only [List.length_append, hjl, hXlen']
            omega
          rw [hhigh, habs]
          have e4 : pd - (k + 1) + (junkl ++ X).length = pd := by
            simp only [List.length_append, hjl, hXlen']
            omega
          have hrhs : setRange dest (pd - (k + 1))
              ((junkl ++ X) ++ [gD R (R.length - 1 - trc)])
              = (setRange dest (pd - (k + 1)) (junkl ++ X)).set pd
                  (gD R (R.length - 1 - trc)) := by
            rw [setRange_append, e4, setRange_cons, setRange_nil]
          rw [← List.append_assoc, hrhs]

/-- Coordinate form of one merge_up step: some element c0 is chosen and
written at pd, the other candidate o0 transiently at pd + 1. -/
theorem merge_upA_coord [Inhabited α] {lt : α → α → Bool} {L R : List α}
    {lc rc pd : Nat} (dest : List α) (hlc : lc < L.length)
    (hrc : rc < R.length) :
    ∃ lc2 rc2 c0 o0,
      lc ≤ lc2 ∧ rc ≤ rc2 ∧ lc2 + rc2 = lc + rc + 1 ∧
      lc2 ≤ lc + 1 ∧ rc2 ≤ rc + 1 ∧
      mergePure lt (L.drop lc) (R.drop rc)
        = c0 :: mergePure lt (L.drop lc2) (R.drop rc2) ∧
      merge_upA lt (L ++ R) (lc, L.length + rc, pd) dest
        = ((lc2, L.length + rc2, pd + 1), (dest.set pd c0).set (pd + 1) o0) := by
  have hM : mergePure lt (L.drop lc) (R.drop rc)
      = if lt (gD R rc) (gD L lc) = true then
          gD R rc :: mergePure lt (L.drop lc) (R.drop (rc + 1))
        else
          gD L lc :: mergePure lt (L.drop (lc + 1)) (R.drop rc) := by
    conv_lhs => rw [drop_eq_gD_cons hlc, drop_eq_gD_cons hrc]
    rw [mergePure_cons_cons]
    split
    · rw [← drop_eq_gD_cons hlc]
    · rw [← drop_eq_gD_cons hrc]
  rw [merge_upA_eq dest hlc hrc]
  by_cases hb : lt (gD R rc) (gD L lc) = true
  · refine ⟨lc, rc + 1, gD R rc, gD L lc, Nat.le_refl _, by omega, by omega,
      by omega, by omega, ?_, ?_⟩
    · rw [hM, if_pos hb]
    · rw [if_pos hb]
  · refine ⟨lc + 1, rc, gD L lc, gD R rc, by omega, Nat.le_refl _, by omega,
      by omega, by omega, ?_, ?_⟩
    · rw [hM, if_neg hb]
    · rw [if_neg hb]

/-- Coordinate form of one merge_down step: the greater candidate d0 is
written at pd, the other candidate j0 transiently at pd - 1. -/
theorem merge_downA_coord [Inhabited α] {lt : α → α → Bool} {L R : List α}
    {tlc trc pd : Nat} (dest : List α) (htlc : tlc + 1 < L.length)
    (htrc : trc + 1 < R.length) (hpd : 1 ≤ pd) :
    ∃ tlc2 trc2 d0 j0,
      tlc ≤ tlc2 ∧ trc ≤ trc2 ∧ tlc2 + trc2 = tlc + trc + 1 ∧
      tlc2 ≤ tlc + 1 ∧ trc2 ≤ trc + 1 ∧
      mergeBackR lt (L.reverse.drop tlc) (R.reverse.drop trc)
        = d0 :: mergeBackR lt (L.reverse.drop tlc2) (R.reverse.drop trc2) ∧
      merge_downA lt (L ++ R)
          (L.length - 1 - tlc, L.length + (R.length - 1 - trc), pd) dest
        = ((L.length - 1 - tlc2, L.length + (R.length - 1 - trc2), pd - 1),
           (dest.set (pd - 1) j0).set pd d0) := by
  have htlcL : tlc < L.length := by omega
  have htrcR : trc < R.length := by omega
  have htlc' : tlc < L.reverse.length := by simpa using htlcL
  have htrc' : trc < R.reverse.length := by simpa using htrcR
  have hlv : gD L.reverse tlc = gD L (L.length - 1 - tlc) := gD_reverse htlcL
  have hrv : gD R.reverse trc = gD R (R.length - 1 - trc) := gD_reverse htrcR
  have hM : mergeBackR lt (L.reverse.drop tlc) (R.reverse.drop trc)
      = if lt (gD R (R.length - 1 - trc)) (gD L (L.length - 1 - tlc)) = true then
          gD L (L.length - 1 - tlc)
            :: mergeBackR lt (L.reverse.drop (tlc + 1)) (R.reverse.drop trc)
        else
          gD R (R.length - 1 - trc)
            :: mergeBackR lt (L.reverse.drop tlc) (R.reverse.drop (trc + 1)) := by
    conv_lhs => rw [drop_eq_gD_cons htlc', drop_eq_gD_cons htrc']
    rw [mergeBackR_cons_cons, hlv, hrv]
    split
    · rw [← hrv, ← drop_eq_gD_cons htrc']
    · rw [← hlv, ← drop_eq_gD_cons htlc']
  rw [merge_downA_eq dest (by omega) (by omega) hpd]
  by_cases hb : lt (gD R (R.length - 1 - trc)) (gD L (L.length - 1 - tlc)) = true
  · refine ⟨tlc + 1, trc, gD L (L.length - 1 - tlc), gD R (R.length - 1 - trc),
      by omega, Nat.le_refl _, by omega, by omega, by omega, ?_, ?_⟩
    · rw [hM, if_pos hb]
    · rw [if_pos hb]
      have e1 : L.length - 1 - tlc - 1 = L.length - 1 - (tlc + 1) := by omega
      rw [e1]
  · refine ⟨tlc, trc + 1, gD R (R.length - 1 - trc), gD L (L.length - 1 - tlc),
      Nat.le_refl _, by omega, by omega, by omega, by omega, ?_, ?_⟩
    · rw [hM, if_neg hb]
    · rw [if_neg hb]
      have e1 : L.length + (R.length - 1 - trc) - 1
          = L.length + (R.length - 1 - (trc + 1)) := by omega
      rw [e1]

/-- Coordinate form of finish_up: the head of the remaining forward merge is
written at pd. -/
theorem finish_upA_coord [Inhabited α] {lt : α → α → Bool} {L R : List α}
    {lc rc pd : Nat} (dest : List α) (hlc : lc < L.length)
    (hrc : rc < R.length) :
    ∃ c0 rest,
      mergePure lt (L.drop lc) (R.drop rc) = c0 :: rest ∧
      finish_upA lt (L ++ R) lc (L.length + rc) pd dest = dest.set pd c0 := by
  have e1 : gD (L ++ R) (L.length + rc) = gD R rc := by
    rw [gD_append_right (by omega) (by simp; omega)]
    congr 1
    omega
  have e2 : gD (L ++ R) lc = gD L lc := gD_append_left hlc
  have hM : mergePure lt (L.drop lc) (R.drop rc)
      = if lt (gD R rc) (gD L lc) = true then
          gD R rc :: mergePure lt (L.drop lc) (R.drop (rc + 1))
        else
          gD L lc :: mergePure lt (L.drop (lc + 1)) (R.drop rc) := by
    conv_lhs => rw [drop_eq_gD_cons hlc, drop_eq_gD_cons hrc]
    rw [mergePure_cons_cons]
    split
    · rw [← drop_eq_gD_cons hlc]
    · rw [← drop_eq_gD_cons hrc]
  unfold finish_upA
  rw [e1, e2]
  by_cases hb : lt (gD R rc) (gD L lc) = true
  · exact ⟨gD R rc, _, by rw [hM, if_pos hb], by rw [if_pos hb]⟩
  · exact ⟨gD L lc, _, by rw [hM, if_neg hb], by rw [if_neg hb]⟩

/-- Coordinate form of finish_down: the head of the remaining backward merge
is written at pd. -/
theorem finish_downA_coord [Inhabited α] {lt : α → α → Bool} {L R : List α}
    {tlc trc pd : Nat} (dest : List α) (htlc : tlc < L.length)
    (htrc : trc < R.length) :
    ∃ d0 rest,
      mergeBackR lt (L.reverse.drop tlc) (R.reverse.drop trc) = d0 :: rest ∧
      finish_downA lt (L ++ R) (L.length - 1 - tlc)
          (L.length + (R.length - 1 - trc)) pd dest = dest.set pd d0 := by
  have htlc' : tlc < L.reverse.length := by simpa using htlc
  have htrc' : trc < R.reverse.length := by simpa using htrc
  have hlv : gD L.reverse tlc = gD L (L.length - 1 - tlc) := gD_reverse htlc
  have hrv : gD R.reverse trc = gD R (R.length - 1 - trc) := gD_reverse htrc
  have e1 : gD (L ++ R) (L.length + (R.length - 1 - trc))
      = gD R (R.length - 1 - trc) := by
    rw [gD_append_right (by omega) (by simp; omega)]
    congr 1
    omega
  have e2 : gD (L ++ R) (L.length - 1 - tlc) = gD L (L.length - 1 - tlc) :=
    gD_append_left (by omega)
  have hM : mergeBackR lt (L.reverse.drop tlc) (R.reverse.drop trc)
      = if lt (gD R (R.length - 1 - trc)) (gD L (L.length - 1 - tlc)) = true then
          gD L (L.length - 1 - tlc)
            :: mergeBackR lt (L.reverse.drop (tlc + 1)) (R.reverse.drop trc)
        else
          gD R (R.length - 1 - trc)
            :: mergeBackR lt (L.reverse.drop tlc) (R.reverse.drop (trc + 1)) := by
    conv_lhs => rw [drop_eq_gD_cons htlc', drop_eq_gD_cons htrc']
    rw [mergeBackR_cons_cons, hlv, hrv]
    split
    · rw [← hrv, ← drop_eq_gD_cons htrc']
    · rw [← hlv, ← drop_eq_gD_cons htlc']
  unfold finish_downA
  rw [e1, e2]
  by_cases hb : lt (gD R (R.length - 1 - trc)) (gD L (L.length - 1 - tlc)) = true
  · exact ⟨gD L (L.length - 1 - tlc), _, by rw [hM, if_pos hb], by rw [if_pos hb]⟩
  · exact ⟨gD R (R.length - 1 - trc), _, by rw [hM, if_neg hb], by rw [if_neg hb]⟩

/-- If a list decomposes after k into a nonempty rest, its (k+1)-prefix ends
with the head of the rest. -/
theorem take_succ_of_decomp {l rest : List α} {k : Nat} {c : α}
    (hdec : l = l.take k ++ (c :: rest)) :
    l.take (k + 1) = l.take k ++ [c] := by
  have hk : (l.take k).length = k := by
    have hlen := congrArg List.length hdec
    simp at hlen
    simp
    omega
  conv_lhs => rw [hdec]
  rw [List.take_append_eq_append_take, hk]
  rw [List.take_of_length_le (by omega)]
  have : k + 1 - k = 1 := by omega
  rw [this]
  rfl

theorem parity_merge_loopA_succ [Inhabited α] (lt : α → α → Bool)
    (src : List α) (k : Nat) (up down : Nat × Nat × Nat) (dest : List α) :
    parity_merge_loopA lt src (k + 1) up down dest
      = parity_merge_loopA lt src k (merge_upA lt src up dest).1
          (merge_downA lt src down (merge_upA lt src up dest).2).1
          (merge_downA lt src down (merge_upA lt src up dest).2).2 := rfl

/-- Combined invariant for the interleaved parity_merge loop: after k paired
steps the front holds the first k forward-merge outputs (plus one junk slot)
and the back holds the first k backward-merge outputs (plus one junk slot). -/
theorem pmLoop_spec [Inhabited α] {lt : α → α → Bool} (L R : List α) :
    ∀ (k lc rc tlc trc pdD : Nat) (dest : List α),
      lc + k ≤ L.length → rc + k ≤ R.length →
      tlc + k + 1 ≤ L.length → trc + k + 1 ≤ R.length →
      lc + rc + 2 * k + 1 ≤ pdD →
      ∃ lc' rc' tlc' trc' junkU junkD,
        lc ≤ lc' ∧ rc ≤ rc' ∧ lc' + rc' = lc + rc + k ∧
        tlc ≤ tlc' ∧ trc ≤ trc' ∧ tlc' + trc' = tlc + trc + k ∧
        junkU.length = min k 1 ∧ junkD.length = min k 1 ∧
        mergePure lt (L.drop lc) (R.drop rc)
          = (mergePure lt (L.drop lc) (R.drop rc)).take k
            ++ mergePure lt (L.drop lc') (R.drop rc') ∧
        mergeBackR lt (L.reverse.drop tlc) (R.reverse.drop trc)
          = (mergeBackR lt (L.reverse.drop tlc) (R.reverse.drop trc)).take k
            ++ mergeBackR lt (L.reverse.drop tlc') (R.reverse.drop trc') ∧
        parity_merge_loopA lt (L ++ R) k (lc, L.length + rc, lc + rc)
            (L.length - 1 - tlc, L.length + (R.length - 1 - trc), pdD) dest
          = ((lc', L.length + rc', lc' + rc'),
             (L.length - 1 - tlc', L.length + (R.length - 1 - trc'), pdD - k),
             setRange
               (setRange dest (lc + rc)
                 ((mergePure lt (L.drop lc) (R.drop rc)).take k ++ junkU))
               (pdD - k)
               (junkD ++
                 ((mergeBackR lt (L.reverse.drop tlc)
                   (R.reverse.drop trc)).take k).reverse))
  | 0, lc, rc, tlc, trc, pdD, dest, _, _, _, _, _ => by
    exact ⟨lc, rc, tlc, trc, [], [], Nat.le_refl _, Nat.le_refl _, rfl,
      Nat.le_refl _, Nat.le_refl _, rfl, rfl, rfl, by simp, by simp,
      by simp [parity_merge_loopA, setRange_nil]⟩
  | k + 1, lc, rc, tlc, trc, pdD, dest, hL, hR, hDL, hDR, hsep => by
    have hlc : lc < L.length := by omega
    have hrc : rc < R.length := by omega
    obtain ⟨lc2, rc2, c0, o0, hu1, hu2, hu3, hu4, hu5, hu6, hu7⟩ :=
      @merge_upA_coord _ _ lt L R lc rc (lc + rc) dest hlc hrc
    obtain ⟨tlc2, trc2, d0, j0, hd1, hd2, hd3, hd4, hd5, hd6, hd7⟩ :=
      @merge_downA_coord _ _ lt L R tlc trc pdD
        ((dest.set (lc + rc) c0).set (lc + rc + 1) o0)
        (by omega) (by omega) (by omega)
    obtain ⟨lc', rc', tlc', trc', junkU, junkD, g1, g2, g3, g4, g5, g6, g7,
        g8, g9, g10, g11⟩ :=
      pmLoop_spec L R k lc2 rc2 tlc2 trc2 (pdD - 1)
        ((((dest.set (lc + rc) c0).set (lc + rc + 1) o0).set (pdD - 1) j0).set
          pdD d0)
        (by omega) (by omega) (by omega) (by omega) (by omega)
    have hMU2len : k ≤ (mergePure lt (L.drop lc2) (R.drop rc2)).length := by
      rw [mergePure_length]
      simp only [List.length_drop]
      omega
    have hMD2len : k ≤ (mergeBackR lt (L.reverse.drop tlc2)
        (R.reverse.drop trc2)).length := by
      rw [mergeBackR_length]
      simp only [List.length_drop, List.length_reverse]
      omega
    refine ⟨lc', rc', tlc', trc', (if k = 0 then [o0] else junkU),
      (if k = 0 then [j0] else junkD), by omega, by omega, by omega,
      by omega, by omega, by omega, ?_, ?_, ?_, ?_, ?_⟩
    · split
      · simp only [List.length_cons, List.length_nil]
        omega
      · next hk => rw [g7]; omega
    · split
      · simp only [List.length_cons, List.length_nil]
        omega
      · next hk => rw [g8]; omega
    · rw [hu6]
      simp only [List.take_succ_cons, List.cons_append]
      congr 1
    · rw [hd6]
      simp only [List.take_succ_cons, List.cons_append]
      congr 1
    · rw [parity_merge_loopA_succ, hu7]
      show parity_merge_loopA lt (L ++ R) k (lc2, L.length + rc2, lc + rc + 1)
          ((merge_downA lt (L ++ R)
            (L.length - 1 - tlc, L.length + (R.length - 1 - trc), pdD)
            ((dest.set (lc + rc) c0).set (lc + rc + 1) o0)).1)
          ((merge_downA lt (L ++ R)
            (L.length - 1 - tlc, L.length + (R.length - 1 - trc), pdD)
            ((dest.set (lc + rc) c0).set (lc + rc + 1) o0)).2) = _
      rw [hd7]
      show parity_merge_loopA lt (L ++ R) k (lc2, L.length + rc2, lc + rc + 1)
          (L.length - 1 - tlc2, L.length + (R.length - 1 - trc2), pdD - 1)
          ((((dest.set (lc + rc) c0).set (lc + rc + 1) o0).set (pdD - 1)
            j0).set pdD d0) = _
      have e12 : lc + rc + 1 = lc2 + rc2 := by omega
      rw [← e12] at g11
      rw [g11]
      have e2 : pdD - 1 - k = pdD - (k + 1) := by omega
      rw [e2]
      congr 1
      congr 1
      -- transform the overlay expression
      have hjUlen : (junkU).length ≤ 1 := by rw [g7]; omega
      have hjDlen : (junkD).length ≤ 1 := by rw [g8]; omega
      have hMU2take : ((mergePure lt (L.drop lc2) (R.drop rc2)).take k).length
          = k := by
        simp only [List.length_take]
        omega
      have hMD2take : ((mergeBackR lt (L.reverse.drop tlc2)
          (R.reverse.drop trc2)).take k).length = k := by
        simp only [List.length_take]
        omega
      have hblobUlen : ((mergePure lt (L.drop lc2) (R.drop rc2)).take k
          ++ junkU).length ≤ k + 1 := by
        simp only [List.length_append]
        omega
      have hblobDlen : (junkD ++ ((mergeBackR lt (L.reverse.drop tlc2)
          (R.reverse.drop trc2)).take k).reverse).length ≤ k + 1 := by
        simp only [List.length_append, List.length_reverse]
        omega
      have hstep1a : setRange ((((dest.set (lc + rc) c0).set (lc + rc + 1)
            o0).set (pdD - 1) j0).set pdD d0) (lc + rc + 1)
            ((mergePure lt (L.drop lc2) (R.drop rc2)).take k ++ junkU)
          = (setRange (((dest.set (lc + rc) c0).set (lc + rc + 1) o0).set
              (pdD - 1) j0) (lc + rc + 1)
              ((mergePure lt (L.drop lc2) (R.drop rc2)).take k ++ junkU)).set
              pdD d0 :=
        setRange_set_high d0 _ _ (by omega)
      have hstep1b : setRange (((dest.set (lc + rc) c0).set (lc + rc + 1)
            o0).set (pdD - 1) j0) (lc + rc + 1)
            ((mergePure lt (L.drop lc2) (R.drop rc2)).take k ++ junkU)
          = (setRange ((dest.set (lc + rc) c0).set (lc + rc + 1) o0)
              (lc + rc + 1)
              ((mergePure lt (L.drop lc2) (R.drop rc2)).take k ++ junkU)).set
              (pdD - 1) j0 :=
        setRange_set_high j0 _ _ (by omega)
      have htakeU : (mergePure lt (L.drop lc) (R.drop rc)).take (k + 1)
          = c0 :: (mergePure lt (L.drop lc2) (R.drop rc2)).take k := by
        rw [hu6]
        simp only [List.take_succ_cons]
      have hstep2 : setRange ((dest.set (lc + rc) c0).set (lc + rc + 1) o0)
            (lc + rc + 1)
            ((mergePure lt (L.drop lc2) (R.drop rc2)).take k ++ junkU)
          = setRange dest (lc + rc)
              ((mergePure lt (L.drop lc) (R.drop rc)).take (k + 1)
                ++ (if k = 0 then [o0] else junkU)) := by
        rw [htakeU]
        by_cases hk : k = 0
        · subst hk
          have hjU : junkU = [] := List.length_eq_zero.1 (by rw [g7]; omega)
          subst hjU
          rw [if_pos rfl]
          simp only [List.take_zero, List.nil_append, List.append_nil,
            setRange_nil, List.cons_append]
          rw [setRange_cons, setRange_cons, setRange_nil]
        · rw [if_neg hk]
          rw [setRange_absorb o0 _ _ (Nat.le_refl _) (by
            simp only [List.length_append]
            omega)]
          rw [← setRange_cons]
          congr 1
      rw [hstep1a, hstep1b, hstep2]
      have htakeD : (mergeBackR lt (L.reverse.drop tlc)
            (R.reverse.drop trc)).take (k + 1)
          = d0 :: (mergeBackR lt (L.reverse.drop tlc2)
              (R.reverse.drop trc2)).take k := by
        rw [hd6]
        simp only [List.take_succ_cons]
      have hstep3a : setRange (((setRange dest (lc + rc)
            ((mergePure lt (L.drop lc) (R.drop rc)).take (k + 1)
              ++ (if k = 0 then [o0] else junkU))).set (pdD - 1) j0).set pdD
            d0) (pdD - (k + 1))
            (junkD ++ ((mergeBackR lt (L.reverse.drop tlc2)
              (R.reverse.drop trc2)).take k).reverse)
          = (setRange ((setRange dest (lc + rc)
              ((mergePure lt (L.drop lc) (R.drop rc)).take (k + 1)
                ++ (if k = 0 then [o0] else junkU))).set (pdD - 1) j0)
              (pdD - (k + 1))
              (junkD ++ ((mergeBackR lt (L.reverse.drop tlc2)
                (R.reverse.drop trc2)).take k).reverse)).set pdD d0 :=
        setRange_set_high d0 _ _ (by omega)
      have hstep3b : setRange ((setRange dest (lc + rc)
            ((mergePure lt (L.drop lc) (R.drop rc)).take (k + 1)
              ++ (if k = 0 then [o0] else junkU))).set (pdD - 1) j0)
            (pdD - (k + 1))
            (junkD ++ ((mergeBackR lt (L.reverse.drop tlc2)
              (R.reverse.drop trc2)).take k).reverse)
          = setRange (setRange dest (lc + rc)
              ((mergePure lt (L.drop lc) (R.drop rc)).take (k + 1)
                ++ (if k = 0 then [o0] else junkU))) (pdD - (k + 1))
              ((if k = 0 then [j0] else junkD)
                ++ ((mergeBackR lt (L.reverse.drop tlc2)
                  (R.reverse.drop trc2)).take k).reverse) := by
        by_cases hk : k = 0
        · subst hk
          have hjD : junkD = [] := List.length_eq_zero.1 (by rw [g8]; omega)
          subst hjD
          simp [setRange_cons, setRange_nil]
        · rw [if_neg hk, if_neg hk]
          apply setRange_absorb j0
          · omega
          · simp only [List.length_append, List.length_reverse]
            omega
      rw [hstep3a, hstep3b]
      have hstep4 : setRange (setRange dest (lc + rc)
            ((mergePure lt (L.drop lc) (R.drop rc)).take (k + 1)
              ++ (if k = 0 then [o0] else junkU))) (pdD - (k + 1))
            ((if k = 0 then [j0] else junkD)
              ++ ((mergeBackR lt (L.reverse.drop tlc)
                (R.reverse.drop trc)).take (k + 1)).reverse)
          = (setRange (setRange dest (lc + rc)
              ((mergePure lt (L.drop lc) (R.drop rc)).take (k + 1)
                ++ (if k = 0 then [o0] else junkU))) (pdD - (k + 1))
              ((if k = 0 then [j0] else junkD)
                ++ ((mergeBackR lt (L.reverse.drop tlc2)
                  (R.reverse.drop trc2)).take k).reverse)).set pdD d0 := by
        rw [htakeD]
        simp only [List.reverse_cons]
        rw [← List.append_assoc, setRange_append, setRange_cons, setRange_nil]
        congr 1
        have hjD' : (if k = 0 then [j0] else junkD).length = 1 := by
          split
          · rfl
          · next hk => rw [g8]; omega
        simp only [List.length_append, List.length_reverse, hjD', hMD2take]
        omega
      rw [hstep4]

theorem setRange_set_last (dest : List α) (i : Nat) (A : List α) (j c : α) :
    (setRange dest i (A ++ [j])).set (i + A.length) c
      = setRange dest i (A ++ [c]) := by
  rw [setRange_append, setRange_append, setRange_cons, setRange_cons,
    setRange_nil, setRange_nil, List.set_set]

theorem setRange_set_first (dest : List α) (i : Nat) (j c : α) (xs : List α) :
    (setRange dest i (j :: xs)).set i c = setRange dest i (c :: xs) := by
  rw [setRange_cons, setRange_cons,
    ← setRange_set_low (by omega : i < i + 1) c xs (dest.set i j),
    List.set_set]

theorem reverse_take_reverse (l : List α) (n : Nat) (h : n ≤ l.length) :
    (l.reverse.take n).reverse = l.drop (l.length - n) := by
  have hsplit : l.reverse
      = (l.drop (l.length - n)).reverse ++ (l.take (l.length - n)).reverse := by
    rw [← List.reverse_append, List.take_append_drop]
  rw [hsplit, List.take_append_eq_append_take]
  have hB : (l.drop (l.length - n)).reverse.length = n := by
    simp
    omega
  rw [List.take_of_length_le (by rw [hB]), hB, Nat.sub_self, List.take_zero,
    List.append_nil, List.reverse_reverse]

/-- The up phase of parity_merge8: k merge_up steps followed by finish_up
write the first k+1 forward-merge outputs. -/
theorem upPhase_spec [Inhabited α] {lt : α → α → Bool} (L R : List α)
    (k : Nat) (dest : List α) (hkL : k + 1 ≤ L.length)
    (hkR : k + 1 ≤ R.length) :
    (fun u => finish_upA lt (L ++ R) u.1.1 u.1.2.1 u.1.2.2 u.2)
        (upIter lt (L ++ R) k (0, L.length, 0) dest)
      = setRange dest 0 ((mergePure lt L R).take (k + 1)) := by
  obtain ⟨lc', rc', junkU, h1, h2, h3, h4, h5, h6⟩ :=
    upIter_spec L R k 0 0 dest (by omega) (by omega)
  simp only [Nat.add_zero, Nat.zero_add, List.drop_zero] at h3 h4 h5 h6
  rw [h6]
  dsimp only
  obtain ⟨c0, restU, hc0, hfin⟩ :=
    @finish_upA_coord _ _ lt L R lc' rc' (lc' + rc')
      (setRange dest 0 ((mergePure lt L R).take k ++ junkU))
      (by omega) (by omega)
  rw [hfin, h3]
  by_cases hk : k = 0
  · subst hk
    have hl0 : lc' = 0 := by omega
    have hr0 : rc' = 0 := by omega
    subst hl0
    subst hr0
    simp only [List.drop_zero] at hc0
    have hjU : junkU = [] := List.length_eq_zero.1 (by rw [h4]; omega)
    subst hjU
    rw [hc0]
    simp only [List.take_zero, List.nil_append, List.append_nil, setRange_nil,
      List.take_succ_cons]
    rw [setRange_cons, setRange_nil]
  · obtain ⟨jU, hjU⟩ := List.length_eq_one.1
      (show junkU.length = 1 by rw [h4]; omega)
    subst hjU
    have hdec : mergePure lt L R
        = (mergePure lt L R).take k ++ (c0 :: restU) := by
      rw [← hc0]
      exact h5
    have htk : (mergePure lt L R).take (k + 1)
        = (mergePure lt L R).take k ++ [c0] := take_succ_of_decomp hdec
    rw [htk]
    have hAlen : ((mergePure lt L R).take k).length = k := by
      simp only [List.length_take, mergePure_length]
      omega
    have h := setRange_set_last dest 0 ((mergePure lt L R).take k) jU c0
    rw [Nat.zero_add, hAlen] at h
    exact h

/-- The down phase of parity_merge8: k merge_down steps followed by
finish_down write the first k+1 backward-merge outputs, in reverse, ending
at position pd. -/
theorem downPhase_spec [Inhabited α] {lt : α → α → Bool} (L R : List α)
    (k pd : Nat) (dest : List α) (hkL : k + 1 ≤ L.length)
    (hkR : k + 1 ≤ R.length) (hpd : k ≤ pd) :
    (fun t => finish_downA lt (L ++ R) t.1.1 t.1.2.1 t.1.2.2 t.2)
        (downIter lt (L ++ R) k
          (L.length - 1, L.length + (R.length - 1), pd) dest)
      = setRange dest (pd - k)
          (((mergeBackR lt L.reverse R.reverse).take (k + 1)).reverse) := by
  obtain ⟨tlc', trc', junkD, h1, h2, h3, h4, h5, h6⟩ :=
    downIter_spec L R k 0 0 pd dest (by omega) (by omega) hpd
  simp only [Nat.sub_zero, Nat.zero_add, List.drop_zero] at h3 h4 h5 h6
  rw [h6]
  dsimp only
  obtain ⟨d0, restD, hd0, hfin⟩ :=
    @finish_downA_coord _ _ lt L R tlc' trc' (pd - k)
      (setRange dest (pd - k)
        (junkD ++ ((mergeBackR lt L.reverse R.reverse).take k).reverse))
      (by omega) (by omega)
  rw [hfin]
  by_cases hk : k = 0
  · subst hk
    have hl0 : tlc' = 0 := by omega
    have hr0 : trc' = 0 := by omega
    subst hl0
    subst hr0
    simp only [List.drop_zero] at hd0
    have hjD : junkD = [] := List.length_eq_zero.1 (by rw [h4]; omega)
    subst hjD
    rw [hd0]
    simp only [List.take_zero, List.reverse_nil, List.nil_append,
      List.append_nil, setRange_nil, List.take_succ_cons]
    rw [List.reverse_cons, List.reverse_nil, List.nil_append,
      setRange_cons, setRange_nil]
  · obtain ⟨jD, hjD⟩ := List.length_eq_one.1
      (show junkD.length = 1 by rw [h4]; omega)
    subst hjD
    have hdec : mergeBackR lt L.reverse R.reverse
        = (mergeBackR lt L.reverse R.reverse).take k ++ (d0 :: restD) := by
      rw [← hd0]
      exact h5
    have htk : (mergeBackR lt L.reverse R.reverse).take (k + 1)
        = (mergeBackR lt L.reverse R.reverse).take k ++ [d0] :=
      take_succ_of_decomp hdec
    rw [htk, List.reverse_append, List.reverse_cons, List.reverse_nil,
      List.nil_append, List.singleton_append]
    exact setRange_set_first dest (pd - k) jD d0 _

/-- Combining the two phases of a parity merge: front forward half and back
backward half assemble the full forward merge. -/
theorem parity_combine [Inhabited α] {lt : α → α → Bool} (hs : SWO lt)
    (L R dest : List α) (hLR : L.length = R.length)
    (hsL : sortedB lt L = true) (hsR : sortedB lt R = true) :
    setRange (setRange dest 0 ((mergePure lt L R).take L.length)) L.length
        (((mergeBackR lt L.reverse R.reverse).take L.length).reverse)
      = setRange dest 0 (mergePure lt L R) := by
  have hMD : mergeBackR lt L.reverse R.reverse = (mergePure lt L R).reverse := by
    have h := mergeBackR_reverse hs L.reverse R.reverse (by simpa using hsL)
      (by simpa using hsR)
    simp only [List.reverse_reverse] at h
    rw [← h, List.reverse_reverse]
  have hMUlen : (mergePure lt L R).length = L.length + R.length :=
    mergePure_length lt L R
  have hback : (((mergeBackR lt L.reverse R.reverse).take L.length).reverse)
      = (mergePure lt L R).drop L.length := by
    rw [hMD, reverse_take_reverse _ _ (by omega)]
    congr 1
    omega
  rw [hback]
  have htklen : ((mergePure lt L R).take L.length).length = L.length := by
    simp only [List.length_take]
    omega
  conv_rhs => rw [← List.take_append_drop L.length (mergePure lt L R)]
  rw [setRange_append, Nat.zero_add, htklen]

theorem parity_merge8A_eq_iter [Inhabited α] (lt : α → α → Bool)
    (src dest : List α) :
    parity_merge8A lt src dest
      = (fun t => finish_downA lt src t.1.1 t.1.2.1 t.1.2.2 t.2)
          (downIter lt src 3 (3, 7, 7)
            ((fun u => finish_upA lt src u.1.1 u.1.2.1 u.1.2.2 u.2)
              (upIter lt src 3 (0, 4, 0) dest))) := rfl

/-- parity_merge8 merges two sorted runs of four into the first eight slots
of dest. -/
theorem parity_merge8A_spec [Inhabited α] {lt : α → α → Bool} (hs : SWO lt)
    (L R dest : List α) (hL4 : L.length = 4) (hR4 : R.length = 4)
    (hsL : sortedB lt L = true) (hsR : sortedB lt R = true) :
    parity_merge8A lt (L ++ R) dest = setRange dest 0 (mergePure lt L R) := by
  rw [parity_merge8A_eq_iter]
  have hup : upIter lt (L ++ R) 3 (0, 4, 0) dest
      = upIter lt (L ++ R) 3 (0, L.length, 0) dest := by rw [hL4]
  rw [hup, upPhase_spec L R 3 dest (by omega) (by omega)]
  have hst : ((3 : Nat), (7 : Nat), (7 : Nat))
      = (L.length - 1, L.length + (R.length - 1), 7) := by rw [hL4, hR4]
  rw [hst, downPhase_spec L R 3 7 _ (by omega) (by omega) (by omega)]
  have e1 : (3 : Nat) + 1 = L.length := by omega
  have e3 : (7 : Nat) - 3 = L.length := by omega
  rw [e1, e3]
  exact parity_combine hs L R dest (by omega) hsL hsR

theorem parity_mergeA_eq [Inhabited α] (lt : α → α → Bool)
    (src dest : List α) (len : Nat) :
    parity_mergeA lt src dest len
      = (fun res => finish_downA lt src res.2.1.1 res.2.1.2.1 res.2.1.2.2
          (finish_upA lt src res.1.1 res.1.2.1 res.1.2.2 res.2.2))
        (parity_merge_loopA lt src (len / 2 - 1) (0, len / 2, 0)
          (len / 2 - 1, len - 1, len - 1) dest) := rfl

/-- parity_merge merges two equal sorted runs into the first len slots of
dest. -/
theorem parity_mergeA_spec [Inhabited α] {lt : α → α → Bool} (hs : SWO lt)
    (L R dest : List α) (hlen2 : 2 ≤ L.length) (hLR : L.length = R.length)
    (hsL : sortedB lt L = true) (hsR : sortedB lt R = true) :
    parity_mergeA lt (L ++ R) dest (L.length + R.length)
      = setRange dest 0 (mergePure lt L R) := by
  have hblock : (L.length + R.length) / 2 = L.length := by omega
  obtain ⟨lc', rc', tlc', trc', junkU, junkD, p1, p2, p3, p4, p5, p6, p7, p8,
      p9, p10, p11⟩ :=
    pmLoop_spec L R (L.length - 1) 0 0 0 0 (L.length + R.length - 1) dest
      (by omega) (by omega) (by omega) (by omega) (by omega)
  simp only [Nat.add_zero, Nat.zero_add, Nat.sub_zero, List.drop_zero]
    at p3 p6 p7 p8 p9 p10 p11
  have e6 : L.length + (R.length - 1) = L.length + R.length - 1 := by omega
  rw [e6] at p11
  have e7 : L.length + R.length - 1 - (L.length - 1) = L.length := by omega
  rw [e7] at p11
  rw [parity_mergeA_eq, hblock, p11]
  dsimp only
  obtain ⟨jU, hjU⟩ := List.length_eq_one.1
    (show junkU.length = 1 by rw [p7]; omega)
  subst hjU
  obtain ⟨jD, hjD⟩ := List.length_eq_one.1
    (show junkD.length = 1 by rw [p8]; omega)
  subst hjD
  obtain ⟨c0, restU, hc0, hfinU⟩ :=
    @finish_upA_coord _ _ lt L R lc' rc' (lc' + rc')
      (setRange
        (setRange dest 0 ((mergePure lt L R).take (L.length - 1) ++ [jU]))
        L.length
        ([jD] ++ ((mergeBackR lt L.reverse R.reverse).take
          (L.length - 1)).reverse))
      (by omega) (by omega)
  rw [hfinU, p3]
  have hsetlow : (setRange
        (setRange dest 0 ((mergePure lt L R).take (L.length - 1) ++ [jU]))
        L.length
        ([jD] ++ ((mergeBackR lt L.reverse R.reverse).take
          (L.length - 1)).reverse)).set (L.length - 1) c0
      = setRange
          ((setRange dest 0
            ((mergePure lt L R).take (L.length - 1) ++ [jU])).set
            (L.length - 1) c0)
          L.length
          ([jD] ++ ((mergeBackR lt L.reverse R.reverse).take
            (L.length - 1)).reverse) :=
    (setRange_set_low (by omega) c0 _ _).symm
  rw [hsetlow]
  have hAlen : ((mergePure lt L R).take (L.length - 1)).length
      = L.length - 1 := by
    simp only [List.length_take, mergePure_length]
    omega
  have hinner : (setRange dest 0
        ((mergePure lt L R).take (L.length - 1) ++ [jU])).set
        (L.length - 1) c0
      = setRange dest 0 ((mergePure lt L R).take (L.length - 1) ++ [c0]) := by
    have h := setRange_set_last dest 0 ((mergePure lt L R).take (L.length - 1))
      jU c0
    rw [Nat.zero_add, hAlen] at h
    exact h
  rw [hinner]
  have hdecU : mergePure lt L R
      = (mergePure lt L R).take (L.length - 1) ++ (c0 :: restU) := by
    rw [← hc0]
    exact p9
  have htkU : (mergePure lt L R).take (L.length - 1 + 1)
      = (mergePure lt L R).take (L.length - 1) ++ [c0] :=
    take_succ_of_decomp hdecU
  rw [← htkU]
  have e9 : L.length - 1 + 1 = L.length := by omega
  rw [e9]
  obtain ⟨d0, restD, hd0, hfinD⟩ :=
    @finish_downA_coord _ _ lt L R tlc' trc' L.length
      (setRange (setRange dest 0 ((mergePure lt L R).take L.length)) L.length
        ([jD] ++ ((mergeBackR lt L.reverse R.reverse).take
          (L.length - 1)).reverse))
      (by omega) (by omega)
  rw [hfinD, List.singleton_append,
    setRange_set_first _ _ jD d0 _]
  have hdecD : mergeBackR lt L.reverse R.reverse
      = (mergeBackR lt L.reverse R.reverse).take (L.length - 1)
        ++ (d0 :: restD) := by
    rw [← hd0]
    exact p10
  have htkD : (mergeBackR lt L.reverse R.reverse).take (L.length - 1 + 1)
      = (mergeBackR lt L.reverse R.reverse).take (L.length - 1) ++ [d0] :=
    take_succ_of_decomp hdecD
  have hdX : d0 :: ((mergeBackR lt L.reverse R.reverse).take
        (L.length - 1)).reverse
      = ((mergeBackR lt L.reverse R.reverse).take
          (L.length - 1 + 1)).reverse := by
    rw [htkD, List.reverse_append]
    simp
  rw [hdX, e9]
  exact parity_combine hs L R dest hLR hsL hsR

/-- sort8: sorts the first eight elements in place and leaves the tail. -/
theorem sort8A_spec [Inhabited α] {lt : α → α → Bool} (hs : SWO lt)
    (x1 x2 x3 x4 x5 x6 x7 x8 : α) (rest : List α) :
    ∃ w, sort8A lt (x1 :: x2 :: x3 :: x4 :: x5 :: x6 :: x7 :: x8 :: rest)
        = w ++ rest ∧ w.length = 8 ∧ sortedB lt w = true ∧
      SEquiv lt [x1, x2, x3, x4, x5, x6, x7, x8] w := by
  obtain ⟨y1, y2, y3, y4, hv1, hs1, he1⟩ :=
    sort4A_spec hs x1 x2 x3 x4 (x5 :: x6 :: x7 :: x8 :: rest)
  obtain ⟨z1, z2, z3, z4, hv2, hs2, he2⟩ := sort4A_spec hs x5 x6 x7 x8 rest
  have hV2 : (sort4A lt
        (x1 :: x2 :: x3 :: x4 :: x5 :: x6 :: x7 :: x8 :: rest)).take 4
      ++ sort4A lt ((sort4A lt
        (x1 :: x2 :: x3 :: x4 :: x5 :: x6 :: x7 :: x8 :: rest)).drop 4)
      = y1 :: y2 :: y3 :: y4 :: z1 :: z2 :: z3 :: z4 :: rest := by
    rw [hv1]
    simp only [List.take_succ_cons, List.take_zero, List.drop_succ_cons,
      List.drop_zero]
    rw [hv2]
    simp
  have hbody : sort8A lt (x1 :: x2 :: x3 :: x4 :: x5 :: x6 :: x7 :: x8 :: rest)
      = (if !lt (gD (y1 :: y2 :: y3 :: y4 :: z1 :: z2 :: z3 :: z4 :: rest) 4)
              (gD (y1 :: y2 :: y3 :: y4 :: z1 :: z2 :: z3 :: z4 :: rest) 3) then
           y1 :: y2 :: y3 :: y4 :: z1 :: z2 :: z3 :: z4 :: rest
         else parity_merge8A lt
           ((y1 :: y2 :: y3 :: y4 :: z1 :: z2 :: z3 :: z4 :: rest).take 8)
           (y1 :: y2 :: y3 :: y4 :: z1 :: z2 :: z3 :: z4 :: rest)) := by
    show (if !lt (gD ((sort4A lt
          (x1 :: x2 :: x3 :: x4 :: x5 :: x6 :: x7 :: x8 :: rest)).take 4
          ++ sort4A lt ((sort4A lt
            (x1 :: x2 :: x3 :: x4 :: x5 :: x6 :: x7 :: x8 :: rest)).drop 4)) 4)
            (gD ((sort4A lt
          (x1 :: x2 :: x3 :: x4 :: x5 :: x6 :: x7 :: x8 :: rest)).take 4
          ++ sort4A lt ((sort4A lt
            (x1 :: x2 :: x3 :: x4 :: x5 :: x6 :: x7 :: x8 :: rest)).drop 4)) 3)
        then ((sort4A lt
          (x1 :: x2 :: x3 :: x4 :: x5 :: x6 :: x7 :: x8 :: rest)).take 4
          ++ sort4A lt ((sort4A lt
            (x1 :: x2 :: x3 :: x4 :: x5 :: x6 :: x7 :: x8 :: rest)).drop 4))
        else parity_merge8A lt (((sort4A lt
          (x1 :: x2 :: x3 :: x4 :: x5 :: x6 :: x7 :: x8 :: rest)).take 4
          ++ sort4A lt ((sort4A lt
            (x1 :: x2 :: x3 :: x4 :: x5 :: x6 :: x7 :: x8 :: rest)).drop 4)).take 8)
          ((sort4A lt
          (x1 :: x2 :: x3 :: x4 :: x5 :: x6 :: x7 :: x8 :: rest)).take 4
          ++ sort4A lt ((sort4A lt
            (x1 :: x2 :: x3 :: x4 :: x5 :: x6 :: x7 :: x8 :: rest)).drop 4))) = _
    rw [hV2]
  rw [hbody]
  have hg4 : gD (y1 :: y2 :: y3 :: y4 :: z1 :: z2 :: z3 :: z4 :: rest) 4
      = z1 := rfl
  have hg3 : gD (y1 :: y2 :: y3 :: y4 :: z1 :: z2 :: z3 :: z4 :: rest) 3
      = y4 := rfl
  rw [hg4, hg3]
  have hEq8 : SEquiv lt [x1, x2, x3, x4, x5, x6, x7, x8]
      ([y1, y2, y3, y4] ++ [z1, z2, z3, z4]) := by
    have h1 := he1.append_left [x5, x6, x7, x8]
    have h2 := he2.append_right [y1, y2, y3, y4]
    exact h1.trans h2
  by_cases hb : lt z1 y4 = true
  · rw [if_neg (by simp [hb])]
    refine ⟨mergePure lt [y1, y2, y3, y4] [z1, z2, z3, z4], ?_, ?_, ?_, ?_⟩
    · have hswp : (y1 :: y2 :: y3 :: y4 :: z1 :: z2 :: z3 :: z4 :: rest).take 8
          = [y1, y2, y3, y4] ++ [z1, z2, z3, z4] := by
        simp only [List.take_succ_cons, List.take_zero]
        rfl
      rw [hswp]
      have hpm := parity_merge8A_spec hs [y1, y2, y3, y4] [z1, z2, z3, z4]
        (y1 :: y2 :: y3 :: y4 :: z1 :: z2 :: z3 :: z4 :: rest)
        rfl rfl hs1 hs2
      rw [hpm]
      have hMlen : (mergePure lt [y1, y2, y3, y4] [z1, z2, z3, z4]).length
          = 8 := by
        rw [mergePure_length]
        rfl
      rw [setRange_splice _ _ _ (by rw [hMlen]; simp)]
      rw [hMlen]
      simp
    · rw [mergePure_length]
      rfl
    · exact mergePure_sorted hs hs1 hs2
    · exact hEq8.trans (sequiv_mergePure hs [y1, y2, y3, y4] [z1, z2, z3, z4]
        hs1)
  · rw [if_pos (by simp [hb])]
    refine ⟨[y1, y2, y3, y4, z1, z2, z3, z4], by simp, rfl, ?_, ?_⟩
    · have hlast : ∀ x, ([y1, y2, y3, y4] : List α).getLast? = some x →
          ∀ y, ([z1, z2, z3, z4] : List α).head? = some y →
            lt y x = false := by
        intro x hx y hy
        have hx' : x = y4 := by simpa using hx.symm
        have hy' : y = z1 := by simpa using hy.symm
        subst hx'
        subst hy'
        simpa using hb
      have h := sortedB_append hs1 hs2 hlast
      simpa using h
    · simpa using hEq8

theorem sort16A_eq [Inhabited α] (lt : α → α → Bool) (v : List α) :
    sort16A lt v
      = (fun v4 => if !lt (gD v4 4) (gD v4 3) && !lt (gD v4 8) (gD v4 7) &&
            !lt (gD v4 12) (gD v4 11) then v4
          else parity_mergeA lt
            (parity_merge8A lt (v4.take 8) (v4.take 8) ++
              parity_merge8A lt ((v4.drop 8).take 8) ((v4.drop 8).take 8))
            v4 16)
        ((fun v3 => v3.take 12 ++ sort4A lt (v3.drop 12))
          ((fun v2 => v2.take 8 ++ sort4A lt (v2.drop 8))
            ((fun v1 => v1.take 4 ++ sort4A lt (v1.drop 4))
              (sort4A lt v)))) := rfl

/-- sort16: sorts the first sixteen elements in place and leaves the tail. -/
theorem sort16A_spec [Inhabited α] {lt : α → α → Bool} (hs : SWO lt)
    (x1 x2 x3 x4 x5 x6 x7 x8 x9 x10 x11 x12 x13 x14 x15 x16 : α)
    (rest : List α) :
    ∃ w, sort16A lt (x1 :: x2 :: x3 :: x4 :: x5 :: x6 :: x7 :: x8 :: x9 :: x10 :: x11 :: x12 :: x13 :: x14 :: x15 :: x16 :: rest)
        = w ++ rest ∧ w.length = 16 ∧ sortedB lt w = true ∧
      SEquiv lt [x1, x2, x3, x4, x5, x6, x7, x8, x9, x10, x11, x12, x13, x14,
        x15, x16] w := by
  obtain ⟨a1, a2, a3, a4, hq1, hsA, heA⟩ := sort4A_spec hs x1 x2 x3 x4
    (x5 :: x6 :: x7 :: x8 :: x9 :: x10 :: x11 :: x12 :: x13 :: x14 :: x15 ::
      x16 :: rest)
  obtain ⟨b1, b2, b3, b4, hq2, hsB, heB⟩ := sort4A_spec hs x5 x6 x7 x8
    (x9 :: x10 :: x11 :: x12 :: x13 :: x14 :: x15 :: x16 :: rest)
  obtain ⟨c1, c2, c3, c4, hq3, hsC, heC⟩ := sort4A_spec hs x9 x10 x11 x12
    (x13 :: x14 :: x15 :: x16 :: rest)
  obtain ⟨d1, d2, d3, d4, hq4, hsD, heD⟩ := sort4A_spec hs x13 x14 x15 x16
    rest
  have h2 : (a1 :: a2 :: a3 :: a4 :: x5 :: x6 :: x7 :: x8 :: x9 :: x10 ::
        x11 :: x12 :: x13 :: x14 :: x15 :: x16 :: rest).take 4
      ++ sort4A lt ((a1 :: a2 :: a3 :: a4 :: x5 :: x6 :: x7 :: x8 :: x9 ::
        x10 :: x11 :: x12 :: x13 :: x14 :: x15 :: x16 :: rest).drop 4)
      = a1 :: a2 :: a3 :: a4 :: b1 :: b2 :: b3 :: b4 :: x9 :: x10 :: x11 ::
        x12 :: x13 :: x14 :: x15 :: x16 :: rest := by
    simp only [List.take_succ_cons, List.take_zero, List.drop_succ_cons,
      List.drop_zero]
    rw [hq2]
    simp
  have h3 : (a1 :: a2 :: a3 :: a4 :: b1 :: b2 :: b3 :: b4 :: x9 :: x10 ::
        x11 :: x12 :: x13 :: x14 :: x15 :: x16 :: rest).take 8
      ++ sort4A lt ((a1 :: a2 :: a3 :: a4 :: b1 :: b2 :: b3 :: b4 :: x9 ::
        x10 :: x11 :: x12 :: x13 :: x14 :: x15 :: x16 :: rest).drop 8)
      = a1 :: a2 :: a3 :: a4 :: b1 :: b2 :: b3 :: b4 :: c1 :: c2 :: c3 ::
        c4 :: x13 :: x14 :: x15 :: x16 :: rest := by
    simp only [List.take_succ_cons, List.take_zero, List.drop_succ_cons,
      List.drop_zero]
    rw [hq3]
    simp
  have h4 : (a1 :: a2 :: a3 :: a4 :: b1 :: b2 :: b3 :: b4 :: c1 :: c2 ::
        c3 :: c4 :: x13 :: x14 :: x15 :: x16 :: rest).take 12
      ++ sort4A lt ((a1 :: a2 :: a3 :: a4 :: b1 :: b2 :: b3 :: b4 :: c1 ::
        c2 :: c3 :: c4 :: x13 :: x14 :: x15 :: x16 :: rest).drop 12)
      = a1 :: a2 :: a3 :: a4 :: b1 :: b2 :: b3 :: b4 :: c1 :: c2 :: c3 ::
        c4 :: d1 :: d2 :: d3 :: d4 :: rest := by
    simp only [List.take_succ_cons, List.take_zero, List.drop_succ_cons,
      List.drop_zero]
    rw [hq4]
    simp
  rw [sort16A_eq, hq1]
  dsimp only
  rw [h2, h3, h4]
  have hg4 : gD (a1 :: a2 :: a3 :: a4 :: b1 :: b2 :: b3 :: b4 :: c1 :: c2 ::
      c3 :: c4 :: d1 :: d2 :: d3 :: d4 :: rest) 4 = b1 := rfl
  have hg3 : gD (a1 :: a2 :: a3 :: a4 :: b1 :: b2 :: b3 :: b4 :: c1 :: c2 ::
      c3 :: c4 :: d1 :: d2 :: d3 :: d4 :: rest) 3 = a4 := rfl
  have hg8 : gD (a1 :: a2 :: a3 :: a4 :: b1 :: b2 :: b3 :: b4 :: c1 :: c2 ::
      c3 :: c4 :: d1 :: d2 :: d3 :: d4 :: rest) 8 = c1 := rfl
  have hg7 : gD (a1 :: a2 :: a3 :: a4 :: b1 :: b2 :: b3 :: b4 :: c1 :: c2 ::
      c3 :: c4 :: d1 :: d2 :: d3 :: d4 :: rest) 7 = b4 := rfl
  have hg12 : gD (a1 :: a2 :: a3 :: a4 :: b1 :: b2 :: b3 :: b4 :: c1 :: c2 ::
      c3 :: c4 :: d1 :: d2 :: d3 :: d4 :: rest) 12 = d1 := rfl
  have hg11 : gD (a1 :: a2 :: a3 :: a4 :: b1 :: b2 :: b3 :: b4 :: c1 :: c2 ::
      c3 :: c4 :: d1 :: d2 :: d3 :: d4 :: rest) 11 = c4 := rfl
  rw [hg4, hg3, hg8, hg7, hg12, hg11]
  have heAB : SEquiv lt [x1, x2, x3, x4, x5, x6, x7, x8]
      ([a1, a2, a3, a4] ++ [b1, b2, b3, b4]) := by
    have t1 := heA.append_left [x5, x6, x7, x8]
    have t2 := heB.append_right [a1, a2, a3, a4]
    exact t1.trans t2
  have heCD : SEquiv lt [x9, x10, x11, x12, x13, x14, x15, x16]
      ([c1, c2, c3, c4] ++ [d1, d2, d3, d4]) := by
    have t1 := heC.append_left [x13, x14, x15, x16]
    have t2 := heD.append_right [c1, c2, c3, c4]
    exact t1.trans t2
  have heAll : SEquiv lt
      [x1, x2, x3, x4, x5, x6, x7, x8, x9, x10, x11, x12, x13, x14, x15, x16]
      (([a1, a2, a3, a4] ++ [b1, b2, b3, b4]) ++
        ([c1, c2, c3, c4] ++ [d1, d2, d3, d4])) := by
    have t1 := heAB.append_left
      [x9, x10, x11, x12, x13, x14, x15, x16]
    have t2 := heCD.append_right
      ([a1, a2, a3, a4] ++ [b1, b2, b3, b4])
    exact t1.trans t2
  by_cases hgg : (!lt b1 a4 && !lt c1 b4 && !lt d1 c4) = true
  · rw [if_pos hgg]
    simp only [Bool.and_eq_true, Bool.not_eq_true'] at hgg
    obtain ⟨⟨hab, hbc⟩, hcd⟩ := hgg
    refine ⟨[a1, a2, a3, a4, b1, b2, b3, b4, c1, c2, c3, c4, d1, d2, d3, d4],
      by simp, rfl, ?_, ?_⟩
    · have hsAB : sortedB lt ([a1, a2, a3, a4] ++ [b1, b2, b3, b4]) = true := by
        refine sortedB_append hsA hsB ?_
        intro x hx y hy
        have hx' : x = a4 := by simpa using hx.symm
        have hy' : y = b1 := by simpa using hy.symm
        subst hx'
        subst hy'
        exact hab
      have hsABC : sortedB lt (([a1, a2, a3, a4] ++ [b1, b2, b3, b4])
          ++ [c1, c2, c3, c4]) = true := by
        refine sortedB_append hsAB hsC ?_
        intro x hx y hy
        have hx' : x = b4 := by simpa using hx.symm
        have hy' : y = c1 := by simpa using hy.symm
        subst hx'
        subst hy'
        exact hbc
      have hsABCD : sortedB lt ((([a1, a2, a3, a4] ++ [b1, b2, b3, b4])
          ++ [c1, c2, c3, c4]) ++ [d1, d2, d3, d4]) = true := by
        refine sortedB_append hsABC hsD ?_
        intro x hx y hy
        have hx' : x = c4 := by simpa using hx.symm
        have hy' : y = d1 := by simpa using hy.symm
        subst hx'
        subst hy'
        exact hcd
      simpa using hsABCD
    · exact heAll
  · rw [if_neg hgg]
    have hM1 : parity_merge8A lt
        ((a1 :: a2 :: a3 :: a4 :: b1 :: b2 :: b3 :: b4 :: c1 :: c2 :: c3 ::
          c4 :: d1 :: d2 :: d3 :: d4 :: rest).take 8)
        ((a1 :: a2 :: a3 :: a4 :: b1 :: b2 :: b3 :: b4 :: c1 :: c2 :: c3 ::
          c4 :: d1 :: d2 :: d3 :: d4 :: rest).take 8)
        = mergePure lt [a1, a2, a3, a4] [b1, b2, b3, b4] := by
      have htk : (a1 :: a2 :: a3 :: a4 :: b1 :: b2 :: b3 :: b4 :: c1 :: c2 ::
          c3 :: c4 :: d1 :: d2 :: d3 :: d4 :: rest).take 8
          = [a1, a2, a3, a4] ++ [b1, b2, b3, b4] := by
        simp only [List.take_succ_cons, List.take_zero]
        rfl
      rw [htk, parity_merge8A_spec hs [a1, a2, a3, a4] [b1, b2, b3, b4] _
        rfl rfl hsA hsB]
      rw [setRange_splice _ _ _ (by rw [mergePure_length]; simp)]
      rw [show (mergePure lt [a1, a2, a3, a4] [b1, b2, b3, b4]).length = 8 by
        rw [mergePure_length]; rfl]
      simp
    have hM2 : parity_merge8A lt
        (((a1 :: a2 :: a3 :: a4 :: b1 :: b2 :: b3 :: b4 :: c1 :: c2 :: c3 ::
          c4 :: d1 :: d2 :: d3 :: d4 :: rest).drop 8).take 8)
        (((a1 :: a2 :: a3 :: a4 :: b1 :: b2 :: b3 :: b4 :: c1 :: c2 :: c3 ::
          c4 :: d1 :: d2 :: d3 :: d4 :: rest).drop 8).take 8)
        = mergePure lt [c1, c2, c3, c4] [d1, d2, d3, d4] := by
      have htk : ((a1 :: a2 :: a3 :: a4 :: b1 :: b2 :: b3 :: b4 :: c1 :: c2 ::
          c3 :: c4 :: d1 :: d2 :: d3 :: d4 :: rest).drop 8).take 8
          = [c1, c2, c3, c4] ++ [d1, d2, d3, d4] := by
        simp only [List.drop_succ_cons, List.drop_zero, List.take_succ_cons,
          List.take_zero]
        rfl
      rw [htk, parity_merge8A_spec hs [c1, c2, c3, c4] [d1, d2, d3, d4] _
        rfl rfl hsC hsD]
      rw [setRange_splice _ _ _ (by rw [mergePure_length]; simp)]
      rw [show (mergePure lt [c1, c2, c3, c4] [d1, d2, d3, d4]).length = 8 by
        rw [mergePure_length]; rfl]
      simp
    rw [hM1, hM2]
    have hM1len : (mergePure lt [a1, a2, a3, a4] [b1, b2, b3, b4]).length
        = 8 := by
      rw [mergePure_length]
      rfl
    have hM2len : (mergePure lt [c1, c2, c3, c4] [d1, d2, d3, d4]).length
        = 8 := by
      rw [mergePure_length]
      rfl
    have hsM1 : sortedB lt (mergePure lt [a1, a2, a3, a4] [b1, b2, b3, b4])
        = true := mergePure_sorted hs hsA hsB
    have hsM2 : sortedB lt (mergePure lt [c1, c2, c3, c4] [d1, d2, d3, d4])
        = true := mergePure_sorted hs hsC hsD
    rw [show (16 : Nat)
        = (mergePure lt [a1, a2, a3, a4] [b1, b2, b3, b4]).length
          + (mergePure lt [c1, c2, c3, c4] [d1, d2, d3, d4]).length by
      rw [hM1len, hM2len]]
    rw [parity_mergeA_spec hs _ _ _ (by rw [hM1len]; omega)
      (by rw [hM1len, hM2len]) hsM1 hsM2]
    refine ⟨mergePure lt (mergePure lt [a1, a2, a3, a4] [b1, b2, b3, b4])
      (mergePure lt [c1, c2, c3, c4] [d1, d2, d3, d4]), ?_, ?_, ?_, ?_⟩
    · rw [setRange_splice _ _ _ (by
        rw [mergePure_length, hM1len, hM2len]
        simp)]
      rw [show (mergePure lt (mergePure lt [a1, a2, a3, a4] [b1, b2, b3, b4])
          (mergePure lt [c1, c2, c3, c4] [d1, d2, d3, d4])).length = 16 by
        rw [mergePure_length, hM1len, hM2len]]
      simp
    · rw [mergePure_length, hM1len, hM2len]
    · exact mergePure_sorted hs hsM1 hsM2
    · have t1 : SEquiv lt
          (([a1, a2, a3, a4] ++ [b1, b2, b3, b4]) ++
            ([c1, c2, c3, c4] ++ [d1, d2, d3, d4]))
          ((mergePure lt [a1, a2, a3, a4] [b1, b2, b3, b4]) ++
            ([c1, c2, c3, c4] ++ [d1, d2, d3, d4])) :=
        (sequiv_mergePure hs [a1, a2, a3, a4] [b1, b2, b3, b4]
          hsA).append_left _
      have t2 : SEquiv lt
          ((mergePure lt [a1, a2, a3, a4] [b1, b2, b3, b4]) ++
            ([c1, c2, c3, c4] ++ [d1, d2, d3, d4]))
          ((mergePure lt [a1, a2, a3, a4] [b1, b2, b3, b4]) ++
            (mergePure lt [c1, c2, c3, c4] [d1, d2, d3, d4])) :=
        (sequiv_mergePure hs [c1, c2, c3, c4] [d1, d2, d3, d4]
          hsC).append_right _
      have t3 : SEquiv lt
          ((mergePure lt [a1, a2, a3, a4] [b1, b2, b3, b4]) ++
            (mergePure lt [c1, c2, c3, c4] [d1, d2, d3, d4]))
          (mergePure lt (mergePure lt [a1, a2, a3, a4] [b1, b2, b3, b4])
            (mergePure lt [c1, c2, c3, c4] [d1, d2, d3, d4])) :=
        sequiv_mergePure hs _ _ hsM1
      exact heAll.trans (t1.trans (t2.trans t3))

theorem sort4A_spec' [Inhabited α] {lt : α → α → Bool} (hs : SWO lt)
    (v : List α) (h4 : 4 ≤ v.length) :
    ∃ w, sort4A lt v = w ++ v.drop 4 ∧ w.length = 4 ∧ sortedB lt w = true ∧
      SEquiv lt (v.take 4) w := by
  rcases v with _ | ⟨x1, _ | ⟨x2, _ | ⟨x3, _ | ⟨x4, rest⟩⟩⟩⟩
  · simp at h4
  · simp at h4
  · simp at h4
  · simp at h4
  obtain ⟨y1, y2, y3, y4, hv, hsY, heY⟩ := sort4A_spec hs x1 x2 x3 x4 rest
  exact ⟨[y1, y2, y3, y4], by simpa using hv, rfl, hsY, heY⟩

theorem sort8A_spec' [Inhabited α] {lt : α → α → Bool} (hs : SWO lt)
    (v : List α) (h8 : 8 ≤ v.length) :
    ∃ w, sort8A lt v = w ++ v.drop 8 ∧ w.length = 8 ∧ sortedB lt w = true ∧
      SEquiv lt (v.take 8) w := by
  rcases v with _ | ⟨x1, _ | ⟨x2, _ | ⟨x3, _ | ⟨x4, _ | ⟨x5, _ | ⟨x6, _ |
    ⟨x7, _ | ⟨x8, rest⟩⟩⟩⟩⟩⟩⟩⟩
  · simp at h8
  · simp at h8
  · simp at h8
  · simp at h8
  · simp at h8
  · simp at h8
  · simp at h8
  · simp at h8
  obtain ⟨w, hv, hw, hsW, heW⟩ := sort8A_spec hs x1 x2 x3 x4 x5 x6 x7 x8 rest
  exact ⟨w, by simpa using hv, hw, hsW, heW⟩

theorem sort16A_spec' [Inhabited α] {lt : α → α → Bool} (hs : SWO lt)
    (v : List α) (h16 : 16 ≤ v.length) :
    ∃ w, sort16A lt v = w ++ v.drop 16 ∧ w.length = 16 ∧
      sortedB lt w = true ∧ SEquiv lt (v.take 16) w := by
  rcases v with _ | ⟨x1, _ | ⟨x2, _ | ⟨x3, _ | ⟨x4, _ | ⟨x5, _ | ⟨x6, _ |
    ⟨x7, _ | ⟨x8, _ | ⟨x9, _ | ⟨x10, _ | ⟨x11, _ | ⟨x12, _ | ⟨x13, _ |
    ⟨x14, _ | ⟨x15, _ | ⟨x16, rest⟩⟩⟩⟩⟩⟩⟩⟩⟩⟩⟩⟩⟩⟩⟩⟩
  · simp at h16
  · simp at h16
  · simp at h16
  · simp at h16
  · simp at h16
  · simp at h16
  · simp at h16
  · simp at h16
  · simp at h16
  · simp at h16
  · simp at h16
  · simp at h16
  · simp at h16
  · simp at h16
  · simp at h16
  · simp at h16
  obtain ⟨w, hv, hw, hsW, heW⟩ := sort16A_spec hs x1 x2 x3 x4 x5 x6 x7 x8 x9
    x10 x11 x12 x13 x14 x15 x16 rest
  exact ⟨w, by simpa using hv, hw, hsW, heW⟩

/-- sort_small: sorts the whole slice, a stable rearrangement. -/
theorem sort_smallA_spec [Inhabited α] {lt : α → α → Bool} (hs : SWO lt)
    (isCopy : Bool) (v : List α) :
    SEquiv lt v (sort_smallA lt isCopy v) ∧
      sortedB lt (sort_smallA lt isCopy v) = true ∧
      (sort_smallA lt isCopy v).length = v.length := by
  unfold sort_smallA
  by_cases h2 : v.length < 2
  · rw [if_pos h2]
    exact ⟨SEquiv.refl lt v, sortedB_short (by omega), rfl⟩
  rw [if_neg h2]
  by_cases hc : isCopy = true
  · rw [if_pos hc]
    by_cases hl2 : v.length = 2
    · rw [if_pos hl2]
      rcases v with _ | ⟨x1, _ | ⟨x2, rest⟩⟩
      · simp at hl2
      · simp at hl2
      have hrest : rest = [] := by
        simpa using hl2
      subst hrest
      obtain ⟨y1, y2, hv, hy, he⟩ := sort2A_spec hs x1 x2 []
      rw [hv]
      exact ⟨he, sortedB_cons_of hy (by simp [sortedB]), by simp⟩
    rw [if_neg hl2]
    by_cases hl3 : v.length = 3
    · rw [if_pos hl3]
      rcases v with _ | ⟨x1, _ | ⟨x2, _ | ⟨x3, rest⟩⟩⟩
      · simp at hl3
      · simp at hl3
      · simp at hl3
      have hrest : rest = [] := by
        simpa using hl3
      subst hrest
      obtain ⟨y1, y2, y3, hv, hy, he⟩ := sort3A_spec hs x1 x2 x3 []
      rw [hv]
      exact ⟨he, hy, by simp⟩
    rw [if_neg hl3]
    by_cases hl8 : v.length < 8
    · rw [if_pos hl8]
      obtain ⟨w, hv, hw, hsW, heW⟩ := sort4A_spec' hs v (by omega)
      rw [hv]
      have htk : (w ++ v.drop 4).take 4 = w := List.take_left' hw
      obtain ⟨e1, e2, e3⟩ := insertion_sort_remainingA_spec hs
        (w ++ v.drop 4) 4 (by omega) (by rw [htk]; exact hsW)
      refine ⟨?_, e2, ?_⟩
      · have hv4 : SEquiv lt v (w ++ v.drop 4) := by
          have h := heW.append_left (v.drop 4)
          rw [List.take_append_drop] at h
          exact h
        exact hv4.trans e1
      · rw [e3]
        simp
        omega
    rw [if_neg hl8]
    by_cases hl16 : v.length < 16
    · rw [if_pos hl16]
      obtain ⟨w, hv, hw, hsW, heW⟩ := sort8A_spec' hs v (by omega)
      rw [hv]
      have htk : (w ++ v.drop 8).take 8 = w := List.take_left' hw
      obtain ⟨e1, e2, e3⟩ := insertion_sort_remainingA_spec hs
        (w ++ v.drop 8) 8 (by omega) (by rw [htk]; exact hsW)
      refine ⟨?_, e2, ?_⟩
      · have hv8 : SEquiv lt v (w ++ v.drop 8) := by
          have h := heW.append_left (v.drop 8)
          rw [List.take_append_drop] at h
          exact h
        exact hv8.trans e1
      · rw [e3]
        simp
        omega
    · rw [if_neg hl16]
      obtain ⟨w, hv, hw, hsW, heW⟩ := sort16A_spec' hs v (by omega)
      rw [hv]
      have htk : (w ++ v.drop 16).take 16 = w := List.take_left' hw
      obtain ⟨e1, e2, e3⟩ := insertion_sort_remainingA_spec hs
        (w ++ v.drop 16) 16 (by omega) (by rw [htk]; exact hsW)
      refine ⟨?_, e2, ?_⟩
      · have hv16 : SEquiv lt v (w ++ v.drop 16) := by
          have h := heW.append_left (v.drop 16)
          rw [List.take_append_drop] at h
          exact h
        exact hv16.trans e1
      · rw [e3]
        simp
        omega
  · rw [if_neg hc]
    exact insert_head_loopA_spec hs (v.length - 1) v (by omega)
      (sortedB_short (by simp; omega))

theorem sortedB_of_pairwise {lt : α → α → Bool} :
    ∀ {l : List α}, l.Pairwise (fun a b => lt b a = false) →
      sortedB lt l = true
  | [], _ => rfl
  | [_], _ => rfl
  | a :: b :: l, h => by
    have hba : lt b a = false := List.rel_of_pairwise_cons h (by simp)
    exact sortedB_cons_of hba (sortedB_of_pairwise h.of_cons)

theorem sortedB_reverse_of_descB {lt : α → α → Bool} (hs : SWO lt)
    {l : List α} (h : descB lt l = true) : sortedB lt l.reverse = true := by
  apply sortedB_of_pairwise
  rw [List.pairwise_reverse]
  have hp := descB_pairwise hs h
  exact hp.imp (fun hab => hs.asymm _ _ hab)

theorem slice_cons [Inhabited α] {v : List α} {a b : Nat} (hab : a < b)
    (hav : a < v.length) : slice v a b = gD v a :: slice v (a + 1) b := by
  unfold slice
  rw [drop_eq_gD_cons hav]
  have he : b - a = (b - (a + 1)) + 1 := by omega
  rw [he, List.take_succ_cons]

theorem sortedB_slice_of_pairs [Inhabited α] {lt : α → α → Bool}
    (v : List α) :
    ∀ (n a b : Nat), b - a ≤ n → b ≤ v.length →
      (∀ i, a ≤ i → i + 1 < b → lt (gD v (i + 1)) (gD v i) = false) →
      sortedB lt (slice v a b) = true := by
  intro n
  induction n with
  | zero =>
    intro a b hn hb _
    exact sortedB_short (by simp [slice]; omega)
  | succ n ih =>
    intro a b hn hb hp
    by_cases hab : a + 1 < b
    · have hav : a < v.length := by omega
      rw [slice_cons (by omega) hav, slice_cons hab (by omega)]
      refine sortedB_cons_of (hp a (Nat.le_refl _) hab) ?_
      rw [← slice_cons hab (by omega)]
      exact ih (a + 1) b (by omega) hb (fun i h1 h2 => hp i (by omega) h2)
    · exact sortedB_short (by simp [slice]; omega)

theorem descB_slice_of_pairs [Inhabited α] {lt : α → α → Bool} (v : List α) :
    ∀ (n a b : Nat), b - a ≤ n → b ≤ v.length →
      (∀ i, a ≤ i → i + 1 < b → lt (gD v (i + 1)) (gD v i) = true) →
      descB lt (slice v a b) = true := by
  intro n
  induction n with
  | zero =>
    intro a b hn hb _
    have : (slice v a b).length ≤ 1 := by simp [slice]; omega
    match hsl : slice v a b, this with
    | [], _ => rfl
    | [_], _ => rfl
  | succ n ih =>
    intro a b hn hb hp
    by_cases hab : a + 1 < b
    · have hav : a < v.length := by omega
      rw [slice_cons (by omega) hav, slice_cons hab (by omega)]
      have htail : descB lt (gD v (a + 1) :: slice v (a + 2) b) = true := by
        rw [← slice_cons hab (by omega)]
        exact ih (a + 1) b (by omega) hb (fun i h1 h2 => hp i (by omega) h2)
      rw [show descB lt (gD v a :: gD v (a + 1) :: slice v (a + 2) b)
          = (lt (gD v (a + 1)) (gD v a) && descB lt
            (gD v (a + 1) :: slice v (a + 2) b)) from rfl]
      rw [hp a (Nat.le_refl _) hab, htail]
      rfl
    · have : (slice v a b).length ≤ 1 := by
        simp [slice]
        omega
      match hsl : slice v a b, this with
      | [], _ => rfl
      | [_], _ => rfl

theorem descWhileA_pairs [Inhabited α] (lt : α → α → Bool) (v : List α) :
    ∀ s i, descWhileA lt v s ≤ i → i < s →
      lt (gD v (i + 1)) (gD v i) = true
  | 0, i => by intro h1 h2; omega
  | s + 1, i => by
    intro h1 h2
    unfold descWhileA at h1
    split at h1
    · next hc =>
      by_cases hi : i = s
      · subst hi
        exact hc
      · exact descWhileA_pairs lt v s i h1 (by omega)
    · omega

theorem ascendWhileA_pairs [Inhabited α] (lt : α → α → Bool) (v : List α) :
    ∀ s i, ascendWhileA lt v s ≤ i → i < s →
      lt (gD v (i + 1)) (gD v i) = false
  | 0, i => by intro h1 h2; omega
  | s + 1, i => by
    intro h1 h2
    unfold ascendWhileA at h1
    split at h1
    · next hc =>
      by_cases hi : i = s
      · subst hi
        simpa using hc
      · exact ascendWhileA_pairs lt v s i h1 (by omega)
    · omega

/-- find_run: locates a natural run ending at e, reversing it if strictly
descending; only the window [result, e) is touched and it ends up sorted. -/
theorem find_runA_spec [Inhabited α] {lt : α → α → Bool} (hs : SWO lt)
    (v : List α) (e : Nat) (he1 : 1 ≤ e) (he2 : e ≤ v.length) :
    ∃ s v', find_runA lt v e = (s, v') ∧ s < e ∧ v'.length = v.length ∧
      v'.take s = v.take s ∧ v'.drop e = v.drop e ∧
      sortedB lt (slice v' s e) = true ∧ SEquiv lt v v' := by
  simp only [find_runA]
  split
  · next hgt =>
    split
    · next hd =>
      -- strictly descending run: scan down then reverse the window
      have he2' : 2 ≤ e := by omega
      set sD := descWhileA lt v (e - 1 - 1) with hsD
      have hsDle : sD ≤ e - 1 - 1 := descWhileA_le lt v _
      have hdesc : descB lt (slice v sD e) = true := by
        refine descB_slice_of_pairs v (e - sD) sD e (Nat.le_refl _) he2 ?_
        intro i hi1 hi2
        by_cases hitop : i = e - 2
        · subst hitop
          have e1 : e - 2 + 1 = e - 1 - 1 + 1 := by omega
          have e2 : e - 2 = e - 1 - 1 := by omega
          rw [e1, e2]
          exact hd
        · exact descWhileA_pairs lt v (e - 1 - 1) i (by omega) (by omega)
      have hslen : (slice v sD e).length = e - sD :=
        slice_length (by omega) he2
      refine ⟨sD, reverseRange v sD e, rfl, by omega, ?_, ?_, ?_, ?_, ?_⟩
      · unfold reverseRange
        simp
        omega
      · unfold reverseRange
        rw [List.append_assoc]
        refine List.take_left' ?_
        simp
        omega
      · unfold reverseRange
        refine List.drop_left' ?_
        have : ((v.drop sD).take (e - sD)).length = e - sD := by
          simp
          omega
        simp only [List.length_append, this]
        simp
        omega
      · have hsl : slice (reverseRange v sD e) sD e = (slice v sD e).reverse := by
          unfold reverseRange slice
          rw [List.append_assoc]
          have h1 : (v.take sD).length = sD := by simp; omega
          rw [List.drop_left' h1]
          refine List.take_left' ?_
          simp
          omega
        rw [hsl]
        exact sortedB_reverse_of_descB hs hdesc
      · have h := (sequiv_reverse_desc hs hdesc).append_congr (v.take sD)
          (v.drop e)
        rw [← eq_take_slice_drop (by omega : sD ≤ e)] at h
        exact h
    · next hd =>
      -- non-descending: scan down, array unchanged
      set sA := ascendWhileA lt v (e - 1 - 1) with hsA
      have hsAle : sA ≤ e - 1 - 1 := ascendWhileA_le lt v _
      refine ⟨sA, v, rfl, by omega, rfl, rfl, rfl, ?_, SEquiv.refl lt v⟩
      refine sortedB_slice_of_pairs v (e - sA) sA e (Nat.le_refl _) he2 ?_
      intro i hi1 hi2
      by_cases hitop : i = e - 2
      · subst hitop
        have e1 : e - 2 + 1 = e - 1 - 1 + 1 := by omega
        have e2 : e - 2 = e - 1 - 1 := by omega
        rw [e1, e2]
        simpa using hd
      · exact ascendWhileA_pairs lt v (e - 1 - 1) i (by omega) (by omega)
  · next hgt =>
    -- e = 1: the run is the single element v[0]
    refine ⟨e - 1, v, rfl, by omega, rfl, rfl, rfl, ?_, SEquiv.refl lt v⟩
    exact sortedB_short (by rw [slice_length (by omega) he2]; omega)

theorem slice_drop_one {v : List α} {a b : Nat} :
    (slice v a b).drop 1 = slice v (a + 1) b := by
  unfold slice
  rw [List.drop_take, List.drop_drop]
  congr 1

theorem slice_take {v : List α} {a b k : Nat} (h : a + k ≤ b) :
    (slice v a b).take k = slice v a (a + k) := by
  unfold slice
  rw [List.take_take]
  congr 1
  omega

theorem drop_of_drop_eq {w v : List α} {a e : Nat} (hae : a ≤ e)
    (h : w.drop a = v.drop a) : w.drop e = v.drop e := by
  have h1 : (w.drop a).drop (e - a) = (v.drop a).drop (e - a) := by rw [h]
  rw [List.drop_drop, List.drop_drop] at h1
  have e1 : a + (e - a) = e := by omega
  rw [e1] at h1
  exact h1

theorem take_of_take_eq {w v : List α} {a i : Nat} (hia : i ≤ a)
    (h : w.take a = v.take a) : w.take i = v.take i := by
  have h1 : (w.take a).take i = (v.take a).take i := by rw [h]
  rw [List.take_take, List.take_take] at h1
  have e1 : min i a = i := by omega
  rw [e1] at h1
  exact h1

theorem pb_insert_loopA_succ (lt : α → α → Bool) (e start' n : Nat)
    (v : List α) :
    pb_insert_loopA lt e start' (n + 1) v
      = pb_insert_loopA lt e start' n
          (applyIn (start' + n) e (insert_headA lt) v) := rfl

/-- The insert_head loop of provide_sorted_batch grows the sorted window
leftwards one slot at a time. -/
theorem pb_insert_loopA_spec [Inhabited α] {lt : α → α → Bool} (hs : SWO lt)
    (e start' : Nat) :
    ∀ (n : Nat) (v : List α), start' + n ≤ e → e ≤ v.length →
      sortedB lt (slice v (start' + n) e) = true →
      (pb_insert_loopA lt e start' n v).length = v.length ∧
      (pb_insert_loopA lt e start' n v).take start' = v.take start' ∧
      (pb_insert_loopA lt e start' n v).drop e = v.drop e ∧
      sortedB lt (slice (pb_insert_loopA lt e start' n v) start' e) = true ∧
      SEquiv lt v (pb_insert_loopA lt e start' n v)
  | 0, v, hne, hev, hsv => by
    refine ⟨rfl, rfl, rfl, ?_, SEquiv.refl lt v⟩
    simpa using hsv
  | n + 1, v, hne, hev, hsv => by
    have hij : start' + n ≤ e := by omega
    have hdrop1 : sortedB lt ((slice v (start' + n) e).drop 1) = true := by
      rw [slice_drop_one]
      have e1 : start' + n + 1 = start' + (n + 1) := by omega
      rw [e1]
      exact hsv
    have hins := insert_headA_spec hs (slice v (start' + n) e) hdrop1
    have hlen : (insert_headA lt (slice v (start' + n) e)).length
        = (slice v (start' + n) e).length := hins.1.length_eq.symm
    have hw := sequiv_applyIn (f := insert_headA lt) hij hins.1
    have hwlen := applyIn_length hij hev hlen
    have hwslice := applyIn_slice hij hev hlen
    have hwtake := applyIn_take (f := insert_headA lt) (j := e)
      (show start' + n ≤ v.length by omega)
    have hwdrop := applyIn_drop hij hev hlen
    have hsw : sortedB lt (slice (applyIn (start' + n) e (insert_headA lt) v)
        (start' + n) e) = true := by
      rw [hwslice]
      exact hins.2
    obtain ⟨ih1, ih2, ih3, ih4, ih5⟩ := pb_insert_loopA_spec hs e start' n
      (applyIn (start' + n) e (insert_headA lt) v) hij
      (by rw [hwlen]; exact hev) hsw
    rw [pb_insert_loopA_succ]
    refine ⟨by rw [ih1, hwlen], ?_, by rw [ih3, hwdrop], ih4, hw.trans ih5⟩
    rw [ih2]
    exact take_of_take_eq (by omega) hwtake

/-- provide_sorted_batch: extends the sorted window [start, e) down to the
returned start; the result window is sorted, everything outside [result, e)
is untouched, and the run is either full (start 0) or at least 10 long. -/
theorem provide_sorted_batchA_spec [Inhabited α] {lt : α → α → Bool}
    (hs : SWO lt) (isCopy : Bool) (v : List α) (start e : Nat)
    (hse : start < e) (hev : e ≤ v.length)
    (hsorted : sortedB lt (slice v start e) = true) :
    ∃ s' v', provide_sorted_batchA lt isCopy v start e = (s', v') ∧
      s' ≤ start ∧ v'.length = v.length ∧ v'.take s' = v.take s' ∧
      v'.drop e = v.drop e ∧ sortedB lt (slice v' s' e) = true ∧
      SEquiv lt v v' ∧ (s' = 0 ∨ 10 ≤ e - s') := by
  simp only [provide_sorted_batchA]
  split
  · next hcond =>
    obtain ⟨hc, hdiff, h16⟩ := hcond
    have hi16 : start - 16 + 16 = start := by omega
    have hsl16 : (slice v (start - 16) start).length = 16 := by
      rw [slice_length (by omega) (by omega)]
      omega
    obtain ⟨w, hv16, hw16, hsW, heW⟩ := sort16A_spec' hs
      (slice v (start - 16) start) (by omega)
    have hf : sort16A lt (slice v (start - 16) start) = w := by
      rw [hv16, List.drop_eq_nil_of_le (by omega), List.append_nil]
    have hlen16 : (sort16A lt (slice v (start - 16) start)).length
        = (slice v (start - 16) start).length := by
      rw [hf, hw16, hsl16]
    have heW' : SEquiv lt (slice v (start - 16) start)
        (sort16A lt (slice v (start - 16) start)) := by
      rw [hf]
      have htk : (slice v (start - 16) start).take 16
          = slice v (start - 16) start := List.take_of_length_le (by omega)
      rw [← htk]
      exact heW
    have hv1 := sequiv_applyIn (f := sort16A lt)
      (show start - 16 ≤ start by omega) heW'
    have hv1len := applyIn_length (f := sort16A lt)
      (show start - 16 ≤ start by omega) (by omega) hlen16
    have hv1slice := applyIn_slice (f := sort16A lt)
      (show start - 16 ≤ start by omega) (by omega) hlen16
    have hv1take := applyIn_take (f := sort16A lt) (j := start)
      (show start - 16 ≤ v.length by omega)
    have hv1drop := applyIn_drop (f := sort16A lt)
      (show start - 16 ≤ start by omega) (by omega) hlen16
    set v1 := applyIn (start - 16) start (sort16A lt) v with hv1def
    have hv1dropE : v1.drop e = v.drop e :=
      drop_of_drop_eq (by omega) hv1drop
    -- the window [start-16, e) of v1 has its first 16 elements sorted
    have hsl1 : slice v1 (start - 16) start = w := by rw [hv1slice, hf]
    have htake16 : (slice v1 (start - 16) e).take 16
        = slice v1 (start - 16) start := by
      rw [slice_take (by omega)]
      rw [hi16]
    have hsorted16 : sortedB lt ((slice v1 (start - 16) e).take 16)
        = true := by
      rw [htake16, hsl1]
      exact hsW
    obtain ⟨hisr1, hisr2, hisr3⟩ := insertion_sort_remainingA_spec hs
      (slice v1 (start - 16) e) 16 (by omega) hsorted16
    have hlenIsr : ((fun w => insertion_sort_remainingA lt w 16)
        (slice v1 (start - 16) e)).length = (slice v1 (start - 16) e).length :=
      hisr3
    have hev1 : e ≤ v1.length := by rw [hv1len]; exact hev
    have hv2 := sequiv_applyIn (f := fun w => insertion_sort_remainingA lt w 16)
      (show start - 16 ≤ e by omega) hisr1
    have hv2len := applyIn_length (f := fun w => insertion_sort_remainingA lt w 16)
      (show start - 16 ≤ e by omega) hev1 hlenIsr
    have hv2slice := applyIn_slice (f := fun w => insertion_sort_remainingA lt w 16)
      (show start - 16 ≤ e by omega) hev1 hlenIsr
    have hv2take := applyIn_take (f := fun w => insertion_sort_remainingA lt w 16)
      (j := e) (show start - 16 ≤ v1.length by omega)
    have hv2drop := applyIn_drop (f := fun w => insertion_sort_remainingA lt w 16)
      (show start - 16 ≤ e by omega) hev1 hlenIsr
    refine ⟨start - 16, _, rfl, by omega, ?_, ?_, ?_, ?_, ?_, ?_⟩
    · rw [hv2len, hv1len]
    · rw [hv2take, hv1def]
      exact take_of_take_eq (Nat.le_refl _) hv1take
    · rw [hv2drop, hv1dropE]
    · rw [hv2slice]
      exact hisr2
    · exact hv1.trans hv2
    · right
      omega
  · split
    · next hcond2 =>
      have e1 : start - (10 - (e - start)) + (start - (start - (10 - (e - start))))
          = start := by omega
      obtain ⟨h1, h2, h3, h4, h5⟩ := pb_insert_loopA_spec hs e
        (start - (10 - (e - start))) (start - (start - (10 - (e - start)))) v
        (by omega) hev (by rw [e1]; exact hsorted)
      refine ⟨start - (10 - (e - start)), _, rfl, by omega, h1, h2, h3, h4,
        h5, ?_⟩
      omega
    · next hcond2 =>
      refine ⟨start, v, rfl, Nat.le_refl _, rfl, rfl, rfl, hsorted,
        SEquiv.refl lt v, ?_⟩
      right
      omega

theorem slice_drop {v : List α} {a b k : Nat} :
    (slice v a b).drop k = slice v (a + k) b := by
  unfold slice
  rw [List.drop_take, List.drop_drop]
  congr 1
  omega

/-- merge: on sorted halves both directions compute the forward stable
merge. -/
theorem mergeA_spec {lt : α → α → Bool} (hs : SWO lt) (w : List α)
    (mid : Nat) (hl : sortedB lt (w.take mid) = true)
    (hr : sortedB lt (w.drop mid) = true) :
    mergeA lt w mid = mergePure lt (w.take mid) (w.drop mid) := by
  unfold mergeA
  split
  · rfl
  · exact mergeBack_eq_mergePure hs hl hr

/-- The run stack describes adjacent segments tiling [e, total), oldest
first. -/
def covers : Nat → List Run → Nat → Prop
  | total, [], e => total = e
  | total, r :: rs, e => r.start + r.len = total ∧ covers r.start rs e

theorem covers_append_split : ∀ {A B : List Run} {t e : Nat},
    covers t (A ++ B) e → ∃ m, covers t A m ∧ covers m B e
  | [], B, t, e, h => ⟨t, rfl, h⟩
  | a :: A, B, t, e, h => by
    obtain ⟨h1, h2⟩ := h
    obtain ⟨m, hm1, hm2⟩ := covers_append_split h2
    exact ⟨m, ⟨h1, hm1⟩, hm2⟩

theorem covers_append_build : ∀ {A B : List Run} {t m e : Nat},
    covers t A m → covers m B e → covers t (A ++ B) e
  | [], B, t, m, e, h1, h2 => by
    have : t = m := h1
    subst this
    exact h2
  | a :: A, B, t, m, e, h1, h2 => by
    obtain ⟨h3, h4⟩ := h1
    exact ⟨h3, covers_append_build h4 h2⟩

theorem covers_le : ∀ {runs : List Run} {t e : Nat}, covers t runs e → e ≤ t
  | [], t, e, h => le_of_eq h.symm
  | a :: A, t, e, h => by
    obtain ⟨h1, h2⟩ := h
    have := covers_le h2
    omega

theorem covers_mem : ∀ {runs : List Run} {t e : Nat}, covers t runs e →
    ∀ rr ∈ runs, e ≤ rr.start ∧ rr.start + rr.len ≤ t
  | [], t, e, _, rr, hm => by simp at hm
  | a :: A, t, e, h, rr, hm => by
    obtain ⟨h1, h2⟩ := h
    rcases List.mem_cons.1 hm with hm | hm
    · subst hm
      exact ⟨covers_le h2, by omega⟩
    · have := covers_mem h2 rr hm
      have h3 := covers_le h2
      omega

theorem getD_append_skip {β : Type _} :
    ∀ (A B : List β) (k : Nat) (d : β),
      (A ++ B).getD (A.length + k) d = B.getD k d
  | [], B, k, d => by simp
  | a :: A, B, k, d => by
    show List.getD (a :: (A ++ B)) (A.length + 1 + k) d = B.getD k d
    rw [show A.length + 1 + k = (A.length + k) + 1 by omega]
    show (A ++ B).getD (A.length + k) d = B.getD k d
    exact getD_append_skip A B k d

theorem set_eraseIdx_last2 :
    ∀ (A : List Run) (x y m : Run),
      ((A ++ [x, y]).set A.length m).eraseIdx (A.length + 1) = A ++ [m]
  | [], x, y, m => rfl
  | a :: A, x, y, m => by
    show (a :: ((A ++ [x, y]).set A.length m)).eraseIdx (A.length + 1 + 1)
        = a :: (A ++ [m])
    rw [List.eraseIdx_cons_succ, set_eraseIdx_last2 A x y m]

theorem set_eraseIdx_last3 :
    ∀ (A : List Run) (x y z m : Run),
      ((A ++ [x, y, z]).set A.length m).eraseIdx (A.length + 1) = A ++ [m, z]
  | [], x, y, z, m => rfl
  | a :: A, x, y, z, m => by
    show (a :: ((A ++ [x, y, z]).set A.length m)).eraseIdx (A.length + 1 + 1)
        = a :: (A ++ [m, z])
    rw [List.eraseIdx_cons_succ, set_eraseIdx_last3 A x y z m]

theorem exists_append_two {β : Type _} (l : List β) (h : 2 ≤ l.length) :
    ∃ A x y, l = A ++ [x, y] ∧ A.length = l.length - 2 := by
  rcases hr : l.reverse with _ | ⟨y, t⟩
  · have hlen : l.length = 0 := by
      rw [← List.length_reverse l, hr]
      rfl
    omega
  rcases t with _ | ⟨x, Ar⟩
  · have hlen : l.length = 1 := by
      rw [← List.length_reverse l, hr]
      rfl
    omega
  have hlen : l.length = Ar.length + 2 := by
    rw [← List.length_reverse l, hr]
    simp
  refine ⟨Ar.reverse, x, y, ?_, ?_⟩
  · have h0 : l = l.reverse.reverse := by simp
    rw [h0, hr]
    simp
  · simp
    omega

theorem exists_append_three {β : Type _} (l : List β) (h : 3 ≤ l.length) :
    ∃ A x y z, l = A ++ [x, y, z] ∧ A.length = l.length - 3 := by
  rcases hr : l.reverse with _ | ⟨z, t⟩
  · have hlen : l.length = 0 := by
      rw [← List.length_reverse l, hr]
      rfl
    omega
  rcases t with _ | ⟨y, t2⟩
  · have hlen : l.length = 1 := by
      rw [← List.length_reverse l, hr]
      rfl
    omega
  rcases t2 with _ | ⟨x, Ar⟩
  · have hlen : l.length = 2 := by
      rw [← List.length_reverse l, hr]
      rfl
    omega
  have hlen : l.length = Ar.length + 3 := by
    rw [← List.length_reverse l, hr]
    simp
  refine ⟨Ar.reverse, x, y, z, ?_, ?_⟩
  · have h0 : l = l.reverse.reverse := by simp
    rw [h0, hr]
    simp
  · simp
    omega

theorem collapse_some_cases {runs : List Run} {r : Nat}
    (h : collapse runs = some r) :
    (2 ≤ runs.length ∧ r = runs.length - 2) ∨
      (3 ≤ runs.length ∧ r = runs.length - 3) := by
  simp only [collapse] at h
  split at h
  · next hc =>
    split at h
    · next hc3 =>
      simp at h
      exact Or.inr ⟨hc3.1, by omega⟩
    · next hc3 =>
      simp at h
      exact Or.inl ⟨hc.1, by omega⟩
  · simp at h

theorem slice_eq_of_drop_eq {w v : List α} {e a b : Nat} (hea : e ≤ a)
    (h : w.drop e = v.drop e) : slice w a b = slice v a b := by
  unfold slice
  rw [drop_of_drop_eq hea h]

theorem slice_eq_of_take_eq {w v : List α} {s a b : Nat} (hbs : b ≤ s)
    (h : w.take s = v.take s) : slice w a b = slice v a b := by
  have h1 : (w.take s).drop a = (v.take s).drop a := by rw [h]
  rw [List.drop_take, List.drop_take] at h1
  have h2 := congrArg (List.take (b - a)) h1
  rw [List.take_take, List.take_take] at h2
  have e1 : min (b - a) (s - a) = b - a := by omega
  rw [e1] at h2
  exact h2

theorem collapse_loopA_none {lt : α → α → Bool} {v : List α}
    {runs : List Run} (h : collapse runs = none) :
    collapse_loopA lt v runs = (v, runs) := by
  conv_lhs => rw [collapse_loopA.eq_def]
  split
  · rfl
  · next r heq => rw [h] at heq; exact absurd heq (by simp)

theorem collapse_loopA_step {lt : α → α → Bool} {v : List α}
    {runs : List Run} {r : Nat} (h : collapse runs = some r) :
    collapse_loopA lt v runs
      = collapse_loopA lt
          (applyIn (runs.getD (r + 1) ⟨0, 0⟩).start
            ((runs.getD r ⟨0, 0⟩).start + (runs.getD r ⟨0, 0⟩).len)
            (fun w => mergeA lt w (runs.getD (r + 1) ⟨0, 0⟩).len) v)
          ((runs.set r ⟨(runs.getD (r + 1) ⟨0, 0⟩).len
              + (runs.getD r ⟨0, 0⟩).len,
            (runs.getD (r + 1) ⟨0, 0⟩).start⟩).eraseIdx (r + 1)) := by
  conv_lhs => rw [collapse_loopA.eq_def]
  split
  · next heq => rw [h] at heq; exact absurd heq (by simp)
  · next r' heq =>
    rw [h] at heq
    have hrr : r = r' := by simpa using heq
    subst hrr
    rfl

/-- The collapse loop: merges adjacent runs until collapse demands none;
all invariants of the run stack are maintained, the array is a stable
rearrangement, and the start of the top run never changes. -/
theorem collapse_loopA_spec [Inhabited α] {lt : α → α → Bool} (hs : SWO lt) :
    ∀ (N : Nat) (v : List α) (runs : List Run) (e : Nat),
      runs.length ≤ N →
      covers v.length runs e →
      (∀ r ∈ runs, sortedB lt (slice v r.start (r.start + r.len)) = true) →
      (collapse_loopA lt v runs).1.length = v.length ∧
      covers v.length (collapse_loopA lt v runs).2 e ∧
      (∀ r ∈ (collapse_loopA lt v runs).2,
        sortedB lt (slice (collapse_loopA lt v runs).1 r.start
          (r.start + r.len)) = true) ∧
      SEquiv lt v (collapse_loopA lt v runs).1 ∧
      collapse (collapse_loopA lt v runs).2 = none ∧
      (∀ t, runs.getLast? = some t →
        ∃ t', (collapse_loopA lt v runs).2.getLast? = some t' ∧
          t'.start = t.start) := by
  intro N
  induction N with
  | zero =>
    intro v runs e hN hc hsorted
    have hnil : runs = [] := List.length_eq_zero.1 (by omega)
    subst hnil
    have hcol : collapse ([] : List Run) = none := by simp [collapse]
    rw [collapse_loopA_none hcol]
    exact ⟨rfl, hc, hsorted, SEquiv.refl lt v, hcol, by simp⟩
  | succ N ih =>
    intro v runs e hN hc hsorted
    rcases hcol : collapse runs with _ | r
    · rw [collapse_loopA_none hcol]
      exact ⟨rfl, hc, hsorted, SEquiv.refl lt v, hcol,
        fun t ht => ⟨t, ht, rfl⟩⟩
    rcases collapse_some_cases hcol with ⟨h2, hr⟩ | ⟨h3, hr⟩
    · -- merge the top two runs
      obtain ⟨A, x, y, hruns, hAlen⟩ := exists_append_two runs h2
      subst hruns
      have hlenr : (A ++ [x, y]).length = A.length + 2 := by simp
      have hrA : r = A.length := by omega
      subst hrA
      have hgetL : (A ++ [x, y]).getD (A.length + 1) ⟨0, 0⟩ = y := by
        have h0 := getD_append_skip A [x, y] 1 (⟨0, 0⟩ : Run)
        simpa using h0
      have hgetR' : (A ++ [x, y]).getD A.length ⟨0, 0⟩ = x := by
        have h0 := getD_append_skip A [x, y] 0 (⟨0, 0⟩ : Run)
        simpa using h0
      rw [collapse_loopA_step hcol, hgetL, hgetR', set_eraseIdx_last2]
      obtain ⟨m1, hcA, hcxy⟩ := covers_append_split hc
      obtain ⟨hx1, hy1, hy2⟩ := hcxy
      have hm1le : m1 ≤ v.length := covers_le hcA
      have hwin1 : y.start ≤ x.start + x.len := by omega
      have hwin2 : x.start + x.len ≤ v.length := by omega
      have hsx : sortedB lt (slice v x.start (x.start + x.len)) = true :=
        hsorted x (by simp)
      have hsy : sortedB lt (slice v y.start (y.start + y.len)) = true :=
        hsorted y (by simp)
      have hWtake : (slice v y.start (x.start + x.len)).take y.len
          = slice v y.start (y.start + y.len) := by
        rw [slice_take (by omega)]
      have hWdrop : (slice v y.start (x.start + x.len)).drop y.len
          = slice v x.start (x.start + x.len) := by
        rw [slice_drop, hy1]
      have hmerge : mergeA lt (slice v y.start (x.start + x.len)) y.len
          = mergePure lt ((slice v y.start (x.start + x.len)).take y.len)
            ((slice v y.start (x.start + x.len)).drop y.len) :=
        mergeA_spec hs _ y.len (by rw [hWtake]; exact hsy)
          (by rw [hWdrop]; exact hsx)
      have hmsorted : sortedB lt
          (mergeA lt (slice v y.start (x.start + x.len)) y.len) = true := by
        rw [hmerge]
        exact mergePure_sorted hs (by rw [hWtake]; exact hsy)
          (by rw [hWdrop]; exact hsx)
      have hmSE : SEquiv lt (slice v y.start (x.start + x.len))
          (mergeA lt (slice v y.start (x.start + x.len)) y.len) := by
        rw [hmerge]
        have h0 := sequiv_mergePure hs
          ((slice v y.start (x.start + x.len)).take y.len)
          ((slice v y.start (x.start + x.len)).drop y.len)
          (by rw [hWtake]; exact hsy)
        rw [List.take_append_drop] at h0
        exact h0
      have hmlen : (mergeA lt (slice v y.start (x.start + x.len)) y.len).length
          = (slice v y.start (x.start + x.len)).length := by
        rw [hmerge, mergePure_length]
        simp only [List.length_take, List.length_drop]
        omega
      have hV'len := applyIn_length (f := fun w => mergeA lt w y.len)
        hwin1 hwin2 hmlen
      have hV'slice := applyIn_slice (f := fun w => mergeA lt w y.len)
        hwin1 hwin2 hmlen
      have hV'take := applyIn_take (f := fun w => mergeA lt w y.len)
        (j := x.start + x.len) (show y.start ≤ v.length by omega)
      have hV'drop := applyIn_drop (f := fun w => mergeA lt w y.len)
        hwin1 hwin2 hmlen
      have hV'SE : SEquiv lt v
          (applyIn y.start (x.start + x.len)
            (fun w => mergeA lt w y.len) v) :=
        sequiv_applyIn hwin1 hmSE
      have hcov2 : covers (applyIn y.start (x.start + x.len)
            (fun w => mergeA lt w y.len) v).length
          (A ++ [⟨y.len + x.len, y.start⟩]) e := by
        rw [hV'len]
        refine covers_append_build hcA ?_
        show y.start + (y.len + x.len) = m1 ∧ covers y.start [] e
        exact ⟨by omega, hy2⟩
      have hseg2 : ∀ rr ∈ A ++ [⟨y.len + x.len, y.start⟩],
          sortedB lt (slice (applyIn y.start (x.start + x.len)
            (fun w => mergeA lt w y.len) v) rr.start (rr.start + rr.len))
            = true := by
        intro rr hm
        rcases List.mem_append.1 hm with hm | hm
        · have hb := covers_mem hcA rr hm
          have heq : slice (applyIn y.start (x.start + x.len)
              (fun w => mergeA lt w y.len) v) rr.start (rr.start + rr.len)
              = slice v rr.start (rr.start + rr.len) :=
            slice_eq_of_drop_eq (by omega) hV'drop
          rw [heq]
          exact hsorted rr (by simp [hm])
        · have hrr : rr = ⟨y.len + x.len, y.start⟩ := by simpa using hm
          subst hrr
          show sortedB lt (slice (applyIn y.start (x.start + x.len)
            (fun w => mergeA lt w y.len) v) y.start
            (y.start + (y.len + x.len))) = true
          have e2 : y.start + (y.len + x.len) = x.start + x.len := by omega
          rw [e2, hV'slice]
          exact hmsorted
      have hlen2 : (A ++ [(⟨y.len + x.len, y.start⟩ : Run)]).length ≤ N := by
        simp at hN ⊢
        omega
      obtain ⟨c1, c2, c3, c4, c5, c6⟩ := ih
        (applyIn y.start (x.start + x.len) (fun w => mergeA lt w y.len) v)
        (A ++ [⟨y.len + x.len, y.start⟩]) e hlen2 hcov2 hseg2
      refine ⟨by rw [c1, hV'len], by rw [hV'len] at c2; exact c2, c3,
        hV'SE.trans c4, c5, ?_⟩
      intro t ht
      have hty : t = y := by
        rw [show A ++ [x, y] = (A ++ [x]) ++ [y] by simp,
          List.getLast?_concat] at ht
        simpa using ht.symm
      subst hty
      have hlast2 : (A ++ [(⟨t.len + x.len, t.start⟩ : Run)]).getLast?
          = some (⟨t.len + x.len, t.start⟩ : Run) := List.getLast?_concat _
      obtain ⟨t', ht1', ht2'⟩ := c6 (⟨t.len + x.len, t.start⟩ : Run) hlast2
      exact ⟨t', ht1', ht2'⟩
    · -- merge the second and third runs from the top
      obtain ⟨A, x, y, z, hruns, hAlen⟩ := exists_append_three runs h3
      subst hruns
      have hlenr : (A ++ [x, y, z]).length = A.length + 3 := by simp
      have hrA : r = A.length := by omega
      subst hrA
      have hgetL : (A ++ [x, y, z]).getD (A.length + 1) ⟨0, 0⟩ = y := by
        have h0 := getD_append_skip A [x, y, z] 1 (⟨0, 0⟩ : Run)
        simpa using h0
      have hgetR' : (A ++ [x, y, z]).getD A.length ⟨0, 0⟩ = x := by
        have h0 := getD_append_skip A [x, y, z] 0 (⟨0, 0⟩ : Run)
        simpa using h0
      rw [collapse_loopA_step hcol, hgetL, hgetR', set_eraseIdx_last3]
      obtain ⟨m1, hcA, hcxyz⟩ := covers_append_split hc
      obtain ⟨hx1, hy1, hz1, hz2⟩ := hcxyz
      have hm1le : m1 ≤ v.length := covers_le hcA
      have hwin1 : y.start ≤ x.start + x.len := by omega
      have hwin2 : x.start + x.len ≤ v.length := by omega
      have hsx : sortedB lt (slice v x.start (x.start + x.len)) = true :=
        hsorted x (by simp)
      have hsy : sortedB lt (slice v y.start (y.start + y.len)) = true :=
        hsorted y (by simp)
      have hWtake : (slice v y.start (x.start + x.len)).take y.len
          = slice v y.start (y.start + y.len) := by
        rw [slice_take (by omega)]
      have hWdrop : (slice v y.start (x.start + x.len)).drop y.len
          = slice v x.start (x.start + x.len) := by
        rw [slice_drop, hy1]
      have hmerge : mergeA lt (slice v y.start (x.start + x.len)) y.len
          = mergePure lt ((slice v y.start (x.start + x.len)).take y.len)
            ((slice v y.start (x.start + x.len)).drop y.len) :=
        mergeA_spec hs _ y.len (by rw [hWtake]; exact hsy)
          (by rw [hWdrop]; exact hsx)
      have hmsorted : sortedB lt
          (mergeA lt (slice v y.start (x.start + x.len)) y.len) = true := by
        rw [hmerge]
        exact mergePure_sorted hs (by rw [hWtake]; exact hsy)
          (by rw [hWdrop]; exact hsx)
      have hmSE : SEquiv lt (slice v y.start (x.start + x.len))
          (mergeA lt (slice v y.start (x.start + x.len)) y.len) := by
        rw [hmerge]
        have h0 := sequiv_mergePure hs
          ((slice v y.start (x.start + x.len)).take y.len)
          ((slice v y.start (x.start + x.len)).drop y.len)
          (by rw [hWtake]; exact hsy)
        rw [List.take_append_drop] at h0
        exact h0
      have hmlen : (mergeA lt (slice v y.start (x.start + x.len)) y.len).length
          = (slice v y.start (x.start + x.len)).length := by
        rw [hmerge, mergePure_length]
        simp only [List.length_take, List.length_drop]
        omega
      have hV'len := applyIn_length (f := fun w => mergeA lt w y.len)
        hwin1 hwin2 hmlen
      have hV'slice := applyIn_slice (f := fun w => mergeA lt w y.len)
        hwin1 hwin2 hmlen
      have hV'take := applyIn_take (f := fun w => mergeA lt w y.len)
        (j := x.start + x.len) (show y.start ≤ v.length by omega)
      have hV'drop := applyIn_drop (f := fun w => mergeA lt w y.len)
        hwin1 hwin2 hmlen
      have hV'SE : SEquiv lt v
          (applyIn y.start (x.start + x.len)
            (fun w => mergeA lt w y.len) v) :=
        sequiv_applyIn hwin1 hmSE
      have hcov2 : covers (applyIn y.start (x.start + x.len)
            (fun w => mergeA lt w y.len) v).length
          (A ++ [⟨y.len + x.len, y.start⟩, z]) e := by
        rw [hV'len]
        refine covers_append_build hcA ?_
        show y.start + (y.len + x.len) = m1
          ∧ (z.start + z.len = y.start ∧ covers z.start [] e)
        exact ⟨by omega, hz1, hz2⟩
      have hseg2 : ∀ rr ∈ A ++ [⟨y.len + x.len, y.start⟩, z],
          sortedB lt (slice (applyIn y.start (x.start + x.len)
            (fun w => mergeA lt w y.len) v) rr.start (rr.start + rr.len))
            = true := by
        intro rr hm
        rcases List.mem_append.1 hm with hm | hm
        · have hb := covers_mem hcA rr hm
          have heq : slice (applyIn y.start (x.start + x.len)
              (fun w => mergeA lt w y.len) v) rr.start (rr.start + rr.len)
              = slice v rr.start (rr.start + rr.len) :=
            slice_eq_of_drop_eq (by omega) hV'drop
          rw [heq]
          exact hsorted rr (by simp [hm])
        · rcases List.mem_cons.1 hm with hm | hm
          · subst hm
            show sortedB lt (slice (applyIn y.start (x.start + x.len)
              (fun w => mergeA lt w y.len) v) y.start
              (y.start + (y.len + x.len))) = true
            have e2 : y.start + (y.len + x.len) = x.start + x.len := by omega
            rw [e2, hV'slice]
            exact hmsorted
          · have hrr : rr = z := by simpa using hm
            subst hrr
            have heq : slice (applyIn y.start (x.start + x.len)
                (fun w => mergeA lt w y.len) v) rr.start (rr.start + rr.len)
                = slice v rr.start (rr.start + rr.len) :=
              slice_eq_of_take_eq (by omega) hV'take
            rw [heq]
            exact hsorted rr (by simp)
      have hlen2 : (A ++ [(⟨y.len + x.len, y.start⟩ : Run), z]).length ≤ N := by
        simp at hN ⊢
        omega
      obtain ⟨c1, c2, c3, c4, c5, c6⟩ := ih
        (applyIn y.start (x.start + x.len) (fun w => mergeA lt w y.len) v)
        (A ++ [⟨y.len + x.len, y.start⟩, z]) e hlen2 hcov2 hseg2
      refine ⟨by rw [c1, hV'len], by rw [hV'len] at c2; exact c2, c3,
        hV'SE.trans c4, c5, ?_⟩
      intro t ht
      have hty : t = z := by
        rw [show A ++ [x, y, z] = (A ++ [x, y]) ++ [z] by simp,
          List.getLast?_concat] at ht
        simpa using ht.symm
      subst hty
      have hlast3 : (A ++ [⟨y.len + x.len, y.start⟩, t]).getLast?
          = some t := by
        rw [show A ++ [⟨y.len + x.len, y.start⟩, t]
            = (A ++ [⟨y.len + x.len, y.start⟩]) ++ [t] by simp]
        exact List.getLast?_concat _
      obtain ⟨t', ht1', ht2'⟩ := c6 t hlast3
      exact ⟨t', ht1', ht2'⟩

theorem getD_getLast :
    ∀ (l : List Run) (t d : Run), l.getLast? = some t →
      l.getD (l.length - 1) d = t
  | [], t, d, h => by simp at h
  | [a], t, d, h => by
    have ha : a = t := by simpa using h
    simpa using ha
  | a :: b :: l, t, d, h => by
    have h' : (b :: l).getLast? = some t := by simpa using h
    have ih := getD_getLast (b :: l) t d h'
    show List.getD (a :: b :: l) ((b :: l).length + 1 - 1) d = t
    rw [show (b :: l).length + 1 - 1 = ((b :: l).length - 1) + 1 by simp]
    show List.getD (b :: l) ((b :: l).length - 1) d = t
    exact ih

/-- A fully collapsed stack whose top run starts at 0 has a single run: the
top-starts-at-0 clause of collapse demands merges until then. -/
theorem collapse_none_start_zero {runs : List Run} {t : Run}
    (hnone : collapse runs = none) (hlast : runs.getLast? = some t)
    (h0 : t.start = 0) : runs.length ≤ 1 := by
  by_contra hlen
  have hlen2 : 2 ≤ runs.length := by omega
  have hget : runs.getD (runs.length - 1) ⟨0, 0⟩ = t :=
    getD_getLast runs t _ hlast
  simp only [collapse] at hnone
  rw [if_pos ⟨hlen2, Or.inl (by rw [hget]; exact h0)⟩] at hnone
  split at hnone <;> simp at hnone

theorem merge_sort_loopA_zero [Inhabited α] (lt : α → α → Bool)
    (isCopy : Bool) (v : List α) (runs : List Run) :
    merge_sort_loopA lt isCopy v runs 0 = v := by
  rw [merge_sort_loopA.eq_def]
  simp

theorem merge_sort_loopA_pos [Inhabited α] (lt : α → α → Bool)
    (isCopy : Bool) (v : List α) (runs : List Run) (e : Nat) (he : e > 0) :
    merge_sort_loopA lt isCopy v runs e
      = merge_sort_loopA lt isCopy
          (collapse_loopA lt
            (provide_sorted_batchA lt isCopy (find_runA lt v e).2
              (find_runA lt v e).1 e).2
            (runs ++ [⟨e - (provide_sorted_batchA lt isCopy (find_runA lt v e).2
                (find_runA lt v e).1 e).1,
              (provide_sorted_batchA lt isCopy (find_runA lt v e).2
                (find_runA lt v e).1 e).1⟩])).1
          (collapse_loopA lt
            (provide_sorted_batchA lt isCopy (find_runA lt v e).2
              (find_runA lt v e).1 e).2
            (runs ++ [⟨e - (provide_sorted_batchA lt isCopy (find_runA lt v e).2
                (find_runA lt v e).1 e).1,
              (provide_sorted_batchA lt isCopy (find_runA lt v e).2
                (find_runA lt v e).1 e).1⟩])).2
          (provide_sorted_batchA lt isCopy (find_runA lt v e).2
            (find_runA lt v e).1 e).1 := by
  rw [merge_sort_loopA.eq_def, dif_pos he]

/-- The outer run loop of merge_sort: from any invariant-satisfying state it
returns a sorted stable rearrangement of the array. -/
theorem merge_sort_loopA_spec [Inhabited α] {lt : α → α → Bool} (hs : SWO lt)
    (isCopy : Bool) :
    ∀ (e : Nat) (v : List α) (runs : List Run),
      e ≤ v.length →
      covers v.length runs e →
      (∀ r ∈ runs, sortedB lt (slice v r.start (r.start + r.len)) = true) →
      (e = 0 → runs.length ≤ 1) →
      SEquiv lt v (merge_sort_loopA lt isCopy v runs e) ∧
      sortedB lt (merge_sort_loopA lt isCopy v runs e) = true ∧
      (merge_sort_loopA lt isCopy v runs e).length = v.length := by
  intro e
  induction e using Nat.strong_induction_on with
  | _ e ih =>
    intro v runs he hcov hseg hone
    by_cases he0 : e > 0
    · obtain ⟨s1, v1, hfr, hs1e, hv1len, hv1take, hv1drop, hv1sorted, hv1SE⟩ :=
        find_runA_spec hs v e (by omega) he
      obtain ⟨s2, v2, hps, hs2s1, hv2len, hv2take, hv2drop, hv2sorted, hv2SE,
          hs2run⟩ :=
        provide_sorted_batchA_spec hs isCopy v1 s1 e hs1e
          (by rw [hv1len]; exact he) hv1sorted
      have hstep := merge_sort_loopA_pos lt isCopy v runs e he0
      rw [hfr] at hstep
      dsimp only at hstep
      rw [hps] at hstep
      dsimp only at hstep
      -- invariants for the collapse call
      have hv2lenv : v2.length = v.length := by rw [hv2len, hv1len]
      have hv2dropE : v2.drop e = v.drop e := by rw [hv2drop, hv1drop]
      have hcov1 : covers v2.length (runs ++ [(⟨e - s2, s2⟩ : Run)]) s2 := by
        rw [hv2lenv]
        refine covers_append_build hcov ?_
        show s2 + (e - s2) = e ∧ covers s2 [] s2
        exact ⟨by omega, rfl⟩
      have hseg1 : ∀ r ∈ runs ++ [(⟨e - s2, s2⟩ : Run)],
          sortedB lt (slice v2 r.start (r.start + r.len)) = true := by
        intro r hm
        rcases List.mem_append.1 hm with hm | hm
        · have hb := covers_mem hcov r hm
          have heq : slice v2 r.start (r.start + r.len)
              = slice v r.start (r.start + r.len) :=
            slice_eq_of_drop_eq (by omega) hv2dropE
          rw [heq]
          exact hseg r hm
        · have hr : r = ⟨e - s2, s2⟩ := by simpa using hm
          subst hr
          show sortedB lt (slice v2 s2 (s2 + (e - s2))) = true
          rw [show s2 + (e - s2) = e by omega]
          exact hv2sorted
      obtain ⟨c1, c2, c3, c4, c5, c6⟩ := collapse_loopA_spec hs
        (runs ++ [(⟨e - s2, s2⟩ : Run)]).length v2 (runs ++ [(⟨e - s2, s2⟩ : Run)]) s2
        (Nat.le_refl _) hcov1 hseg1
      -- invariants for the recursive call
      have hone' : s2 = 0 → (collapse_loopA lt v2
          (runs ++ [(⟨e - s2, s2⟩ : Run)])).2.length ≤ 1 := by
        intro hz
        subst hz
        obtain ⟨t', ht1', ht2'⟩ := c6 (⟨e - 0, 0⟩ : Run) (List.getLast?_concat _)
        exact collapse_none_start_zero c5 ht1' ht2'
      obtain ⟨d1, d2, d3⟩ := ih s2 (by omega)
        (collapse_loopA lt v2 (runs ++ [(⟨e - s2, s2⟩ : Run)])).1
        (collapse_loopA lt v2 (runs ++ [(⟨e - s2, s2⟩ : Run)])).2
        (by rw [c1, hv2lenv]; omega)
        (by rw [c1]; exact c2) c3 hone'
      rw [hstep]
      refine ⟨(hv1SE.trans hv2SE).trans (c4.trans d1), d2, ?_⟩
      rw [d3, c1, hv2lenv]
    · have he0' : e = 0 := by omega
      subst he0'
      rw [merge_sort_loopA_zero]
      have hrl := hone rfl
      refine ⟨SEquiv.refl lt v, ?_, rfl⟩
      match runs, hrl, hcov, hseg with
      | [], _, hcov, _ =>
        have : v.length = 0 := hcov
        exact sortedB_short (by omega)
      | [r], _, hcov, hseg =>
        obtain ⟨hc1, hc2⟩ := hcov
        have hc2' : r.start = 0 := hc2
        have hsr := hseg r (by simp)
        rw [hc2', Nat.zero_add] at hc1 hsr
        rw [hc1, slice_zero_length] at hsr
        exact hsr

theorem pairwise_of_total {R : β → β → Prop} (h : ∀ a b, R a b) :
    ∀ l : List β, l.Pairwise R
  | [] => .nil
  | a :: l => .cons (fun b _ => h a b) (pairwise_of_total h l)

/-- merge_sort: sorted stable rearrangement for any state of the dispatch. -/
theorem merge_sortA_spec [Inhabited α] {lt : α → α → Bool} (hs : SWO lt)
    (isZst isCopy : Bool) (v : List α)
    (hZ : isZst = true → ∀ a b : α, a = b) :
    SEquiv lt v (merge_sortA lt isZst isCopy v) ∧
      sortedB lt (merge_sortA lt isZst isCopy v) = true ∧
      (merge_sortA lt isZst isCopy v).length = v.length := by
  unfold merge_sortA
  by_cases hz : isZst = true
  · rw [if_pos hz]
    refine ⟨SEquiv.refl lt v, ?_, rfl⟩
    refine sortedB_of_pairwise (pairwise_of_total ?_ v)
    intro a b
    have hba : b = a := hZ hz b a
    rw [hba]
    exact hs.irrefl a
  · rw [if_neg hz]
    by_cases hsm : v.length ≤ 20
    · rw [if_pos hsm]
      exact sort_smallA_spec hs isCopy v
    · rw [if_neg hsm]
      exact merge_sort_loopA_spec hs isCopy v.length v [] (Nat.le_refl _) rfl
        (by simp) (fun _ => by simp)

/-- stable_sort: sorted stable rearrangement. -/
theorem stable_sortA_spec [Inhabited α] {lt : α → α → Bool} (hs : SWO lt)
    (isZst isCopy : Bool) (v : List α)
    (hZ : isZst = true → ∀ a b : α, a = b) :
    SEquiv lt v (stable_sortA lt isZst isCopy v) ∧
      sortedB lt (stable_sortA lt isZst isCopy v) = true ∧
      (stable_sortA lt isZst isCopy v).length = v.length := by
  unfold stable_sortA
  by_cases hz : isZst = true
  · rw [if_pos hz]
    refine ⟨SEquiv.refl lt v, ?_, rfl⟩
    refine sortedB_of_pairwise (pairwise_of_total ?_ v)
    intro a b
    have hba : b = a := hZ hz b a
    rw [hba]
    exact hs.irrefl a
  · rw [if_neg hz]
    exact merge_sortA_spec hs isZst isCopy v hZ

/-- The output of stable_sort equals the reference stable sort. -/
theorem stable_sortA_eq_refSort [Inhabited α] {lt : α → α → Bool}
    (hs : SWO lt) (isZst isCopy : Bool) (v : List α)
    (hZ : isZst = true → ∀ a b : α, a = b) :
    stable_sortA lt isZst isCopy v = refSort lt v := by
  obtain ⟨hSE, hsort, _⟩ := stable_sortA_spec hs isZst isCopy v hZ
  have h2 : refSort lt (stable_sortA lt isZst isCopy v)
      = stable_sortA lt isZst isCopy v := refSort_of_sorted hs hsort
  have h1 : refSort lt v = refSort lt (stable_sortA lt isZst isCopy v) :=
    hSE []
  rw [← h2, ← h1]

theorem insertR_decomp {lt : α → α → Bool} (x : α) :
    ∀ (A : List α), ∃ A1 A2, A = A1 ++ A2 ∧
      insertR lt x A = A1 ++ x :: A2 ∧
      (∀ y ∈ A1, lt x y = false) ∧
      (∀ z, A2.head? = some z → lt x z = true)
  | [] => ⟨[], [], rfl, rfl, by simp, by simp⟩
  | y :: ys => by
    unfold insertR
    split
    · next hxy =>
      refine ⟨[], y :: ys, rfl, rfl, by simp, ?_⟩
      intro z hz
      have hzy : z = y := by simpa using hz.symm
      subst hzy
      exact hxy
    · next hxy =>
      obtain ⟨A1, A2, h1, h2, h3, h4⟩ := insertR_decomp x ys
      refine ⟨y :: A1, A2, by rw [h1]; simp, by rw [h2]; simp, ?_, h4⟩
      intro z hz
      rcases List.mem_cons.1 hz with hz | hz
      · subst hz
        simpa using hxy
      · exact h3 z hz

theorem insertR_pairwise_stable {lt : Nat × β → Nat × β → Bool} (hs : SWO lt)
    {x : Nat × β} {A : List (Nat × β)}
    (hP : A.Pairwise (fun p q => lt p q = false → lt q p = false →
      p.1 < q.1))
    (hsort : sortedB lt A = true) (htag : ∀ p ∈ A, p.1 < x.1) :
    (insertR lt x A).Pairwise (fun p q => lt p q = false → lt q p = false →
      p.1 < q.1) := by
  obtain ⟨A1, A2, h1, h2, h3, h4⟩ := insertR_decomp x A
  rw [h2]
  subst h1
  rw [List.pairwise_append] at hP
  obtain ⟨hP1, hP2, hP12⟩ := hP
  have hpair := sortedB_pairwise hs hsort
  have hA2nlt := (List.pairwise_append.1 hpair).2.1
  have hxA2 : ∀ z ∈ A2, lt x z = true := by
    intro z hz
    cases A2 with
    | nil => simp at hz
    | cons z0 rest =>
      have hxz0 : lt x z0 = true := h4 z0 rfl
      rcases List.mem_cons.1 hz with hz | hz
      · subst hz
        exact hxz0
      · have hzz0 : lt z z0 = false :=
          List.rel_of_pairwise_cons hA2nlt hz
        exact hs.lt_of_lt_of_nlt hxz0 hzz0
  rw [List.pairwise_append]
  refine ⟨hP1, ?_, ?_⟩
  · refine List.Pairwise.cons ?_ hP2
    intro z hz h5 h6
    exact absurd (hxA2 z hz) (by simp [h5])
  · intro a ha b hb
    rcases List.mem_cons.1 hb with hb | hb
    · subst hb
      intro _ _
      exact htag a (by simp [ha])
    · exact hP12 a ha b hb

theorem foldIns_stable {lt : Nat × β → Nat × β → Bool} (hs : SWO lt) :
    ∀ (l acc : List (Nat × β)),
      acc.Pairwise (fun p q => lt p q = false → lt q p = false →
        p.1 < q.1) →
      sortedB lt acc = true →
      (∀ p ∈ acc, ∀ q ∈ l, p.1 < q.1) →
      l.Pairwise (fun p q : Nat × β => p.1 < q.1) →
      (foldIns lt acc l).Pairwise (fun p q => lt p q = false →
        lt q p = false → p.1 < q.1)
  | [], acc, hP, _, _, _ => hP
  | x :: xs, acc, hP, hsort, hcross, hl => by
    show (foldIns lt (insertR lt x acc) xs).Pairwise _
    refine foldIns_stable hs xs (insertR lt x acc) ?_
      (insertR_sorted hs x hsort) ?_ hl.of_cons
    · exact insertR_pairwise_stable hs hP hsort
        (fun p hp => hcross p hp x (by simp))
    · intro p hp q hq
      have hp' := (insertR_perm lt x acc).mem_iff.1 hp
      rcases List.mem_cons.1 hp' with hp' | hp'
      · subst hp'
        exact List.rel_of_pairwise_cons hl hq
      · exact hcross p hp' q (by simp [hq])

/-- The reference sort is stable: elements tied under the comparator keep
increasing tags. -/
theorem refSort_pairwise_stable {lt : Nat × β → Nat × β → Bool} (hs : SWO lt)
    (l : List (Nat × β))
    (hl : l.Pairwise (fun p q : Nat × β => p.1 < q.1)) :
    (refSort lt l).Pairwise (fun p q => lt p q = false → lt q p = false →
      p.1 < q.1) :=
  foldIns_stable hs l [] .nil rfl (by simp) hl

theorem mem_enumFrom_fst_le :
    ∀ (n : Nat) (l : List β) (q : Nat × β), q ∈ List.enumFrom n l → n ≤ q.1
  | n, [], q, h => by simp at h
  | n, a :: l, q, h => by
    have h' : q ∈ (n, a) :: List.enumFrom (n + 1) l := h
    rcases List.mem_cons.1 h' with h' | h'
    · subst h'
      exact Nat.le_refl n
    · have := mem_enumFrom_fst_le (n + 1) l q h'
      omega

theorem enumFrom_pairwise :
    ∀ (n : Nat) (l : List β),
      (List.enumFrom n l).Pairwise (fun p q : Nat × β => p.1 < q.1)
  | _, [] => .nil
  | n, a :: l => by
    show ((n, a) :: List.enumFrom (n + 1) l).Pairwise _
    refine List.Pairwise.cons ?_ (enumFrom_pairwise (n + 1) l)
    intro q hq
    have := mem_enumFrom_fst_le (n + 1) l q hq
    show n < q.1
    omega

theorem enum_pairwise (l : List β) :
    l.enum.Pairwise (fun p q : Nat × β => p.1 < q.1) :=
  enumFrom_pairwise 0 l

theorem swo_lt_decide {γ : Type _} [LinearOrder γ] :
    SWO (fun a b : γ => decide (a < b)) := by
  refine ⟨?_, ?_⟩
  · intro a b h
    simp only [decide_eq_true_eq] at h
    simp only [decide_eq_false_iff_not]
    exact lt_asymm h
  · intro a b c h
    simp only [decide_eq_true_eq] at h
    rcases lt_or_le a b with h1 | h1
    · exact Or.inl (by simpa using h1)
    · exact Or.inr (by simpa using lt_of_le_of_lt h1 h)

/-- C1: for every finite sequence and every comparator implementing a
strict total order, sort and sort_by leave the sequence equal to the
reference-sorted permutation of the input: a permutation of the original
contents that is non-decreasing per that order, for every length
including 0 and 1. -/
theorem claim_C1_sort_matches_reference {γ : Type _} [Inhabited γ]
    [LinearOrder γ] {α : Type _} [Inhabited α]
    (isZst isCopy : Bool) (v : List γ)
    (hZ : isZst = true → ∀ a b : γ, a = b)
    (compare : α → α → Ordering) (isZst2 isCopy2 : Bool) (w : List α)
    (hsw : SWO (fun a b => compare a b == Ordering.lt))
    (hZ2 : isZst2 = true → ∀ a b : α, a = b) :
    (sortA isZst isCopy v = refSort (fun a b : γ => decide (a < b)) v
      ∧ (sortA isZst isCopy v).Perm v
      ∧ sortedB (fun a b : γ => decide (a < b)) (sortA isZst isCopy v) = true)
    ∧ (sort_byA compare isZst2 isCopy2 w
        = refSort (fun a b => compare a b == Ordering.lt) w
      ∧ (sort_byA compare isZst2 isCopy2 w).Perm w
      ∧ sortedB (fun a b => compare a b == Ordering.lt)
          (sort_byA compare isZst2 isCopy2 w) = true) := by
  have h1 : sortA isZst isCopy v
      = refSort (fun a b : γ => decide (a < b)) v :=
    stable_sortA_eq_refSort swo_lt_decide isZst isCopy v hZ
  have h2 : sort_byA compare isZst2 isCopy2 w
      = refSort (fun a b => compare a b == Ordering.lt) w :=
    stable_sortA_eq_refSort hsw isZst2 isCopy2 w hZ2
  refine ⟨⟨h1, ?_, ?_⟩, h2, ?_, ?_⟩
  · rw [h1]
    exact refSort_perm _ v
  · rw [h1]
    exact refSort_sorted swo_lt_decide v
  · rw [h2]
    exact refSort_perm _ w
  · rw [h2]
    exact refSort_sorted hsw w

theorem claim_C1_witness :
    SWO (fun a b : Bool =>
      (if a == b then Ordering.eq else
        if a == false then Ordering.lt else Ordering.gt) == Ordering.lt) ∧
    ((sortA false false [2, 1, 0]
        = refSort (fun a b : Nat => decide (a < b)) [2, 1, 0]
      ∧ (sortA false false [2, 1, 0]).Perm [2, 1, 0]
      ∧ sortedB (fun a b : Nat => decide (a < b))
          (sortA false false [2, 1, 0]) = true)
    ∧ (sort_byA (fun a b : Bool =>
          if a == b then Ordering.eq else
            if a == false then Ordering.lt else Ordering.gt)
          false true [true, false, true]
        = refSort (fun a b : Bool =>
            (if a == b then Ordering.eq else
              if a == false then Ordering.lt else Ordering.gt)
              == Ordering.lt) [true, false, true]
      ∧ (sort_byA (fun a b : Bool =>
          if a == b then Ordering.eq else
            if a == false then Ordering.lt else Ordering.gt)
          false true [true, false, true]).Perm [true, false, true]
      ∧ sortedB (fun a b : Bool =>
            (if a == b then Ordering.eq else
              if a == false then Ordering.lt else Ordering.gt)
              == Ordering.lt)
          (sort_byA (fun a b : Bool =>
            if a == b then Ordering.eq else
              if a == false then Ordering.lt else Ordering.gt)
            false true [true, false, true]) = true)) :=
  ⟨⟨by decide, by decide⟩,
    claim_C1_sort_matches_reference false false [2, 1, 0]
      (fun h => absurd h (by simp))
      (fun a b : Bool =>
        if a == b then Ordering.eq else
          if a == false then Ordering.lt else Ordering.gt)
      false true [true, false, true] ⟨by decide, by decide⟩
      (fun h => absurd h (by simp))⟩

/-- C2: for every correctly-behaving comparator, sort_by is stable: on an
index-tagged input, any two elements the comparator deems equal appear in
the output with their original (increasing) tag order, on every path
(both merge directions and the branchless networks run for isCopy = true,
the guarded insertion path for isCopy = false). -/
theorem claim_C2_sort_by_stable {α : Type _} [Inhabited α]
    (compare : α → α → Ordering) (isCopy : Bool) (w : List α)
    (hsw : SWO (fun a b => compare a b == Ordering.lt)) :
    (sort_byA (fun p q : Nat × α => compare p.2 q.2) false isCopy
        w.enum).Perm w.enum ∧
    sortedB (fun p q : Nat × α => compare p.2 q.2 == Ordering.lt)
      (sort_byA (fun p q : Nat × α => compare p.2 q.2) false isCopy
        w.enum) = true ∧
    (sort_byA (fun p q : Nat × α => compare p.2 q.2) false isCopy
        w.enum).Pairwise
      (fun p q => (compare p.2 q.2 == Ordering.lt) = false →
        (compare q.2 p.2 == Ordering.lt) = false → p.1 < q.1) := by
  have hsP : SWO (fun p q : Nat × α => compare p.2 q.2 == Ordering.lt) :=
    ⟨fun a b h => hsw.asymm _ _ h, fun a b c h => hsw.wtrans _ _ _ h⟩
  have h0 : sort_byA (fun p q : Nat × α => compare p.2 q.2) false isCopy
      w.enum = refSort (fun p q : Nat × α => compare p.2 q.2 == Ordering.lt)
        w.enum :=
    stable_sortA_eq_refSort hsP false isCopy w.enum
      (fun h => absurd h (by simp))
  refine ⟨?_, ?_, ?_⟩
  · rw [h0]
    exact refSort_perm _ _
  · rw [h0]
    exact refSort_sorted hsP _
  · rw [h0]
    exact refSort_pairwise_stable hsP w.enum (enum_pairwise w)

theorem claim_C2_witness :
    SWO (fun a b : Bool =>
      (if a == b then Ordering.eq else
        if a == false then Ordering.lt else Ordering.gt) == Ordering.lt) ∧
    ((sort_byA (fun p q : Nat × Bool =>
        if p.2 == q.2 then Ordering.eq else
          if p.2 == false then Ordering.lt else Ordering.gt) false true
        ([true, false, true].enum)).Perm ([true, false, true].enum) ∧
    sortedB (fun p q : Nat × Bool =>
        (if p.2 == q.2 then Ordering.eq else
          if p.2 == false then Ordering.lt else Ordering.gt) == Ordering.lt)
      (sort_byA (fun p q : Nat × Bool =>
        if p.2 == q.2 then Ordering.eq else
          if p.2 == false then Ordering.lt else Ordering.gt) false true
        ([true, false, true].enum)) = true ∧
    (sort_byA (fun p q : Nat × Bool =>
        if p.2 == q.2 then Ordering.eq else
          if p.2 == false then Ordering.lt else Ordering.gt) false true
        ([true, false, true].enum)).Pairwise
      (fun p q => ((if p.2 == q.2 then Ordering.eq else
          if p.2 == false then Ordering.lt else Ordering.gt)
          == Ordering.lt) = false →
        ((if q.2 == p.2 then Ordering.eq else
          if q.2 == false then Ordering.lt else Ordering.gt)
          == Ordering.lt) = false → p.1 < q.1)) :=
  ⟨⟨by decide, by decide⟩,
    claim_C2_sort_by_stable
      (fun a b : Bool =>
        if a == b then Ordering.eq else
          if a == false then Ordering.lt else Ordering.gt)
      true [true, false, true] ⟨by decide, by decide⟩⟩

/-- The collapse rule exactly as the specification words it (second
definition, for refinement against the source's collapse). -/
def collapseSpec (runs : List Run) : Option Nat :=
  let n := runs.length
  let rg := fun i => runs.getD i ⟨0, 0⟩
  if n ≥ 2 ∧ ((rg (n-1)).start = 0
      ∨ (rg (n-2)).len ≤ (rg (n-1)).len
      ∨ (n ≥ 3 ∧ (rg (n-3)).len ≤ (rg (n-1)).len + (rg (n-2)).len)
      ∨ (n ≥ 4 ∧ (rg (n-4)).len ≤ (rg (n-3)).len + (rg (n-2)).len)) then
    if n ≥ 3 ∧ (rg (n-3)).len < (rg (n-1)).len then some (n-3)
    else some (n-2)
  else none

/-- C5: the merge planner's collapse decision implements exactly the spec
rule: a merge is demanded iff the stack holds at least two runs and either
the top run starts at index 0 or one of the three length-domination
conditions holds, and the merged pair is third-from-top with second-from-top
exactly when at least three runs exist and the third-from-top is strictly
shorter than the top, otherwise second-from-top with top. -/
theorem claim_C5_collapse_matches_spec (runs : List Run) :
    collapse runs = collapseSpec runs := by
  simp only [collapse, collapseSpec]
  rw [Nat.add_comm ((runs.getD (runs.length - 2) (⟨0, 0⟩ : Run)).len)
    ((runs.getD (runs.length - 1) (⟨0, 0⟩ : Run)).len)]

/-- C6: every run pushed by the run-building loop covers a range that is
non-decreasing per the comparator at the time of the push (a strictly
descending run having been reversed first), and it either starts at index 0
or has length at least the minimum run length 10.  (The loop pushes exactly
the run with start ps.1 and length e - ps.1 over the array ps.2 below.) -/
theorem claim_C6_pushed_run_invariants [Inhabited α] {lt : α → α → Bool}
    (hs : SWO lt) (isCopy : Bool) (v : List α) (e : Nat)
    (he1 : 1 ≤ e) (he2 : e ≤ v.length) :
    sortedB lt (slice
      (provide_sorted_batchA lt isCopy (find_runA lt v e).2
        (find_runA lt v e).1 e).2
      (provide_sorted_batchA lt isCopy (find_runA lt v e).2
        (find_runA lt v e).1 e).1 e) = true ∧
    ((provide_sorted_batchA lt isCopy (find_runA lt v e).2
        (find_runA lt v e).1 e).1 = 0 ∨
      10 ≤ e - (provide_sorted_batchA lt isCopy (find_runA lt v e).2
        (find_runA lt v e).1 e).1) := by
  obtain ⟨s1, v1, hfr, hs1e, hv1len, _, _, hv1sorted, _⟩ :=
    find_runA_spec hs v e he1 he2
  obtain ⟨s2, v2, hps, _, _, _, _, hv2sorted, _, hrun⟩ :=
    provide_sorted_batchA_spec hs isCopy v1 s1 e hs1e
      (by rw [hv1len]; exact he2) hv1sorted
  rw [hfr]
  dsimp only
  rw [hps]
  exact ⟨hv2sorted, hrun⟩

theorem claim_C6_witness :
    SWO (fun a b : Bool => decide (a < b)) ∧ 1 ≤ 3 ∧
      3 ≤ ([true, false, true] : List Bool).length ∧
    (sortedB (fun a b : Bool => decide (a < b)) (slice
      (provide_sorted_batchA (fun a b : Bool => decide (a < b)) true
        (find_runA (fun a b : Bool => decide (a < b)) [true, false, true] 3).2
        (find_runA (fun a b : Bool => decide (a < b))
          [true, false, true] 3).1 3).2
      (provide_sorted_batchA (fun a b : Bool => decide (a < b)) true
        (find_runA (fun a b : Bool => decide (a < b)) [true, false, true] 3).2
        (find_runA (fun a b : Bool => decide (a < b))
          [true, false, true] 3).1 3).1 3) = true ∧
    ((provide_sorted_batchA (fun a b : Bool => decide (a < b)) true
        (find_runA (fun a b : Bool => decide (a < b)) [true, false, true] 3).2
        (find_runA (fun a b : Bool => decide (a < b))
          [true, false, true] 3).1 3).1 = 0 ∨
      10 ≤ 3 - (provide_sorted_batchA (fun a b : Bool => decide (a < b)) true
        (find_runA (fun a b : Bool => decide (a < b)) [true, false, true] 3).2
        (find_runA (fun a b : Bool => decide (a < b))
          [true, false, true] 3).1 3).1)) :=
  ⟨swo_lt_decide, by decide, by decide,
    claim_C6_pushed_run_invariants swo_lt_decide true [true, false, true] 3
      (by decide) (by decide)⟩

/-! ## Embedding E: the effectful model

Every function of the core is re-embedded with an effectful comparator
`cmp : Nat → α → α → Option Bool`: the first argument is the invocation
index (so a comparator that panics at an arbitrary invocation is one that
returns `none` there), and `none` models a panic.  A call returns the final
array — or, in the `.error` case, the array exactly as the unwinding
drop-guards leave it when the panic propagates — together with the new
invocation count and the trace of storage-slot pairs the comparator's two
references pointed to, one pair per invocation in order. -/

/-- A storage slot one argument of the comparator can refer to: the lifted
temporary of an insertion, a slot of the array being sorted, a slot of the
merge scratch buffer, or a slot of the sorting-network scratch array. -/
inductive Loc
  | tmp
  | arr (i : Nat)
  | buf (i : Nat)
  | swp (i : Nat)
deriving DecidableEq, Repr

/-- Result of an effectful call: final (or post-unwind) array, invocation
count, trace of compared slot pairs. -/
abbrev ResB (α : Type _) : Type _ :=
  Except (List α) (List α) × Nat × List (Loc × Loc)

/-- A call on the sub-slice v[k..] sees the enclosing slice's array slot
i + k as its slot i; the temporary and the scratch slots are unaffected. -/
def shiftLoc (k : Nat) : Loc → Loc
  | .arr i => .arr (i + k)
  | l => l

def shiftT (k : Nat) (t : List (Loc × Loc)) : List (Loc × Loc) :=
  t.map (fun p => (shiftLoc k p.1, shiftLoc k p.2))

/-- Prepend one comparison to the trace of a result. -/
def consT (p : Loc × Loc) (r : ResB α) : ResB α := (r.1, r.2.1, p :: r.2.2)

/-- Prepend the trace of an already finished stage. -/
def addT (t : List (Loc × Loc)) (r : ResB α) : ResB α := (r.1, r.2.1, t ++ r.2.2)

/-- Sequence two effectful stages; a panic short-circuits. -/
def bindE (r : ResB α) (f : Nat → List α → ResB α) : ResB α :=
  match r with
  | (.error w, c, t) => (.error w, c, t)
  | (.ok w, c, t) => addT t (f c w)

/-- Run f on the window [i, j) of v, as the source does when passing the
sub-slice v[i..j] to a helper: the helper's array slots are shifted by i,
and on both return and unwind the enclosing slice is the window's contents
surrounded by the untouched outside parts. -/
def applyInE (i j : Nat) (f : Nat → List α → ResB α) (v : List α)
    (c : Nat) : ResB α :=
  match f c ((v.drop i).take (j - i)) with
  | (.error w, c', t) => (.error (v.take i ++ w ++ v.drop j), c', shiftT i t)
  | (.ok w, c', t) => (.ok (v.take i ++ w ++ v.drop j), c', shiftT i t)

/-- swap_next_if_less at offset x: compare the two adjacent slots, then
conditionally swap them. -/
def snifE [Inhabited α] (cmp : Nat → α → α → Option Bool) (x : Nat)
    (c : Nat) (v : List α) : ResB α :=
  match cmp c (gD v (x + 1)) (gD v x) with
  | none => (.error v, c + 1, [(.arr (x + 1), .arr x)])
  | some b =>
    (.ok (if b then (v.set x (gD v (x + 1))).set (x + 1) (gD v x) else v),
      c + 1, [(.arr (x + 1), .arr x)])

/-- sort3: swap_next_if_less at offsets 0, 1, 0. -/
def sort3E [Inhabited α] (cmp : Nat → α → α → Option Bool) (c : Nat)
    (v : List α) : ResB α :=
  bindE (snifE cmp 0 c v) (fun c1 v1 =>
  bindE (snifE cmp 1 c1 v1) (fun c2 v2 =>
  snifE cmp 0 c2 v2))

/-- sort4: swaps at offsets 0 and 2; if slots 1 and 2 are inverted, an
unconditional swap of slots 1 and 2 followed by swaps at offsets 0, 2, 1. -/
def sort4E [Inhabited α] (cmp : Nat → α → α → Option Bool) (c : Nat)
    (v : List α) : ResB α :=
  bindE (snifE cmp 0 c v) (fun c1 v1 =>
  bindE (snifE cmp 2 c1 v1) (fun c2 v2 =>
    match cmp c2 (gD v2 2) (gD v2 1) with
    | none => (.error v2, c2 + 1, [(.arr 2, .arr 1)])
    | some b =>
      if b then
        consT (.arr 2, .arr 1)
          (bindE (snifE cmp 0 (c2 + 1)
              ((v2.set 1 (gD v2 2)).set 2 (gD v2 1))) (fun c4 v4 =>
           bindE (snifE cmp 2 c4 v4) (fun c5 v5 =>
           snifE cmp 1 c5 v5)))
      else (.ok v2, c2 + 1, [(.arr 2, .arr 1)])))

/-- The merge_up steps of a parity merge, k of them: both comparator
arguments are read from the merge's source array; sl maps a source index to
the storage slot it occupies in the enclosing frame.  A panic leaves the
destination as already written. -/
def upIterE [Inhabited α] (cmp : Nat → α → α → Option Bool) (sl : Nat → Loc)
    (src : List α) :
    Nat → Nat → Nat × Nat × Nat → List α →
      Except (List α) ((Nat × Nat × Nat) × List α) × Nat × List (Loc × Loc)
  | 0, c, st, dest => (.ok (st, dest), c, [])
  | k + 1, c, st, dest =>
    match cmp c (gD src st.2.1) (gD src st.1) with
    | none => (.error dest, c + 1, [(sl st.2.1, sl st.1)])
    | some b =>
      let x := !b
      let d1 := dest.set (st.2.2 + cond x 1 0) (gD src st.2.1)
      let d2 := d1.set (st.2.2 + cond x 0 1) (gD src st.1)
      match upIterE cmp sl src k (c + 1)
          (st.1 + cond x 1 0, st.2.1 + cond x 0 1, st.2.2 + 1) d2 with
      | (r, c', t) => (r, c', (sl st.2.1, sl st.1) :: t)

/-- The merge_down steps of a parity merge, k of them. -/
def downIterE [Inhabited α] (cmp : Nat → α → α → Option Bool)
    (sl : Nat → Loc) (src : List α) :
    Nat → Nat → Nat × Nat × Nat → List α →
      Except (List α) ((Nat × Nat × Nat) × List α) × Nat × List (Loc × Loc)
  | 0, c, st, dest => (.ok (st, dest), c, [])
  | k + 1, c, st, dest =>
    match cmp c (gD src st.2.1) (gD src st.1) with
    | none => (.error dest, c + 1, [(sl st.2.1, sl st.1)])
    | some b =>
      let x := !b
      let pd' := st.2.2 - 1
      let d1 := dest.set (pd' + cond x 1 0) (gD src st.2.1)
      let d2 := d1.set (pd' + cond x 0 1) (gD src st.1)
      match downIterE cmp sl src k (c + 1)
          (st.1 - cond x 0 1, st.2.1 - cond x 1 0, pd') d2 with
      | (r, c', t) => (r, c', (sl st.2.1, sl st.1) :: t)

/-- The final forward pick of a parity merge. -/
def finishUE [Inhabited α] (cmp : Nat → α → α → Option Bool) (sl : Nat → Loc)
    (src : List α) (c pl pr pd : Nat) (dest : List α) : ResB α :=
  match cmp c (gD src pr) (gD src pl) with
  | none => (.error dest, c + 1, [(sl pr, sl pl)])
  | some b =>
    (.ok (dest.set pd (if b then gD src pr else gD src pl)), c + 1,
      [(sl pr, sl pl)])

/-- The final backward pick of a parity merge. -/
def finishDE [Inhabited α] (cmp : Nat → α → α → Option Bool) (sl : Nat → Loc)
    (src : List α) (c pl pr pd : Nat) (dest : List α) : ResB α :=
  match cmp c (gD src pr) (gD src pl) with
  | none => (.error dest, c + 1, [(sl pr, sl pl)])
  | some b =>
    (.ok (dest.set pd (if b then gD src pl else gD src pr)), c + 1,
      [(sl pr, sl pl)])

/-- parity_merge8: three merge_up steps plus finish_up from the front,
three merge_down steps plus finish_down from the back. -/
def parity_merge8E [Inhabited α] (cmp : Nat → α → α → Option Bool)
    (sl : Nat → Loc) (src : List α) (c : Nat) (dest : List α) : ResB α :=
  match upIterE cmp sl src 3 c (0, 4, 0) dest with
  | (.error w, c1, t1) => (.error w, c1, t1)
  | (.ok (u, d1), c1, t1) =>
    addT t1 (bindE (finishUE cmp sl src c1 u.1 u.2.1 u.2.2 d1) (fun c2 d2 =>
      match downIterE cmp sl src 3 c2 (3, 7, 7) d2 with
      | (.error w, c3, t3) => (.error w, c3, t3)
      | (.ok (dn, d3), c3, t3) =>
        addT t3 (finishDE cmp sl src c3 dn.1 dn.2.1 dn.2.2 d3)))

/-- The while loop of parity_merge: one merge_up and one merge_down per
iteration. -/
def pmLoopE [Inhabited α] (cmp : Nat → α → α → Option Bool) (sl : Nat → Loc)
    (src : List α) :
    Nat → Nat → Nat × Nat × Nat → Nat × Nat × Nat → List α →
      Except (List α) ((Nat × Nat × Nat) × (Nat × Nat × Nat) × List α) ×
        Nat × List (Loc × Loc)
  | 0, c, up, down, dest => (.ok (up, down, dest), c, [])
  | k + 1, c, up, down, dest =>
    match cmp c (gD src up.2.1) (gD src up.1) with
    | none => (.error dest, c + 1, [(sl up.2.1, sl up.1)])
    | some b =>
      let x := !b
      let d1 := dest.set (up.2.2 + cond x 1 0) (gD src up.2.1)
      let d2 := d1.set (up.2.2 + cond x 0 1) (gD src up.1)
      let up' := (up.1 + cond x 1 0, up.2.1 + cond x 0 1, up.2.2 + 1)
      match cmp (c + 1) (gD src down.2.1) (gD src down.1) with
      | none =>
        (.error d2, c + 2, [(sl up.2.1, sl up.1), (sl down.2.1, sl down.1)])
      | some b2 =>
        let y := !b2
        let pd' := down.2.2 - 1
        let e1 := d2.set (pd' + cond y 1 0) (gD src down.2.1)
        let e2 := e1.set (pd' + cond y 0 1) (gD src down.1)
        let down' := (down.1 - cond y 0 1, down.2.1 - cond y 1 0, pd')
        match pmLoopE cmp sl src k (c + 2) up' down' e2 with
        | (r, c', t) =>
          (r, c', (sl up.2.1, sl up.1) :: (sl down.2.1, sl down.1) :: t)

/-- parity_merge: block - 1 interleaved up/down steps, then the two final
picks. -/
def parity_mergeE [Inhabited α] (cmp : Nat → α → α → Option Bool)
    (sl : Nat → Loc) (src : List α) (c : Nat) (dest : List α) (len : Nat) :
    ResB α :=
  let block := len / 2
  match pmLoopE cmp sl src (block - 1) c (0, block, 0)
      (block - 1, len - 1, len - 1) dest with
  | (.error w, c1, t1) => (.error w, c1, t1)
  | (.ok (u, dn, d1), c1, t1) =>
    addT t1 (bindE (finishUE cmp sl src c1 u.1 u.2.1 u.2.2 d1) (fun c2 d2 =>
      finishDE cmp sl src c2 dn.1 dn.2.1 dn.2.2 d2))

/-- sort8: sort4 on both halves, the border guard, then — when the halves
are not already in order — the elements are copied to a scratch array and
parity-merged back into the slice; the comparisons of that merge read from
the scratch slots, the writes go to the array unguarded. -/
def sort8E [Inhabited α] (cmp : Nat → α → α → Option Bool) (c : Nat)
    (v : List α) : ResB α :=
  bindE (sort4E cmp c v) (fun c1 v1 =>
  bindE (applyInE 4 v1.length (sort4E cmp) v1 c1) (fun c2 v2 =>
    match cmp c2 (gD v2 4) (gD v2 3) with
    | none => (.error v2, c2 + 1, [(.arr 4, .arr 3)])
    | some b =>
      if b then
        consT (.arr 4, .arr 3)
          (parity_merge8E cmp Loc.swp (v2.take 8) (c2 + 1) v2)
      else (.ok v2, c2 + 1, [(.arr 4, .arr 3)])))

/-- The merge phase of sort16: the quadrant pairs are parity-merged into the
scratch array (panics there leave the slice untouched), then the scratch
halves are parity-merged back into the slice. -/
def sort16_mergeE [Inhabited α] (cmp : Nat → α → α → Option Bool) (c : Nat)
    (v : List α) : ResB α :=
  match parity_merge8E cmp Loc.arr (v.take 8) c (v.take 16) with
  | (.error _, c1, t1) => (.error v, c1, t1)
  | (.ok swp1, c1, t1) =>
    match parity_merge8E cmp (fun i => Loc.arr (i + 8)) ((v.drop 8).take 8)
        c1 ((swp1.drop 8).take 8) with
    | (.error _, c2, t2) => (.error v, c2, t1 ++ t2)
    | (.ok s2, c2, t2) =>
      match parity_mergeE cmp Loc.swp (swp1.take 8 ++ s2) c2 v 16 with
      | (r, c3, t3) => (r, c3, t1 ++ t2 ++ t3)

/-- sort16: sort4 on the four quadrants, the three border guards with
short-circuit evaluation, then the merge phase unless all borders are
already in order. -/
def sort16E [Inhabited α] (cmp : Nat → α → α → Option Bool) (c : Nat)
    (v : List α) : ResB α :=
  bindE (sort4E cmp c v) (fun c1 v1 =>
  bindE (applyInE 4 8 (sort4E cmp) v1 c1) (fun c2 v2 =>
  bindE (applyInE 8 12 (sort4E cmp) v2 c2) (fun c3 v3 =>
  bindE (applyInE 12 16 (sort4E cmp) v3 c3) (fun c4 v4 =>
    match cmp c4 (gD v4 4) (gD v4 3) with
    | none => (.error v4, c4 + 1, [(.arr 4, .arr 3)])
    | some b1 =>
      if b1 then consT (.arr 4, .arr 3) (sort16_mergeE cmp (c4 + 1) v4)
      else
        match cmp (c4 + 1) (gD v4 8) (gD v4 7) with
        | none =>
          (.error v4, c4 + 2, [(.arr 4, .arr 3), (.arr 8, .arr 7)])
        | some b2 =>
          if b2 then
            addT [(.arr 4, .arr 3), (.arr 8, .arr 7)]
              (sort16_mergeE cmp (c4 + 2) v4)
          else
            match cmp (c4 + 2) (gD v4 12) (gD v4 11) with
            | none =>
              (.error v4, c4 + 3,
                [(.arr 4, .arr 3), (.arr 8, .arr 7), (.arr 12, .arr 11)])
            | some b3 =>
              if b3 then
                addT [(.arr 4, .arr 3), (.arr 8, .arr 7), (.arr 12, .arr 11)]
                  (sort16_mergeE cmp (c4 + 3) v4)
              else
                (.ok v4, c4 + 3,
                  [(.arr 4, .arr 3), (.arr 8, .arr 7), (.arr 12, .arr 11)])))))

/-- The shifting walk of insert_tail.  The first argument is j + 1 where j
is the next compare index (0 means the walk ran off the front); the hole is
at j + 1, and both on a panic and on the end of the walk the drop-guard
writes the lifted value back into the hole. -/
def it_walkE [Inhabited α] (cmp : Nat → α → α → Option Bool) (tmp : α) :
    Nat → Nat → List α → ResB α
  | 0, c, w => (.ok (w.set 0 tmp), c, [])
  | j + 1, c, w =>
    match cmp c tmp (gD w j) with
    | none => (.error (w.set (j + 1) tmp), c + 1, [(.tmp, .arr j)])
    | some b =>
      if b then
        consT (.tmp, .arr j) (it_walkE cmp tmp j (c + 1) (w.set (j + 1) (gD w j)))
      else (.ok (w.set (j + 1) tmp), c + 1, [(.tmp, .arr j)])

/-- insert_tail: guard compare of the last two slots, then lift the last
element, copy its left neighbour over it and walk left. -/
def insert_tailE [Inhabited α] (cmp : Nat → α → α → Option Bool) (c : Nat)
    (v : List α) : ResB α :=
  let i := v.length - 1
  match cmp c (gD v i) (gD v (i - 1)) with
  | none => (.error v, c + 1, [(.arr i, .arr (i - 1))])
  | some b =>
    if b then
      consT (.arr i, .arr (i - 1))
        (it_walkE cmp (gD v i) (i - 1) (c + 1) (v.set i (gD v (i - 1))))
    else (.ok v, c + 1, [(.arr i, .arr (i - 1))])

/-- The shifting walk of insert_head: fuel is the number of remaining loop
indices, i the current one; the hole is at i - 1. -/
def ih_walkE [Inhabited α] (cmp : Nat → α → α → Option Bool) (tmp : α) :
    Nat → Nat → Nat → List α → ResB α
  | 0, i, c, w => (.ok (w.set (i - 1) tmp), c, [])
  | fuel + 1, i, c, w =>
    match cmp c (gD w i) tmp with
    | none => (.error (w.set (i - 1) tmp), c + 1, [(.arr i, .tmp)])
    | some b =>
      if b then
        consT (.arr i, .tmp)
          (ih_walkE cmp tmp fuel (i + 1) (c + 1) (w.set (i - 1) (gD w i)))
      else (.ok (w.set (i - 1) tmp), c + 1, [(.arr i, .tmp)])

/-- insert_head: guard compare of the first two slots, then lift the head,
copy its right neighbour over it and walk right. -/
def insert_headE [Inhabited α] (cmp : Nat → α → α → Option Bool) (c : Nat)
    (v : List α) : ResB α :=
  match cmp c (gD v 1) (gD v 0) with
  | none => (.error v, c + 1, [(.arr 1, .arr 0)])
  | some b =>
    if b then
      consT (.arr 1, .arr 0)
        (ih_walkE cmp (gD v 0) (v.length - 2) 2 (c + 1) (v.set 0 (gD v 1)))
    else (.ok v, c + 1, [(.arr 1, .arr 0)])

/-- The loop of insertion_sort_remaining: n remaining iterations, next
position i (insert_tail on v[..=i]). -/
def isr_loopE [Inhabited α] (cmp : Nat → α → α → Option Bool) :
    Nat → Nat → List α → Nat → ResB α
  | 0, c, v, _ => (.ok v, c, [])
  | n + 1, c, v, i =>
    bindE (applyInE 0 (i + 1) (insert_tailE cmp) v c) (fun c' v' =>
      isr_loopE cmp n c' v' (i + 1))

/-- insertion_sort_remaining: v[..offset] is sorted; extend over the rest. -/
def insertion_sort_remainingE [Inhabited α] (cmp : Nat → α → α → Option Bool)
    (c : Nat) (v : List α) (offset : Nat) : ResB α :=
  if v.length < 2 ∨ offset = 0 then (.ok v, c, [])
  else isr_loopE cmp (v.length - offset) c v offset

/-- The non-Copy branch of sort_small: insert_head on v[i..] for i from
len - 2 down to 0; the argument is the number of remaining iterations. -/
def insert_head_loopE [Inhabited α] (cmp : Nat → α → α → Option Bool) :
    Nat → Nat → List α → ResB α
  | 0, c, v => (.ok v, c, [])
  | i + 1, c, v =>
    bindE (applyInE i v.length (insert_headE cmp) v c) (fun c' v' =>
      insert_head_loopE cmp i c' v')

/-- sort_small: dispatch on length (and trivial relocatability). -/
def sort_smallE [Inhabited α] (cmp : Nat → α → α → Option Bool)
    (isCopy : Bool) (c : Nat) (v : List α) : ResB α :=
  if v.length < 2 then (.ok v, c, [])
  else if isCopy then
    if v.length = 2 then snifE cmp 0 c v
    else if v.length = 3 then sort3E cmp c v
    else if v.length < 8 then
      bindE (sort4E cmp c v) (fun c' v' =>
        insertion_sort_remainingE cmp c' v' 4)
    else if v.length < 16 then
      bindE (sort8E cmp c v) (fun c' v' =>
        insertion_sort_remainingE cmp c' v' 8)
    else
      bindE (sort16E cmp c v) (fun c' v' =>
        insertion_sort_remainingE cmp c' v' 16)
  else insert_head_loopE cmp (v.length - 1) c v

/-- The descending scan of the run detector; a panic leaves the array
untouched. -/
def descWhileE [Inhabited α] (cmp : Nat → α → α → Option Bool) (v : List α) :
    Nat → Nat → Except (List α) Nat × Nat × List (Loc × Loc)
  | 0, c => (.ok 0, c, [])
  | s + 1, c =>
    match cmp c (gD v (s + 1)) (gD v s) with
    | none => (.error v, c + 1, [(.arr (s + 1), .arr s)])
    | some b =>
      if b then
        match descWhileE cmp v s (c + 1) with
        | (r, c', t) => (r, c', (.arr (s + 1), .arr s) :: t)
      else (.ok (s + 1), c + 1, [(.arr (s + 1), .arr s)])

/-- The non-descending scan of the run detector. -/
def ascendWhileE [Inhabited α] (cmp : Nat → α → α → Option Bool)
    (v : List α) : Nat → Nat → Except (List α) Nat × Nat × List (Loc × Loc)
  | 0, c => (.ok 0, c, [])
  | s + 1, c =>
    match cmp c (gD v (s + 1)) (gD v s) with
    | none => (.error v, c + 1, [(.arr (s + 1), .arr s)])
    | some b =>
      if b then (.ok (s + 1), c + 1, [(.arr (s + 1), .arr s)])
      else
        match ascendWhileE cmp v s (c + 1) with
        | (r, c', t) => (r, c', (.arr (s + 1), .arr s) :: t)

/-- find_run: find the next natural run ending at e, reversing it when
strictly descending; a panic can only happen during the scans, which do not
modify the array. -/
def find_runE [Inhabited α] (cmp : Nat → α → α → Option Bool) (c : Nat)
    (v : List α) (e : Nat) :
    Except (List α) (Nat × List α) × Nat × List (Loc × Loc) :=
  let start := e - 1
  if start > 0 then
    let start1 := start - 1
    match cmp c (gD v (start1 + 1)) (gD v start1) with
    | none => (.error v, c + 1, [(.arr (start1 + 1), .arr start1)])
    | some b =>
      if b then
        match descWhileE cmp v start1 (c + 1) with
        | (.error w, c', t) =>
          (.error w, c', (.arr (start1 + 1), .arr start1) :: t)
        | (.ok s, c', t) =>
          (.ok (s, reverseRange v s e), c',
            (.arr (start1 + 1), .arr start1) :: t)
      else
        match ascendWhileE cmp v start1 (c + 1) with
        | (.error w, c', t) =>
          (.error w, c', (.arr (start1 + 1), .arr start1) :: t)
        | (.ok s, c', t) =>
          (.ok (s, v), c', (.arr (start1 + 1), .arr start1) :: t)
  else (.ok (start, v), c, [])

/-- The insert_head loop of provide_sorted_batch, i descending from
start' + n - 1 to start', each applied to the window [i, e). -/
def pb_insert_loopE [Inhabited α] (cmp : Nat → α → α → Option Bool)
    (e start' : Nat) : Nat → Nat → List α → ResB α
  | 0, c, v => (.ok v, c, [])
  | n + 1, c, v =>
    bindE (applyInE (start' + n) e (insert_headE cmp) v c) (fun c' v' =>
      pb_insert_loopE cmp e start' n c' v')

/-- provide_sorted_batch: extend the already sorted range [start, e)
backwards with a sort16 batch (Copy types, short run, room for 16) or with
repeated insert_head until the minimum run length 10 is reached. -/
def provide_sorted_batchE [Inhabited α] (cmp : Nat → α → α → Option Bool)
    (isCopy : Bool) (c : Nat) (v : List α) (start e : Nat) :
    Except (List α) (Nat × List α) × Nat × List (Loc × Loc) :=
  let start_found := start
  let start_end_diff := e - start
  if isCopy ∧ start_end_diff < 8 ∧ start_found ≥ 16 then
    let start' := start_found - 16
    match applyInE start' start_found (sort16E cmp) v c with
    | (.error w, c1, t1) => (.error w, c1, t1)
    | (.ok v1, c1, t1) =>
      match applyInE start' e
          (fun c2 w => insertion_sort_remainingE cmp c2 w 16) v1 c1 with
      | (.error w, c2, t2) => (.error w, c2, t1 ++ t2)
      | (.ok v2, c2, t2) => (.ok (start', v2), c2, t1 ++ t2)
  else if start_end_diff < 10 then
    let start' := start - (10 - start_end_diff)
    match pb_insert_loopE cmp e start' (start_found - start') c v with
    | (.error w, c1, t1) => (.error w, c1, t1)
    | (.ok v1, c1, t1) => (.ok (start', v1), c1, t1)
  else (.ok (start, v), c, [])

/-- The contents the forward merge frame nets out to at cursor state
(lc, rc): the merged output written so far, then — supplied by the MergeHole
drop-guard — the unconsumed scratch range, then the unconsumed right run. -/
def mrest (buf : List α) (mid lc rc : Nat) (w : List α) : List α :=
  w.take (lc + rc - mid) ++ buf.drop lc ++ w.drop rc

/-- The forward merge loop: the left (shorter) run has been copied to buf;
each comparison reads the next right-run element from the array and the next
left-run element from the scratch buffer, consuming the lesser and
preferring the left run on ties. -/
def mergeFwdE [Inhabited α] (cmp : Nat → α → α → Option Bool)
    (buf : List α) (mid len : Nat) : Nat → Nat → Nat → Nat → List α → ResB α
  | 0, c, lc, rc, w => (.ok (mrest buf mid lc rc w), c, [])
  | fuel + 1, c, lc, rc, w =>
    if lc < mid ∧ rc < len then
      match cmp c (gD w rc) (gD buf lc) with
      | none =>
        (.error (mrest buf mid lc rc w), c + 1, [(.arr rc, .buf lc)])
      | some b =>
        if b then
          consT (.arr rc, .buf lc)
            (mergeFwdE cmp buf mid len fuel (c + 1) lc (rc + 1)
              (w.set (lc + rc - mid) (gD w rc)))
        else
          consT (.arr rc, .buf lc)
            (mergeFwdE cmp buf mid len fuel (c + 1) (lc + 1) rc
              (w.set (lc + rc - mid) (gD buf lc)))
    else (.ok (mrest buf mid lc rc w), c, [])

/-- The contents the backward merge frame nets out to at cursor state
(l, rr): the unconsumed left run, then — supplied by the MergeHole
drop-guard — the unconsumed scratch range, then the merged output. -/
def brest (buf : List α) (l rr : Nat) (w : List α) : List α :=
  w.take l ++ buf.take rr ++ w.drop (l + rr)

/-- The backward merge loop: the right (shorter) run has been copied to buf;
each comparison reads the last unconsumed right-run element from the scratch
buffer and the last unconsumed left-run element from the array, consuming
the greater and preferring the right run on ties. -/
def mergeBackE [Inhabited α] (cmp : Nat → α → α → Option Bool)
    (buf : List α) : Nat → Nat → Nat → Nat → List α → ResB α
  | 0, c, l, rr, w => (.ok (brest buf l rr w), c, [])
  | fuel + 1, c, l, rr, w =>
    if 0 < l ∧ 0 < rr then
      match cmp c (gD buf (rr - 1)) (gD w (l - 1)) with
      | none =>
        (.error (brest buf l rr w), c + 1, [(.buf (rr - 1), .arr (l - 1))])
      | some b =>
        if b then
          consT (.buf (rr - 1), .arr (l - 1))
            (mergeBackE cmp buf fuel (c + 1) (l - 1) rr
              (w.set (l + rr - 1) (gD w (l - 1))))
        else
          consT (.buf (rr - 1), .arr (l - 1))
            (mergeBackE cmp buf fuel (c + 1) l (rr - 1)
              (w.set (l + rr - 1) (gD buf (rr - 1))))
    else (.ok (brest buf l rr w), c, [])

/-- The run copied to the scratch buffer by merge: the left run when it is
the shorter one, the right run otherwise. -/
def mergeBufE (v : List α) (mid : Nat) : List α :=
  if mid ≤ v.length - mid then v.take mid else v.drop mid

/-- merge: copy the shorter run to the scratch buffer, then run the forward
loop (left shorter) or the backward loop (right shorter). -/
def mergeE [Inhabited α] (cmp : Nat → α → α → Option Bool) (c : Nat)
    (v : List α) (mid : Nat) : ResB α :=
  if mid ≤ v.length - mid then
    mergeFwdE cmp (v.take mid) mid v.length v.length c 0 mid v
  else mergeBackE cmp (v.drop mid) v.length c mid (v.length - mid) v

/-- The collapse loop of merge_sort: merge adjacent pairs while collapse
demands it; the fuel is an upper bound on the stack length. -/
def collapse_loopE [Inhabited α] (cmp : Nat → α → α → Option Bool) :
    Nat → Nat → List α → List Run →
      Except (List α) (List α × List Run) × Nat × List (Loc × Loc)
  | 0, c, v, runs => (.ok (v, runs), c, [])
  | fuel + 1, c, v, runs =>
    match collapse runs with
    | none => (.ok (v, runs), c, [])
    | some r =>
      let left := runs.getD (r + 1) ⟨0, 0⟩
      let right := runs.getD r ⟨0, 0⟩
      match applyInE left.start (right.start + right.len)
          (fun c' w => mergeE cmp c' w left.len) v c with
      | (.error w, c1, t1) => (.error w, c1, t1)
      | (.ok v1, c1, t1) =>
        match collapse_loopE cmp fuel c1 v1
            ((runs.set r ⟨left.len + right.len, left.start⟩).eraseIdx
              (r + 1)) with
        | (r2, c2, t2) => (r2, c2, t1 ++ t2)

/-- The outer run-building loop of merge_sort, with e the end of the not yet
processed part; the fuel bounds the number of iterations (e strictly
decreases). -/
def merge_sort_loopE [Inhabited α] (cmp : Nat → α → α → Option Bool)
    (isCopy : Bool) : Nat → Nat → List α → List Run → Nat → ResB α
  | 0, c, v, _, _ => (.ok v, c, [])
  | fuel + 1, c, v, runs, e =>
    if e > 0 then
      match find_runE cmp c v e with
      | (.error w, c1, t1) => (.error w, c1, t1)
      | (.ok (s1, v1), c1, t1) =>
        match provide_sorted_batchE cmp isCopy c1 v1 s1 e with
        | (.error w, c2, t2) => (.error w, c2, t1 ++ t2)
        | (.ok (s2, v2), c2, t2) =>
          match collapse_loopE cmp (runs.length + 1) c2 v2
              (runs ++ [⟨e - s2, s2⟩]) with
          | (.error w, c3, t3) => (.error w, c3, t1 ++ t2 ++ t3)
          | (.ok (v3, runs3), c3, t3) =>
            match merge_sort_loopE cmp isCopy fuel c3 v3 runs3 s2 with
            | (r4, c4, t4) => (r4, c4, t1 ++ t2 ++ t3 ++ t4)
    else (.ok v, c, [])

/-- merge_sort: zero-sized check, small path, or the run loop. -/
def merge_sortE [Inhabited α] (cmp : Nat → α → α → Option Bool)
    (isZst isCopy : Bool) (c : Nat) (v : List α) : ResB α :=
  if isZst then (.ok v, c, [])
  else if v.length ≤ 20 then sort_smallE cmp isCopy c v
  else merge_sort_loopE cmp isCopy v.length c v [] v.length

/-- stable_sort: zero-sized check then merge_sort. -/
def stable_sortE [Inhabited α] (cmp : Nat → α → α → Option Bool)
    (isZst isCopy : Bool) (c : Nat) (v : List α) : ResB α :=
  if isZst then (.ok v, c, []) else merge_sortE cmp isZst isCopy c v

/-- sort_by: comparator to boolean is_less; a panic of the user comparator
is a panic of is_less. -/
def sort_byE [Inhabited α] (compare : Nat → α → α → Option Ordering)
    (isZst isCopy : Bool) (v : List α) : ResB α :=
  stable_sortE (fun c a b => (compare c a b).map (fun o => o == Ordering.lt))
    isZst isCopy 0 v

/-- A comparator on Int that implements the usual order but panics at
invocation index 8. -/
def panicCmp8 : Nat → Int → Int → Option Bool :=
  fun c a b => if c = 8 then none else some (decide (a < b))

/-- C3: REFUTED.  The claim says that for every element type, input and
panicking comparator, the sequence still holds exactly the original
multiset of elements when the panic propagates out of sort.  Counterexample:
on the Copy path, sort8 copies the eight elements to a scratch array and
parity-merges them back into the slice with unguarded writes; a comparator
that panics at invocation index 8 (the second merge_up comparison) leaves
the slice as [0, 4, 6, 7, 0, 1, 2, 3] for input [4, 5, 6, 7, 0, 1, 2, 3]:
the element 5 is lost and 0 is duplicated, so the result is not a
permutation of the input. -/
theorem claim_C3_panic_can_lose_elements :
    (stable_sortE panicCmp8 false true 0
        ([4, 5, 6, 7, 0, 1, 2, 3] : List Int)).1 =
      .error [0, 4, 6, 7, 0, 1, 2, 3] ∧
    ¬ ([0, 4, 6, 7, 0, 1, 2, 3] : List Int).Perm [4, 5, 6, 7, 0, 1, 2, 3] :=
  ⟨rfl, by decide⟩

/-- C8: for every zero-size element type and for every sequence of length
at most 1, sort and sort_by are no-ops: the sequence is unchanged, the
comparator is never invoked (empty trace, unchanged invocation count). -/
theorem claim_C8_noop_cases [Inhabited α] (cmp : Nat → α → α → Option Bool)
    (isZst isCopy : Bool) (c : Nat) (v : List α)
    (h : isZst = true ∨ v.length ≤ 1) :
    stable_sortE cmp isZst isCopy c v = (.ok v, c, []) := by
  rcases h with h | h
  · simp [stable_sortE, h]
  · cases isZst
    · have h20 : v.length ≤ 20 := by omega
      have h2 : v.length < 2 := by omega
      simp [stable_sortE, merge_sortE, sort_smallE, h20, h2]
    · simp [stable_sortE]

theorem claim_C8_witness :
    stable_sortE (fun _ (_ _ : Bool) => some true) false true 3 [true] =
      (.ok [true], 3, []) :=
  claim_C8_noop_cases _ false true 3 [true] (Or.inr (by decide))

/-! ### No self-comparison: every trace pair has two distinct slots -/

/-- Every comparison in the trace was given two distinct storage slots. -/
def distinctT (t : List (Loc × Loc)) : Prop := ∀ p ∈ t, p.1 ≠ p.2

theorem distinctT_nil : distinctT ([] : List (Loc × Loc)) := by
  intro p hp; cases hp

theorem distinctT_cons {p : Loc × Loc} {t : List (Loc × Loc)}
    (h1 : p.1 ≠ p.2) (h2 : distinctT t) : distinctT (p :: t) := by
  intro q hq
  rcases List.mem_cons.1 hq with hq | hq
  · exact hq ▸ h1
  · exact h2 q hq

theorem distinctT_single {a b : Loc} (h : a ≠ b) : distinctT [(a, b)] :=
  distinctT_cons h distinctT_nil

theorem distinctT_append {t1 t2 : List (Loc × Loc)}
    (h1 : distinctT t1) (h2 : distinctT t2) : distinctT (t1 ++ t2) := by
  intro q hq
  rcases List.mem_append.1 hq with hq | hq
  · exact h1 q hq
  · exact h2 q hq

theorem shiftLoc_ne {k : Nat} {a b : Loc} (h : a ≠ b) :
    shiftLoc k a ≠ shiftLoc k b := by
  cases a <;> cases b <;> simp_all [shiftLoc] <;> omega

theorem distinctT_shiftT {k : Nat} {t : List (Loc × Loc)}
    (h : distinctT t) : distinctT (shiftT k t) := by
  intro q hq
  simp only [shiftT, List.mem_map] at hq
  obtain ⟨p, hp, rfl⟩ := hq
  exact shiftLoc_ne (h p hp)

theorem distinctT_consT {p : Loc × Loc} {r : ResB α}
    (h1 : p.1 ≠ p.2) (h2 : distinctT r.2.2) : distinctT ((consT p r).2.2) :=
  distinctT_cons h1 h2

theorem distinctT_addT {t : List (Loc × Loc)} {r : ResB α}
    (h1 : distinctT t) (h2 : distinctT r.2.2) : distinctT ((addT t r).2.2) :=
  distinctT_append h1 h2

theorem distinctT_bindE {r : ResB α} {f : Nat → List α → ResB α}
    (h1 : distinctT r.2.2) (h2 : ∀ c w, distinctT (f c w).2.2) :
    distinctT ((bindE r f).2.2) := by
  obtain ⟨e, c, t⟩ := r
  cases e with
  | error w => exact h1
  | ok w => exact distinctT_addT h1 (h2 c w)

theorem distinctT_applyInE {i j : Nat} {f : Nat → List α → ResB α}
    {v : List α} {c : Nat} (h : ∀ c w, distinctT (f c w).2.2) :
    distinctT ((applyInE i j f v c).2.2) := by
  unfold applyInE
  rcases hf : f c ((v.drop i).take (j - i)) with ⟨e, c', t⟩
  have ht : distinctT t := by have := h c ((v.drop i).take (j - i)); rw [hf] at this; exact this
  cases e <;> exact distinctT_shiftT ht

theorem distinctT_applyInE_at {i j : Nat} {f : Nat → List α → ResB α}
    {v : List α} {c : Nat}
    (h : distinctT ((f c ((v.drop i).take (j - i))).2.2)) :
    distinctT ((applyInE i j f v c).2.2) := by
  unfold applyInE
  rcases hf : f c ((v.drop i).take (j - i)) with ⟨e, c', t⟩
  rw [hf] at h
  cases e <;> exact distinctT_shiftT h

theorem snifE_distinct [Inhabited α] (cmp : Nat → α → α → Option Bool)
    (x c : Nat) (v : List α) : distinctT ((snifE cmp x c v).2.2) := by
  unfold snifE
  have hne : (Loc.arr (x + 1) : Loc) ≠ Loc.arr x := by simp
  cases cmp c (gD v (x + 1)) (gD v x) with
  | none => exact distinctT_single hne
  | some b => exact distinctT_single hne

theorem sort3E_distinct [Inhabited α] (cmp : Nat → α → α → Option Bool)
    (c : Nat) (v : List α) : distinctT ((sort3E cmp c v).2.2) := by
  unfold sort3E
  exact distinctT_bindE (snifE_distinct _ _ _ _) (fun c1 v1 =>
    distinctT_bindE (snifE_distinct _ _ _ _) (fun c2 v2 => snifE_distinct _ _ _ _))

theorem sort4E_distinct [Inhabited α] (cmp : Nat → α → α → Option Bool)
    (c : Nat) (v : List α) : distinctT ((sort4E cmp c v).2.2) := by
  unfold sort4E
  refine distinctT_bindE (snifE_distinct _ _ _ _) (fun c1 v1 =>
    distinctT_bindE (snifE_distinct _ _ _ _) (fun c2 v2 => ?_))
  have hne : (Loc.arr 2 : Loc) ≠ Loc.arr 1 := by simp
  cases cmp c2 (gD v2 2) (gD v2 1) with
  | none => exact distinctT_single hne
  | some b =>
    cases b with
    | true =>
      exact distinctT_consT hne (distinctT_bindE (snifE_distinct _ _ _ _)
        (fun c4 v4 => distinctT_bindE (snifE_distinct _ _ _ _)
          (fun c5 v5 => snifE_distinct _ _ _ _)))
    | false => exact distinctT_single hne

theorem it_walkE_distinct [Inhabited α] (cmp : Nat → α → α → Option Bool)
    (tmp : α) : ∀ (j c : Nat) (w : List α),
      distinctT ((it_walkE cmp tmp j c w).2.2)
  | 0, c, w => distinctT_nil
  | j + 1, c, w => by
    unfold it_walkE
    have hne : (Loc.tmp : Loc) ≠ Loc.arr j := by simp
    cases cmp c tmp (gD w j) with
    | none => exact distinctT_single hne
    | some b =>
      cases b with
      | true => exact distinctT_consT hne (it_walkE_distinct cmp tmp j _ _)
      | false => exact distinctT_single hne

theorem insert_tailE_distinct [Inhabited α] (cmp : Nat → α → α → Option Bool)
    (c : Nat) (v : List α) (hv : 2 ≤ v.length) :
    distinctT ((insert_tailE cmp c v).2.2) := by
  simp only [insert_tailE]
  have hne : (Loc.arr (v.length - 1) : Loc) ≠ Loc.arr (v.length - 1 - 1) := by
    simp; omega
  cases cmp c (gD v (v.length - 1)) (gD v (v.length - 1 - 1)) with
  | none => exact distinctT_single hne
  | some b =>
    cases b with
    | true => exact distinctT_consT hne (it_walkE_distinct _ _ _ _ _)
    | false => exact distinctT_single hne

theorem ih_walkE_distinct [Inhabited α] (cmp : Nat → α → α → Option Bool)
    (tmp : α) : ∀ (fuel i c : Nat) (w : List α),
      distinctT ((ih_walkE cmp tmp fuel i c w).2.2)
  | 0, i, c, w => distinctT_nil
  | fuel + 1, i, c, w => by
    unfold ih_walkE
    have hne : (Loc.arr i : Loc) ≠ Loc.tmp := by simp
    cases cmp c (gD w i) tmp with
    | none => exact distinctT_single hne
    | some b =>
      cases b with
      | true => exact distinctT_consT hne (ih_walkE_distinct cmp tmp fuel _ _ _)
      | false => exact distinctT_single hne

theorem insert_headE_distinct [Inhabited α] (cmp : Nat → α → α → Option Bool)
    (c : Nat) (v : List α) : distinctT ((insert_headE cmp c v).2.2) := by
  unfold insert_headE
  have hne : (Loc.arr 1 : Loc) ≠ Loc.arr 0 := by simp
  cases cmp c (gD v 1) (gD v 0) with
  | none => exact distinctT_single hne
  | some b =>
    cases b with
    | true => exact distinctT_consT hne (ih_walkE_distinct _ _ _ _ _ _)
    | false => exact distinctT_single hne

theorem upIterE_distinct [Inhabited α] {cmp : Nat → α → α → Option Bool}
    {sl : Nat → Loc} {src : List α} {n : Nat}
    (hsl : ∀ i j, i < n → n ≤ j → sl i ≠ sl j) :
    ∀ (k c : Nat) (st : Nat × Nat × Nat) (dest : List α),
      st.1 + k ≤ n → n ≤ st.2.1 →
      distinctT (upIterE cmp sl src k c st dest).2.2 ∧
      (∀ u d, (upIterE cmp sl src k c st dest).1 = .ok (u, d) →
        u.1 ≤ st.1 + k ∧ n ≤ u.2.1) := by
  intro k
  induction k with
  | zero =>
    intro c st dest h1 h2
    refine ⟨distinctT_nil, ?_⟩
    intro u d h
    simp only [upIterE] at h
    obtain ⟨rfl, rfl⟩ : st = u ∧ dest = d := by simpa using h
    exact ⟨Nat.le_add_right _ _, h2⟩
  | succ k ih =>
    intro c st dest h1 h2
    simp only [upIterE]
    cases hc : cmp c (gD src st.2.1) (gD src st.1) with
    | none =>
      refine ⟨distinctT_single (hsl st.1 st.2.1 (by omega) h2).symm, ?_⟩
      intro u d h
      exact absurd h (by simp)
    | some b =>
      have hx : cond (!b) 1 0 + cond (!b) 0 1 = 1 := by cases b <;> rfl
      have ihh := ih (c + 1)
        (st.1 + cond (!b) 1 0, st.2.1 + cond (!b) 0 1, st.2.2 + 1)
        ((dest.set (st.2.2 + cond (!b) 1 0) (gD src st.2.1)).set
          (st.2.2 + cond (!b) 0 1) (gD src st.1))
        (by dsimp only; omega) (by dsimp only; omega)
      dsimp only
      rcases hrec : upIterE cmp sl src k (c + 1)
          (st.1 + cond (!b) 1 0, st.2.1 + cond (!b) 0 1, st.2.2 + 1)
          ((dest.set (st.2.2 + cond (!b) 1 0) (gD src st.2.1)).set
            (st.2.2 + cond (!b) 0 1) (gD src st.1)) with ⟨r, c', t⟩
      rw [hrec] at ihh
      refine ⟨distinctT_cons (hsl st.1 st.2.1 (by omega) h2).symm ihh.1, ?_⟩
      intro u d h
      have := ihh.2 u d h
      dsimp only at this
      exact ⟨by omega, this.2⟩

theorem downIterE_distinct [Inhabited α] {cmp : Nat → α → α → Option Bool}
    {sl : Nat → Loc} {src : List α} {n : Nat}
    (hsl : ∀ i j, i < n → n ≤ j → sl i ≠ sl j) :
    ∀ (k c : Nat) (st : Nat × Nat × Nat) (dest : List α),
      st.1 < n → n + k ≤ st.2.1 + 1 →
      distinctT (downIterE cmp sl src k c st dest).2.2 ∧
      (∀ u d, (downIterE cmp sl src k c st dest).1 = .ok (u, d) →
        u.1 ≤ st.1 ∧ st.2.1 ≤ u.2.1 + k) := by
  intro k
  induction k with
  | zero =>
    intro c st dest h1 h2
    refine ⟨distinctT_nil, ?_⟩
    intro u d h
    simp only [downIterE] at h
    obtain ⟨rfl, rfl⟩ : st = u ∧ dest = d := by simpa using h
    exact ⟨Nat.le_refl _, Nat.le_add_right _ _⟩
  | succ k ih =>
    intro c st dest h1 h2
    simp only [downIterE]
    cases hc : cmp c (gD src st.2.1) (gD src st.1) with
    | none =>
      refine ⟨distinctT_single (hsl st.1 st.2.1 h1 (by omega)).symm, ?_⟩
      intro u d h
      exact absurd h (by simp)
    | some b =>
      have hx : cond (!b) 1 0 + cond (!b) 0 1 = 1 := by cases b <;> rfl
      have ihh := ih (c + 1)
        (st.1 - cond (!b) 0 1, st.2.1 - cond (!b) 1 0, st.2.2 - 1)
        ((dest.set (st.2.2 - 1 + cond (!b) 1 0) (gD src st.2.1)).set
          (st.2.2 - 1 + cond (!b) 0 1) (gD src st.1))
        (by dsimp only; omega) (by dsimp only; omega)
      dsimp only
      rcases hrec : downIterE cmp sl src k (c + 1)
          (st.1 - cond (!b) 0 1, st.2.1 - cond (!b) 1 0, st.2.2 - 1)
          ((dest.set (st.2.2 - 1 + cond (!b) 1 0) (gD src st.2.1)).set
            (st.2.2 - 1 + cond (!b) 0 1) (gD src st.1)) with ⟨r, c', t⟩
      rw [hrec] at ihh
      refine ⟨distinctT_cons (hsl st.1 st.2.1 h1 (by omega)).symm ihh.1, ?_⟩
      intro u d h
      have := ihh.2 u d h
      dsimp only at this
      exact ⟨by omega, by omega⟩

theorem finishUE_distinct [Inhabited α] {cmp : Nat → α → α → Option Bool}
    {sl : Nat → Loc} {src : List α} {n : Nat}
    (hsl : ∀ i j, i < n → n ≤ j → sl i ≠ sl j)
    (c : Nat) {pl pr : Nat} (pd : Nat) (dest : List α)
    (h1 : pl < n) (h2 : n ≤ pr) :
    distinctT ((finishUE cmp sl src c pl pr pd dest).2.2) := by
  unfold finishUE
  cases cmp c (gD src pr) (gD src pl) with
  | none => exact distinctT_single (hsl pl pr h1 h2).symm
  | some b => exact distinctT_single (hsl pl pr h1 h2).symm

theorem finishDE_distinct [Inhabited α] {cmp : Nat → α → α → Option Bool}
    {sl : Nat → Loc} {src : List α} {n : Nat}
    (hsl : ∀ i j, i < n → n ≤ j → sl i ≠ sl j)
    (c : Nat) {pl pr : Nat} (pd : Nat) (dest : List α)
    (h1 : pl < n) (h2 : n ≤ pr) :
    distinctT ((finishDE cmp sl src c pl pr pd dest).2.2) := by
  unfold finishDE
  cases cmp c (gD src pr) (gD src pl) with
  | none => exact distinctT_single (hsl pl pr h1 h2).symm
  | some b => exact distinctT_single (hsl pl pr h1 h2).symm

theorem parity_merge8E_distinct [Inhabited α]
    {cmp : Nat → α → α → Option Bool} {sl : Nat → Loc}
    (hsl : ∀ i j, i < 4 → 4 ≤ j → sl i ≠ sl j)
    (src : List α) (c : Nat) (dest : List α) :
    distinctT ((parity_merge8E cmp sl src c dest).2.2) := by
  unfold parity_merge8E
  have hup := @upIterE_distinct α _ cmp sl src 4 hsl 3 c (0, 4, 0) dest
    (by decide) (by decide)
  rcases hrecu : upIterE cmp sl src 3 c (0, 4, 0) dest with ⟨ru, c1, t1⟩
  rw [hrecu] at hup
  cases ru with
  | error w => exact hup.1
  | ok p =>
    obtain ⟨u, d1⟩ := p
    obtain ⟨hu1, hu2⟩ := hup.2 u d1 rfl
    dsimp only at hu1 hu2
    refine distinctT_addT hup.1 (distinctT_bindE
      (finishUE_distinct hsl c1 u.2.2 d1 (by omega) hu2) ?_)
    intro c2 d2
    have hdn := @downIterE_distinct α _ cmp sl src 4 hsl 3 c2 (3, 7, 7) d2
      (by decide) (by decide)
    rcases hrecd : downIterE cmp sl src 3 c2 (3, 7, 7) d2 with ⟨rd, c3, t3⟩
    rw [hrecd] at hdn
    cases rd with
    | error w => exact hdn.1
    | ok p2 =>
      obtain ⟨dn, d3⟩ := p2
      obtain ⟨hd1, hd2⟩ := hdn.2 dn d3 rfl
      dsimp only at hd1 hd2
      exact distinctT_addT hdn.1
        (finishDE_distinct hsl c3 dn.2.2 d3 (by omega) (by omega))

theorem pmLoopE_distinct [Inhabited α] {cmp : Nat → α → α → Option Bool}
    {sl : Nat → Loc} {src : List α} {n : Nat}
    (hsl : ∀ i j, i < n → n ≤ j → sl i ≠ sl j) :
    ∀ (k c : Nat) (up down : Nat × Nat × Nat) (dest : List α),
      up.1 + k ≤ n → n ≤ up.2.1 → down.1 < n → n + k ≤ down.2.1 + 1 →
      distinctT (pmLoopE cmp sl src k c up down dest).2.2 ∧
      (∀ u dn d, (pmLoopE cmp sl src k c up down dest).1 = .ok (u, dn, d) →
        u.1 ≤ up.1 + k ∧ n ≤ u.2.1 ∧ dn.1 ≤ down.1 ∧ down.2.1 ≤ dn.2.1 + k) := by
  intro k
  induction k with
  | zero =>
    intro c up down dest h1 h2 h3 h4
    refine ⟨distinctT_nil, ?_⟩
    intro u dn d h
    simp only [pmLoopE] at h
    obtain ⟨rfl, rfl, rfl⟩ : up = u ∧ down = dn ∧ dest = d := by simpa using h
    exact ⟨Nat.le_add_right _ _, h2, Nat.le_refl _, Nat.le_add_right _ _⟩
  | succ k ih =>
    intro c up down dest h1 h2 h3 h4
    simp only [pmLoopE]
    cases hc : cmp c (gD src up.2.1) (gD src up.1) with
    | none =>
      refine ⟨distinctT_single (hsl up.1 up.2.1 (by omega) h2).symm, ?_⟩
      intro u dn d h
      exact absurd h (by simp)
    | some b =>
      have hx : cond (!b) 1 0 + cond (!b) 0 1 = 1 := by cases b <;> rfl
      cases hc2 : cmp (c + 1) (gD src down.2.1) (gD src down.1) with
      | none =>
        refine ⟨distinctT_cons (hsl up.1 up.2.1 (by omega) h2).symm
          (distinctT_single (hsl down.1 down.2.1 h3 (by omega)).symm), ?_⟩
        intro u dn d h
        exact absurd h (by simp)
      | some b2 =>
        have hy : cond (!b2) 1 0 + cond (!b2) 0 1 = 1 := by cases b2 <;> rfl
        have ihh := ih (c + 2)
          (up.1 + cond (!b) 1 0, up.2.1 + cond (!b) 0 1, up.2.2 + 1)
          (down.1 - cond (!b2) 0 1, down.2.1 - cond (!b2) 1 0, down.2.2 - 1)
          (((((dest.set (up.2.2 + cond (!b) 1 0) (gD src up.2.1)).set
            (up.2.2 + cond (!b) 0 1) (gD src up.1)).set
            (down.2.2 - 1 + cond (!b2) 1 0) (gD src down.2.1)).set
            (down.2.2 - 1 + cond (!b2) 0 1) (gD src down.1)))
          (by dsimp only; omega) (by dsimp only; omega)
          (by dsimp only; omega) (by dsimp only; omega)
        dsimp only
        rcases hrec : pmLoopE cmp sl src k (c + 2)
            (up.1 + cond (!b) 1 0, up.2.1 + cond (!b) 0 1, up.2.2 + 1)
            (down.1 - cond (!b2) 0 1, down.2.1 - cond (!b2) 1 0, down.2.2 - 1)
            (((((dest.set (up.2.2 + cond (!b) 1 0) (gD src up.2.1)).set
              (up.2.2 + cond (!b) 0 1) (gD src up.1)).set
              (down.2.2 - 1 + cond (!b2) 1 0) (gD src down.2.1)).set
              (down.2.2 - 1 + cond (!b2) 0 1) (gD src down.1)))
          with ⟨r, c', t⟩
        rw [hrec] at ihh
        refine ⟨distinctT_cons (hsl up.1 up.2.1 (by omega) h2).symm
          (distinctT_cons (hsl down.1 down.2.1 h3 (by omega)).symm ihh.1), ?_⟩
        intro u dn d h
        have := ihh.2 u dn d h
        dsimp only at this
        refine ⟨by omega, this.2.1, by omega, by omega⟩

theorem parity_mergeE_distinct [Inhabited α]
    {cmp : Nat → α → α → Option Bool} {sl : Nat → Loc} {len : Nat}
    (hsl : ∀ i j, i < len / 2 → len / 2 ≤ j → sl i ≠ sl j)
    (hlen : 1 ≤ len / 2) (src : List α) (c : Nat) (dest : List α) :
    distinctT ((parity_mergeE cmp sl src c dest len).2.2) := by
  simp only [parity_mergeE]
  have hpm := @pmLoopE_distinct α _ cmp sl src (len / 2) hsl (len / 2 - 1) c
    (0, len / 2, 0) (len / 2 - 1, len - 1, len - 1) dest (by dsimp only; omega)
    (by dsimp only; omega) (by dsimp only; omega) (by dsimp only; omega)
  rcases hrec : pmLoopE cmp sl src (len / 2 - 1) c (0, len / 2, 0)
      (len / 2 - 1, len - 1, len - 1) dest with ⟨r, c1, t1⟩
  rw [hrec] at hpm
  cases r with
  | error w => exact hpm.1
  | ok p =>
    obtain ⟨u, dn, d1⟩ := p
    obtain ⟨hu1, hu2, hd1, hd2⟩ := hpm.2 u dn d1 rfl
    dsimp only at hu1 hu2 hd1 hd2
    refine distinctT_addT hpm.1 (distinctT_bindE
      (finishUE_distinct hsl c1 u.2.2 d1 (by omega) hu2) ?_)
    intro c2 d2
    exact finishDE_distinct hsl c2 dn.2.2 d2 (by omega) (by omega)

theorem sort8E_distinct [Inhabited α] (cmp : Nat → α → α → Option Bool)
    (c : Nat) (v : List α) : distinctT ((sort8E cmp c v).2.2) := by
  unfold sort8E
  refine distinctT_bindE (sort4E_distinct _ _ _) (fun c1 v1 =>
    distinctT_bindE (distinctT_applyInE (fun c w => sort4E_distinct _ _ _))
      (fun c2 v2 => ?_))
  have hne : (Loc.arr 4 : Loc) ≠ Loc.arr 3 := by simp
  cases cmp c2 (gD v2 4) (gD v2 3) with
  | none => exact distinctT_single hne
  | some b =>
    cases b with
    | true =>
      exact distinctT_consT hne (parity_merge8E_distinct
        (by intro i j h1 h2; simp only [ne_eq, Loc.swp.injEq]; omega) _ _ _)
    | false => exact distinctT_single hne

theorem sort16_mergeE_distinct [Inhabited α] (cmp : Nat → α → α → Option Bool)
    (c : Nat) (v : List α) : distinctT ((sort16_mergeE cmp c v).2.2) := by
  have hA : ∀ i j, i < 4 → 4 ≤ j → (Loc.arr i : Loc) ≠ Loc.arr j := by
    intro i j h1 h2; simp only [ne_eq, Loc.arr.injEq]; omega
  have hB : ∀ i j, i < 4 → 4 ≤ j →
      ((fun i => Loc.arr (i + 8)) i : Loc) ≠ (fun i => Loc.arr (i + 8)) j := by
    intro i j h1 h2; simp only [ne_eq, Loc.arr.injEq]; omega
  have hS : ∀ i j, i < 16 / 2 → 16 / 2 ≤ j → (Loc.swp i : Loc) ≠ Loc.swp j := by
    intro i j h1 h2; simp only [ne_eq, Loc.swp.injEq]; omega
  unfold sort16_mergeE
  have h1 := @parity_merge8E_distinct α _ cmp Loc.arr hA (v.take 8) c (v.take 16)
  rcases hr1 : parity_merge8E cmp Loc.arr (v.take 8) c (v.take 16)
    with ⟨e1, c1, t1⟩
  rw [hr1] at h1
  cases e1 with
  | error w => exact h1
  | ok swp1 =>
    dsimp only
    have h2 := @parity_merge8E_distinct α _ cmp (fun i => Loc.arr (i + 8)) hB
      ((v.drop 8).take 8) c1 ((swp1.drop 8).take 8)
    rcases hr2 : parity_merge8E cmp (fun i => Loc.arr (i + 8))
        ((v.drop 8).take 8) c1 ((swp1.drop 8).take 8) with ⟨e2, c2, t2⟩
    rw [hr2] at h2
    cases e2 with
    | error w => exact distinctT_append h1 h2
    | ok s2 =>
      dsimp only
      have h3 := @parity_mergeE_distinct α _ cmp Loc.swp 16 hS (by decide)
        (swp1.take 8 ++ s2) c2 v
      rcases hr3 : parity_mergeE cmp Loc.swp (swp1.take 8 ++ s2) c2 v 16
        with ⟨e3, c3, t3⟩
      rw [hr3] at h3
      exact distinctT_append (distinctT_append h1 h2) h3

theorem sort16E_distinct [Inhabited α] (cmp : Nat → α → α → Option Bool)
    (c : Nat) (v : List α) : distinctT ((sort16E cmp c v).2.2) := by
  unfold sort16E
  refine distinctT_bindE (sort4E_distinct _ _ _) (fun c1 v1 =>
    distinctT_bindE (distinctT_applyInE (fun c w => sort4E_distinct _ _ _))
      (fun c2 v2 =>
    distinctT_bindE (distinctT_applyInE (fun c w => sort4E_distinct _ _ _))
      (fun c3 v3 =>
    distinctT_bindE (distinctT_applyInE (fun c w => sort4E_distinct _ _ _))
      (fun c4 v4 => ?_))))
  have h43 : (Loc.arr 4 : Loc) ≠ Loc.arr 3 := by simp
  have h87 : (Loc.arr 8 : Loc) ≠ Loc.arr 7 := by simp
  have h1211 : (Loc.arr 12 : Loc) ≠ Loc.arr 11 := by simp
  cases cmp c4 (gD v4 4) (gD v4 3) with
  | none => exact distinctT_single h43
  | some b1 =>
    cases b1 with
    | true => exact distinctT_consT h43 (sort16_mergeE_distinct _ _ _)
    | false =>
      cases cmp (c4 + 1) (gD v4 8) (gD v4 7) with
      | none => exact distinctT_cons h43 (distinctT_single h87)
      | some b2 =>
        cases b2 with
        | true =>
          exact distinctT_addT
            (distinctT_cons h43 (distinctT_single h87))
            (sort16_mergeE_distinct _ _ _)
        | false =>
          cases cmp (c4 + 2) (gD v4 12) (gD v4 11) with
          | none =>
            exact distinctT_cons h43 (distinctT_cons h87
              (distinctT_single h1211))
          | some b3 =>
            cases b3 with
            | true =>
              exact distinctT_addT (distinctT_cons h43 (distinctT_cons h87
                (distinctT_single h1211))) (sort16_mergeE_distinct _ _ _)
            | false =>
              exact distinctT_cons h43 (distinctT_cons h87
                (distinctT_single h1211))

/-- The ok-outcome length of an effectful result. -/
def okLen (r : ResB α) (n : Nat) : Prop := ∀ w, r.1 = .ok w → w.length = n

theorem okLen_consT {p : Loc × Loc} {r : ResB α} {n : Nat}
    (h : okLen r n) : okLen (consT p r) n := h

theorem okLen_it_walkE [Inhabited α] (cmp : Nat → α → α → Option Bool)
    (tmp : α) : ∀ (j c : Nat) (w : List α),
      okLen (it_walkE cmp tmp j c w) w.length
  | 0, c, w => by
    intro w' h
    obtain rfl : w.set 0 tmp = w' := by simpa [it_walkE] using h
    simp
  | j + 1, c, w => by
    unfold it_walkE
    cases cmp c tmp (gD w j) with
    | none => intro w' h; exact absurd h (by simp)
    | some b =>
      cases b with
      | true =>
        intro w' h
        have := okLen_it_walkE cmp tmp j (c + 1) (w.set (j + 1) (gD w j)) w' h
        simpa using this
      | false =>
        intro w' h
        obtain rfl : w.set (j + 1) tmp = w' := by simpa using h
        simp

theorem okLen_insert_tailE [Inhabited α] (cmp : Nat → α → α → Option Bool)
    (c : Nat) (v : List α) : okLen (insert_tailE cmp c v) v.length := by
  simp only [insert_tailE]
  cases cmp c (gD v (v.length - 1)) (gD v (v.length - 1 - 1)) with
  | none => intro w h; exact absurd h (by simp)
  | some b =>
    cases b with
    | true =>
      intro w h
      have := okLen_it_walkE cmp (gD v (v.length - 1)) (v.length - 1 - 1)
        (c + 1) (v.set (v.length - 1) (gD v (v.length - 1 - 1))) w h
      simpa using this
    | false =>
      intro w h
      obtain rfl : v = w := by simpa using h
      rfl

theorem okLen_applyInE_tail [Inhabited α] (cmp : Nat → α → α → Option Bool)
    (i : Nat) (v : List α) (c : Nat) :
    okLen (applyInE 0 (i + 1) (insert_tailE cmp) v c) v.length := by
  unfold applyInE
  rcases hr : insert_tailE cmp c ((v.drop 0).take (i + 1 - 0)) with ⟨e, c', t⟩
  have hl := okLen_insert_tailE cmp c ((v.drop 0).take (i + 1 - 0))
  rw [hr] at hl
  cases e with
  | error w => intro w' h; exact absurd h (by simp)
  | ok w =>
    intro w' h
    obtain rfl : v.take 0 ++ w ++ v.drop (i + 1) = w' := by simpa using h
    have hw := hl w rfl
    simp only [List.length_append, List.length_take, List.length_drop,
      List.drop_zero] at hw ⊢
    omega

theorem isr_loopE_distinct [Inhabited α] (cmp : Nat → α → α → Option Bool) :
    ∀ (n c : Nat) (v : List α) (i : Nat), 1 ≤ i → 2 ≤ v.length →
      distinctT ((isr_loopE cmp n c v i).2.2)
  | 0, c, v, i => fun _ _ => distinctT_nil
  | n + 1, c, v, i => by
    intro hi hv
    unfold isr_loopE
    rcases hr : applyInE 0 (i + 1) (insert_tailE cmp) v c with ⟨e, c', t⟩
    have hd : distinctT t := by
      have := distinctT_applyInE_at
        (insert_tailE_distinct cmp c ((v.drop 0).take (i + 1 - 0))
          (by simp only [List.length_take, List.length_drop]; omega))
      rw [hr] at this
      exact this
    have hl := okLen_applyInE_tail cmp i v c
    rw [hr] at hl
    cases e with
    | error w => exact hd
    | ok w =>
      refine distinctT_append hd ?_
      exact isr_loopE_distinct cmp n c' w (i + 1) (by omega)
        (by rw [hl w rfl]; exact hv)

theorem insertion_sort_remainingE_distinct [Inhabited α]
    (cmp : Nat → α → α → Option Bool) (c : Nat) (v : List α) (offset : Nat) :
    distinctT ((insertion_sort_remainingE cmp c v offset).2.2) := by
  unfold insertion_sort_remainingE
  split
  · exact distinctT_nil
  · next h =>
    push_neg at h
    exact isr_loopE_distinct cmp (v.length - offset) c v offset
      (by omega) (by omega)

theorem insert_head_loopE_distinct [Inhabited α]
    (cmp : Nat → α → α → Option Bool) : ∀ (k c : Nat) (v : List α),
      distinctT ((insert_head_loopE cmp k c v).2.2)
  | 0, c, v => distinctT_nil
  | k + 1, c, v => by
    unfold insert_head_loopE
    exact distinctT_bindE
      (distinctT_applyInE (fun c w => insert_headE_distinct cmp c w))
      (fun c' v' => insert_head_loopE_distinct cmp k c' v')

theorem sort_smallE_distinct [Inhabited α] (cmp : Nat → α → α → Option Bool)
    (isCopy : Bool) (c : Nat) (v : List α) :
    distinctT ((sort_smallE cmp isCopy c v).2.2) := by
  unfold sort_smallE
  split
  · exact distinctT_nil
  split
  · split
    · exact snifE_distinct _ _ _ _
    split
    · exact sort3E_distinct _ _ _
    split
    · exact distinctT_bindE (sort4E_distinct _ _ _)
        (fun c' v' => insertion_sort_remainingE_distinct _ _ _ _)
    split
    · exact distinctT_bindE (sort8E_distinct _ _ _)
        (fun c' v' => insertion_sort_remainingE_distinct _ _ _ _)
    · exact distinctT_bindE (sort16E_distinct _ _ _)
        (fun c' v' => insertion_sort_remainingE_distinct _ _ _ _)
  · exact insert_head_loopE_distinct _ _ _ _

theorem descWhileE_distinct [Inhabited α] (cmp : Nat → α → α → Option Bool)
    (v : List α) : ∀ (s c : Nat), distinctT ((descWhileE cmp v s c).2.2)
  | 0, c => distinctT_nil
  | s + 1, c => by
    unfold descWhileE
    have hne : (Loc.arr (s + 1) : Loc) ≠ Loc.arr s := by simp
    cases cmp c (gD v (s + 1)) (gD v s) with
    | none => exact distinctT_single hne
    | some b =>
      cases b with
      | true =>
        have := descWhileE_distinct cmp v s (c + 1)
        rcases hr : descWhileE cmp v s (c + 1) with ⟨r, c', t⟩
        rw [hr] at this
        exact distinctT_cons hne this
      | false => exact distinctT_single hne

theorem ascendWhileE_distinct [Inhabited α] (cmp : Nat → α → α → Option Bool)
    (v : List α) : ∀ (s c : Nat), distinctT ((ascendWhileE cmp v s c).2.2)
  | 0, c => distinctT_nil
  | s + 1, c => by
    unfold ascendWhileE
    have hne : (Loc.arr (s + 1) : Loc) ≠ Loc.arr s := by simp
    cases cmp c (gD v (s + 1)) (gD v s) with
    | none => exact distinctT_single hne
    | some b =>
      cases b with
      | true => exact distinctT_single hne
      | false =>
        have := ascendWhileE_distinct cmp v s (c + 1)
        rcases hr : ascendWhileE cmp v s (c + 1) with ⟨r, c', t⟩
        rw [hr] at this
        exact distinctT_cons hne this

theorem find_runE_distinct [Inhabited α] (cmp : Nat → α → α → Option Bool)
    (c : Nat) (v : List α) (e : Nat) :
    distinctT ((find_runE cmp c v e).2.2) := by
  simp only [find_runE]
  split
  · have hne : (Loc.arr (e - 1 - 1 + 1) : Loc) ≠ Loc.arr (e - 1 - 1) := by
      simp
    cases cmp c (gD v (e - 1 - 1 + 1)) (gD v (e - 1 - 1)) with
    | none => exact distinctT_single hne
    | some b =>
      cases b with
      | true =>
        have hd := descWhileE_distinct cmp v (e - 1 - 1) (c + 1)
        rcases hr : descWhileE cmp v (e - 1 - 1) (c + 1) with ⟨r, c', t⟩
        rw [hr] at hd
        cases r with
        | error w => exact distinctT_cons hne hd
        | ok s => exact distinctT_cons hne hd
      | false =>
        have hd := ascendWhileE_distinct cmp v (e - 1 - 1) (c + 1)
        rcases hr : ascendWhileE cmp v (e - 1 - 1) (c + 1) with ⟨r, c', t⟩
        rw [hr] at hd
        cases r with
        | error w => exact distinctT_cons hne hd
        | ok s => exact distinctT_cons hne hd
  · exact distinctT_nil

theorem pb_insert_loopE_distinct [Inhabited α]
    (cmp : Nat → α → α → Option Bool) (e start' : Nat) :
    ∀ (n c : Nat) (v : List α),
      distinctT ((pb_insert_loopE cmp e start' n c v).2.2)
  | 0, c, v => distinctT_nil
  | n + 1, c, v => by
    unfold pb_insert_loopE
    exact distinctT_bindE
      (distinctT_applyInE (fun c w => insert_headE_distinct cmp c w))
      (fun c' v' => pb_insert_loopE_distinct cmp e start' n c' v')

theorem provide_sorted_batchE_distinct [Inhabited α]
    (cmp : Nat → α → α → Option Bool) (isCopy : Bool) (c : Nat)
    (v : List α) (start e : Nat) :
    distinctT ((provide_sorted_batchE cmp isCopy c v start e).2.2) := by
  simp only [provide_sorted_batchE]
  split
  · rcases hr1 : applyInE (start - 16) start (sort16E cmp) v c
      with ⟨e1, c1, t1⟩
    have h1 : distinctT t1 := by
      have := @distinctT_applyInE _ (start - 16) start (sort16E cmp) v c
        (fun c w => sort16E_distinct cmp c w)
      rw [hr1] at this
      exact this
    cases e1 with
    | error w => exact h1
    | ok v1 =>
      dsimp only
      rcases hr2 : applyInE (start - 16) e
          (fun c2 w => insertion_sort_remainingE cmp c2 w 16) v1 c1
        with ⟨e2, c2, t2⟩
      have h2 : distinctT t2 := by
        have := @distinctT_applyInE _ (start - 16) e
          (fun c2 w => insertion_sort_remainingE cmp c2 w 16) v1 c1
          (fun c w => insertion_sort_remainingE_distinct cmp c w 16)
        rw [hr2] at this
        exact this
      cases e2 with
      | error w => exact distinctT_append h1 h2
      | ok v2 => exact distinctT_append h1 h2
  split
  · rcases hr : pb_insert_loopE cmp e (start - (10 - (e - start)))
        (start - (start - (10 - (e - start)))) c v with ⟨e1, c1, t1⟩
    have h1 := pb_insert_loopE_distinct cmp e (start - (10 - (e - start)))
      (start - (start - (10 - (e - start)))) c v
    rw [hr] at h1
    cases e1 with
    | error w => exact h1
    | ok v1 => exact h1
  · exact distinctT_nil

theorem mergeFwdE_distinct [Inhabited α] (cmp : Nat → α → α → Option Bool)
    (buf : List α) (mid len : Nat) :
    ∀ (fuel c lc rc : Nat) (w : List α),
      distinctT ((mergeFwdE cmp buf mid len fuel c lc rc w).2.2)
  | 0, c, lc, rc, w => distinctT_nil
  | fuel + 1, c, lc, rc, w => by
    unfold mergeFwdE
    have hne : (Loc.arr rc : Loc) ≠ Loc.buf lc := by simp
    split
    · cases cmp c (gD w rc) (gD buf lc) with
      | none => exact distinctT_single hne
      | some b =>
        cases b with
        | true =>
          exact distinctT_consT hne
            (mergeFwdE_distinct cmp buf mid len fuel _ _ _ _)
        | false =>
          exact distinctT_consT hne
            (mergeFwdE_distinct cmp buf mid len fuel _ _ _ _)
    · exact distinctT_nil

theorem mergeBackE_distinct [Inhabited α] (cmp : Nat → α → α → Option Bool)
    (buf : List α) : ∀ (fuel c l rr : Nat) (w : List α),
      distinctT ((mergeBackE cmp buf fuel c l rr w).2.2)
  | 0, c, l, rr, w => distinctT_nil
  | fuel + 1, c, l, rr, w => by
    unfold mergeBackE
    have hne : (Loc.buf (rr - 1) : Loc) ≠ Loc.arr (l - 1) := by simp
    split
    · cases cmp c (gD buf (rr - 1)) (gD w (l - 1)) with
      | none => exact distinctT_single hne
      | some b =>
        cases b with
        | true =>
          exact distinctT_consT hne (mergeBackE_distinct cmp buf fuel _ _ _ _)
        | false =>
          exact distinctT_consT hne (mergeBackE_distinct cmp buf fuel _ _ _ _)
    · exact distinctT_nil

theorem mergeE_distinct [Inhabited α] (cmp : Nat → α → α → Option Bool)
    (c : Nat) (v : List α) (mid : Nat) :
    distinctT ((mergeE cmp c v mid).2.2) := by
  unfold mergeE
  split
  · exact mergeFwdE_distinct cmp _ _ _ _ _ _ _ _
  · exact mergeBackE_distinct cmp _ _ _ _ _ _

theorem collapse_loopE_distinct [Inhabited α]
    (cmp : Nat → α → α → Option Bool) : ∀ (fuel c : Nat) (v : List α)
      (runs : List Run), distinctT ((collapse_loopE cmp fuel c v runs).2.2)
  | 0, c, v, runs => distinctT_nil
  | fuel + 1, c, v, runs => by
    unfold collapse_loopE
    cases collapse runs with
    | none => exact distinctT_nil
    | some r =>
      dsimp only
      rcases hr : applyInE (runs.getD (r + 1) ⟨0, 0⟩).start
          ((runs.getD r ⟨0, 0⟩).start + (runs.getD r ⟨0, 0⟩).len)
          (fun c' w => mergeE cmp c' w (runs.getD (r + 1) ⟨0, 0⟩).len) v c
        with ⟨e1, c1, t1⟩
      have h1 : distinctT t1 := by
        have := @distinctT_applyInE _ (runs.getD (r + 1) ⟨0, 0⟩).start
          ((runs.getD r ⟨0, 0⟩).start + (runs.getD r ⟨0, 0⟩).len)
          (fun c' w => mergeE cmp c' w (runs.getD (r + 1) ⟨0, 0⟩).len) v c
          (fun c' w => mergeE_distinct cmp c' w (runs.getD (r + 1) ⟨0, 0⟩).len)
        rw [hr] at this
        exact this
      cases e1 with
      | error w => exact h1
      | ok v1 =>
        dsimp only
        rcases hr2 : collapse_loopE cmp fuel c1 v1
            ((runs.set r ⟨(runs.getD (r + 1) ⟨0, 0⟩).len +
                (runs.getD r ⟨0, 0⟩).len,
              (runs.getD (r + 1) ⟨0, 0⟩).start⟩).eraseIdx (r + 1))
          with ⟨e2, c2, t2⟩
        have h2 := collapse_loopE_distinct cmp fuel c1 v1
          ((runs.set r ⟨(runs.getD (r + 1) ⟨0, 0⟩).len +
              (runs.getD r ⟨0, 0⟩).len,
            (runs.getD (r + 1) ⟨0, 0⟩).start⟩).eraseIdx (r + 1))
        rw [hr2] at h2
        exact distinctT_append h1 h2

theorem merge_sort_loopE_distinct [Inhabited α]
    (cmp : Nat → α → α → Option Bool) (isCopy : Bool) :
    ∀ (fuel c : Nat) (v : List α) (runs : List Run) (e : Nat),
      distinctT ((merge_sort_loopE cmp isCopy fuel c v runs e).2.2)
  | 0, c, v, runs, e => distinctT_nil
  | fuel + 1, c, v, runs, e => by
    unfold merge_sort_loopE
    split
    · rcases hr1 : find_runE cmp c v e with ⟨e1, c1, t1⟩
      have h1 := find_runE_distinct cmp c v e
      rw [hr1] at h1
      cases e1 with
      | error w => exact h1
      | ok p1 =>
        obtain ⟨s1, v1⟩ := p1
        dsimp only
        rcases hr2 : provide_sorted_batchE cmp isCopy c1 v1 s1 e
          with ⟨e2, c2, t2⟩
        have h2 := provide_sorted_batchE_distinct cmp isCopy c1 v1 s1 e
        rw [hr2] at h2
        cases e2 with
        | error w => exact distinctT_append h1 h2
        | ok p2 =>
          obtain ⟨s2, v2⟩ := p2
          dsimp only
          rcases hr3 : collapse_loopE cmp (runs.length + 1) c2 v2
              (runs ++ [⟨e - s2, s2⟩]) with ⟨e3, c3, t3⟩
          have h3 := collapse_loopE_distinct cmp (runs.length + 1) c2 v2
            (runs ++ [⟨e - s2, s2⟩])
          rw [hr3] at h3
          rw [hr3]
          cases e3 with
          | error w => exact distinctT_append (distinctT_append h1 h2) h3
          | ok p3 =>
            obtain ⟨v3, runs3⟩ := p3
            dsimp only
            exact distinctT_append (distinctT_append (distinctT_append h1 h2)
              h3) (merge_sort_loopE_distinct cmp isCopy fuel c3 v3 runs3 s2)
    · exact distinctT_nil

/-- C4: sort and sort_by never invoke the comparator with both arguments
referring to the same storage slot: for every comparator (panicking or not),
every input, and both relocatability classes, every pair in the trace of
compared slot pairs consists of two distinct slots — on every code path:
run detection, insertion sort, the branchless networks and both merge
kinds. -/
theorem claim_C4_no_self_comparison [Inhabited α]
    (cmp : Nat → α → α → Option Bool) (isZst isCopy : Bool) (c : Nat)
    (v : List α) : distinctT ((stable_sortE cmp isZst isCopy c v).2.2) := by
  unfold stable_sortE
  split
  · exact distinctT_nil
  · unfold merge_sortE
    split
    · exact distinctT_nil
    split
    · exact sort_smallE_distinct cmp isCopy c v
    · exact merge_sort_loopE_distinct cmp isCopy v.length c v [] v.length

/-! ### Comparison count and buffer size of merge -/

theorem mergeFwdE_count [Inhabited α] (cmp : Nat → α → α → Option Bool)
    (buf : List α) (mid len : Nat) : ∀ (fuel c lc rc : Nat) (w : List α),
      ((mergeFwdE cmp buf mid len fuel c lc rc w).2.2).length ≤
        (mid - lc) + (len - rc) - 1
  | 0, c, lc, rc, w => by simp [mergeFwdE]
  | fuel + 1, c, lc, rc, w => by
    unfold mergeFwdE
    split
    · next hg =>
      split
      · simp only [List.length_cons, List.length_nil]
        omega
      · split
        · have := mergeFwdE_count cmp buf mid len fuel (c + 1) lc (rc + 1)
            (w.set (lc + rc - mid) (gD w rc))
          simp only [consT, List.length_cons]
          omega
        · have := mergeFwdE_count cmp buf mid len fuel (c + 1) (lc + 1) rc
            (w.set (lc + rc - mid) (gD buf lc))
          simp only [consT, List.length_cons]
          omega
    · simp

theorem mergeBackE_count [Inhabited α] (cmp : Nat → α → α → Option Bool)
    (buf : List α) : ∀ (fuel c l rr : Nat) (w : List α),
      ((mergeBackE cmp buf fuel c l rr w).2.2).length ≤ l + rr - 1
  | 0, c, l, rr, w => by simp [mergeBackE]
  | fuel + 1, c, l, rr, w => by
    unfold mergeBackE
    split
    · next hg =>
      split
      · simp only [List.length_cons, List.length_nil]
        omega
      · split
        · have := mergeBackE_count cmp buf fuel (c + 1) (l - 1) rr
            (w.set (l + rr - 1) (gD w (l - 1)))
          simp only [consT, List.length_cons]
          omega
        · have := mergeBackE_count cmp buf fuel (c + 1) l (rr - 1)
            (w.set (l + rr - 1) (gD buf (rr - 1)))
          simp only [consT, List.length_cons]
          omega
    · simp

/-- C7: on a contiguous range of length n = v.length holding two adjacent
runs of lengths mid and n - mid, the internal merge invokes the comparator
at most n - 1 times (hence at most m + n - 1 times for every reading of the
claim's bound), and the scratch buffer receives exactly the shorter of the
two runs — min mid (n - mid) elements, at most n / 2. -/
theorem claim_C7_merge_cost [Inhabited α] (cmp : Nat → α → α → Option Bool)
    (c : Nat) (v : List α) (mid : Nat) (h1 : 1 ≤ mid) (h2 : mid < v.length) :
    ((mergeE cmp c v mid).2.2).length ≤ v.length - 1 ∧
    (mergeBufE v mid).length = min mid (v.length - mid) ∧
    (mergeBufE v mid).length ≤ v.length / 2 ∧
    (mid ≤ v.length - mid → mergeBufE v mid = v.take mid) ∧
    (v.length - mid < mid → mergeBufE v mid = v.drop mid) := by
  refine ⟨?_, ?_, ?_, ?_, ?_⟩
  · unfold mergeE
    split
    · next hb =>
      exact (mergeFwdE_count cmp (v.take mid) mid v.length v.length c 0 mid
        v).trans (by omega)
    · next hb =>
      exact (mergeBackE_count cmp (v.drop mid) v.length c mid
        (v.length - mid) v).trans (by omega)
  · unfold mergeBufE
    split
    · next hb => simp only [List.length_take]; omega
    · next hb => simp only [List.length_drop]; omega
  · unfold mergeBufE
    split
    · next hb => simp only [List.length_take]; omega
    · next hb => simp only [List.length_drop]; omega
  · intro h
    unfold mergeBufE
    rw [if_pos h]
  · intro h
    unfold mergeBufE
    rw [if_neg (by omega)]

theorem claim_C7_witness :
    (1 ≤ 1 ∧ 1 < ([2, 1] : List Int).length) ∧
    (((mergeE (fun _ (a b : Int) => some (decide (a < b))) 0 [2, 1]
        1).2.2).length ≤ ([2, 1] : List Int).length - 1 ∧
      (mergeBufE ([2, 1] : List Int) 1).length =
        min 1 (([2, 1] : List Int).length - 1) ∧
      (mergeBufE ([2, 1] : List Int) 1).length ≤
        ([2, 1] : List Int).length / 2 ∧
      (1 ≤ ([2, 1] : List Int).length - 1 →
        mergeBufE ([2, 1] : List Int) 1 = ([2, 1] : List Int).take 1) ∧
      (([2, 1] : List Int).length - 1 < 1 →
        mergeBufE ([2, 1] : List Int) 1 = ([2, 1] : List Int).drop 1)) :=
  ⟨⟨by decide, by decide⟩,
    claim_C7_merge_cost (fun _ (a b : Int) => some (decide (a < b))) 0 [2, 1]
      1 (by decide) (by decide)⟩

/-! ### The foreign-backend wrappers (cpp_pdqsort, cpp_std_stable) -/

/-- The element widths with specialized wrapper impls; every other element
type hits the default specialization. -/
inductive FType
  | i32
  | u64
  | other
deriving DecidableEq, Repr

def supported : FType → Bool
  | .i32 => true
  | .u64 => true
  | .other => false

/-- cpp_pdqsort wrapper dispatch: the specialized impls hand the slice to
the foreign sort; the default impl panics "Type not supported" without
touching the slice. -/
def pdqSortDispatch (t : FType) (ffi : List α → List α) (v : List α) :
    Except (String × List α) (List α) :=
  match t with
  | .i32 => .ok (ffi v)
  | .u64 => .ok (ffi v)
  | .other => .error ("Type not supported", v)

/-- cpp_std_stable wrapper dispatch: same shape as the pdqsort wrapper. -/
def cppSortDispatch (t : FType) (ffi : List α → List α) (v : List α) :
    Except (String × List α) (List α) :=
  match t with
  | .i32 => .ok (ffi v)
  | .u64 => .ok (ffi v)
  | .other => .error ("Type not supported", v)

/-- C9: for every element type other than the supported fixed widths (i32
and u64), both foreign-backend wrappers report failure by panicking
"Type not supported" while leaving the sequence unchanged; the core generic
path has no such restriction: for any element type and any strict-weak-order
comparator it sorts to the reference result. -/
theorem claim_C9_wrapper_unsupported_panics [Inhabited α]
    (t : FType) (ffi : List α → List α) (v : List α)
    (hU : supported t = false) (lt : α → α → Bool) (hs : SWO lt)
    (isCopy : Bool) :
    pdqSortDispatch t ffi v = .error ("Type not supported", v) ∧
    cppSortDispatch t ffi v = .error ("Type not supported", v) ∧
    stable_sortA lt false isCopy v = refSort lt v := by
  have ht : t = FType.other := by
    cases t
    · exact absurd hU (by simp [supported])
    · exact absurd hU (by simp [supported])
    · rfl
  subst ht
  exact ⟨rfl, rfl, stable_sortA_eq_refSort hs false isCopy v (by simp)⟩

theorem claim_C9_witness :
    (supported FType.other = false ∧ SWO (fun a b : Bool => decide (a < b))) ∧
    (pdqSortDispatch FType.other id [true, false] =
        .error ("Type not supported", [true, false]) ∧
      cppSortDispatch FType.other id [true, false] =
        .error ("Type not supported", [true, false]) ∧
      stable_sortA (fun a b : Bool => decide (a < b)) false true
          [true, false] =
        refSort (fun a b : Bool => decide (a < b)) [true, false]) :=
  ⟨⟨rfl, swo_lt_decide⟩,
    claim_C9_wrapper_unsupported_panics FType.other id [true, false] rfl
      (fun a b : Bool => decide (a < b)) swo_lt_decide true⟩

/-! ### Panic safety of the non-Copy path: multiset preservation -/

theorem gD_set_ne [Inhabited α] {l : List α} {i j : Nat} (h : i ≠ j)
    (x : α) : gD (l.set i x) j = gD l j := by
  simp only [gD, List.getD_eq_getElem?_getD]
  rw [List.getElem?_set_ne h]

theorem gD_set_self [Inhabited α] {l : List α} {i : Nat} (h : i < l.length)
    (x : α) : gD (l.set i x) i = x := by
  simp only [gD, List.getD_eq_getElem?_getD]
  rw [List.getElem?_set_self h]
  rfl

theorem take_set_last {l : List α} {i : Nat} (h : i < l.length) (x : α) :
    (l.set i x).take (i + 1) = l.take i ++ [x] := by
  rw [List.set_eq_take_cons_drop _ h]
  rw [List.take_append_eq_append_take]
  rw [List.take_of_length_le (by simp only [List.length_take]; omega)]
  rw [show i + 1 - (l.take i).length = 1 by
    simp only [List.length_take]; omega]
  simp

theorem drop_set_of_lt {l : List α} {i j : Nat} (h : i < j) (x : α) :
    (l.set i x).drop j = l.drop j := by
  rw [List.drop_set, if_pos h]

theorem drop_set_self {l : List α} {i : Nat} (h : i < l.length) (x : α) :
    (l.set i x).drop i = x :: l.drop (i + 1) := by
  rw [List.set_eq_take_cons_drop _ h]
  rw [List.drop_append_eq_append_drop]
  rw [List.drop_eq_nil_of_le (by simp only [List.length_take]; omega)]
  rw [show i - (l.take i).length = 0 by simp only [List.length_take]; omega]
  simp

theorem take_set_of_le {l : List α} {i j : Nat} (h : j ≤ i) (x : α) :
    (l.set i x).take j = l.take j := by
  rcases Nat.lt_or_ge i l.length with hi | hi
  · rw [List.set_eq_take_cons_drop _ hi]
    rw [List.take_append_eq_append_take]
    rw [show j - (l.take i).length = 0 by simp only [List.length_take]; omega]
    rw [List.take_take, Nat.min_eq_left h]
    simp
  · rw [List.set_eq_of_length_le hi]

/-- Writing the values of two positions crosswise is a permutation (the two
copy steps of one adjacent shift of an insertion walk). -/
theorem set_set_swap_perm [Inhabited α] (v : List α) (a b : Nat)
    (hab : a < b) (hb : b < v.length) :
    ((v.set a (gD v b)).set b (gD v a)).Perm v := by
  have ha : a < v.length := by omega
  have hlta : (v.take a).length = a := by
    simp only [List.length_take]; omega
  have hidx : b - a - 1 < (v.drop (a + 1)).length := by
    simp only [List.length_drop]; omega
  have hgd : gD (v.drop (a + 1)) (b - a - 1) = gD v b := by
    rw [gD_eq_getElem hidx, gD_eq_getElem hb, List.getElem_drop]
    congr 1
    omega
  have hL : (v.set a (gD v b)).set b (gD v a)
      = v.take a ++ gD v b :: ((v.drop (a + 1)).take (b - a - 1)
          ++ gD v a :: (v.drop (a + 1)).drop (b - a)) := by
    rw [List.set_eq_take_cons_drop _ ha]
    rw [List.set_append, if_neg (by rw [hlta]; omega), hlta]
    rw [show b - a = (b - a - 1) + 1 by omega, List.set_cons_succ]
    rw [List.set_eq_take_cons_drop _ hidx]
    rw [show b - a - 1 + 1 = b - a by omega]
  have hR : v = v.take a ++ gD v a :: ((v.drop (a + 1)).take (b - a - 1)
      ++ gD v b :: (v.drop (a + 1)).drop (b - a)) := by
    conv_lhs => rw [← List.take_append_drop a v]
    congr 1
    rw [drop_eq_gD_cons ha]
    congr 1
    conv_lhs =>
      rw [← List.take_append_drop (b - a - 1) (v.drop (a + 1))]
    congr 1
    rw [drop_eq_gD_cons hidx, hgd, show b - a - 1 + 1 = b - a by omega]
  rw [hL]
  conv_rhs => rw [hR]
  refine List.Perm.append_left _ ?_
  exact (List.Perm.cons _ List.perm_middle).trans
    ((List.Perm.swap _ _ _).trans (List.Perm.cons _ List.perm_middle.symm))

/-- In-place reversal of a window is a permutation. -/
theorem reverseRange_perm {v : List α} {s e : Nat} (hse : s ≤ e) :
    (reverseRange v s e).Perm v := by
  unfold reverseRange
  conv_rhs => rw [← List.take_append_drop s v]
  rw [List.append_assoc]
  refine List.Perm.append_left _ ?_
  have hd : v.drop s = (v.drop s).take (e - s) ++ v.drop e := by
    conv_lhs => rw [← List.take_append_drop (e - s) (v.drop s)]
    rw [List.drop_drop, show s + (e - s) = e by omega]
  conv_rhs => rw [hd]
  exact List.Perm.append_right _ (List.reverse_perm _)

/-- Every outcome of an effectful call — the final array or the post-unwind
array — is related to the input this way. -/
def outPerm (r : ResB α) (v : List α) : Prop :=
  match r.1 with
  | .ok w => w.Perm v
  | .error w => w.Perm v

theorem outPerm_def {r : ResB α} {v : List α} (h : outPerm r v) :
    ∀ w, (r.1 = .ok w ∨ r.1 = .error w) → w.Perm v := by
  intro w hw
  unfold outPerm at h
  rcases hw with hw | hw <;> rw [hw] at h <;> exact h

theorem outPerm_of_eq {r : ResB α} {v : List α}
    (h : ∀ w, (r.1 = .ok w ∨ r.1 = .error w) → w.Perm v) : outPerm r v := by
  unfold outPerm
  rcases hr : r.1 with w | w
  · exact h w (Or.inr hr)
  · exact h w (Or.inl hr)

theorem outPerm_consT {p : Loc × Loc} {r : ResB α} {v : List α}
    (h : outPerm r v) : outPerm (consT p r) v := h

theorem outPerm_addT {t : List (Loc × Loc)} {r : ResB α} {v : List α}
    (h : outPerm r v) : outPerm (addT t r) v := h

theorem outPerm_trans {r : ResB α} {w v : List α} (h1 : outPerm r w)
    (h2 : w.Perm v) : outPerm r v := by
  unfold outPerm at h1 ⊢
  rcases hr : r.1 with z | z <;> rw [hr] at h1 <;> exact h1.trans h2

theorem outPerm_bindE {r : ResB α} {f : Nat → List α → ResB α} {v : List α}
    (h1 : outPerm r v) (h2 : ∀ c w, r.1 = .ok w → outPerm (f c w) w) :
    outPerm (bindE r f) v := by
  obtain ⟨e, c, t⟩ := r
  cases e with
  | error w => exact h1
  | ok w =>
    have hp : w.Perm v := by
      unfold outPerm at h1
      exact h1
    exact outPerm_addT (outPerm_trans (h2 c w rfl) hp)

theorem outPerm_applyInE {i j : Nat} {f : Nat → List α → ResB α}
    {v : List α} {c : Nat} (hij : i ≤ j)
    (hf : ∀ c, outPerm (f c ((v.drop i).take (j - i)))
      ((v.drop i).take (j - i))) :
    outPerm (applyInE i j f v c) v := by
  have key : ∀ w : List α, w.Perm ((v.drop i).take (j - i)) →
      (v.take i ++ w ++ v.drop j).Perm v := by
    intro w hw
    have h1 : (v.take i ++ w ++ v.drop j).Perm
        (v.take i ++ (v.drop i).take (j - i) ++ v.drop j) :=
      (List.Perm.append_left (v.take i) hw).append_right (v.drop j)
    have h2 : v.take i ++ (v.drop i).take (j - i) ++ v.drop j = v :=
      (eq_take_slice_drop hij).symm
    rw [h2] at h1
    exact h1
  unfold applyInE
  rcases hr : f c ((v.drop i).take (j - i)) with ⟨e, c', t⟩
  have hp := hf c
  rw [hr] at hp
  unfold outPerm at hp
  cases e with
  | error w => exact key w hp
  | ok w => exact key w hp

/-- The insert_head walk leaves, on every outcome, a permutation of "the
current array with the hole filled by the lifted value". -/
theorem ih_walkE_perm [Inhabited α] (cmp : Nat → α → α → Option Bool)
    (tmp : α) : ∀ (fuel i c : Nat) (w : List α), 1 ≤ i →
      fuel + i ≤ w.length →
      outPerm (ih_walkE cmp tmp fuel i c w) (w.set (i - 1) tmp)
  | 0, i, c, w => by
    intro h1 h2
    unfold ih_walkE
    exact List.Perm.refl _
  | fuel + 1, i, c, w => by
    intro h1 h2
    unfold ih_walkE
    split
    · exact List.Perm.refl _
    · split
      · have ih := ih_walkE_perm cmp tmp fuel (i + 1) (c + 1)
          (w.set (i - 1) (gD w i)) (by omega)
          (by simp only [List.length_set]; omega)
        rw [show i + 1 - 1 = i from rfl] at ih
        have hperm : ((w.set (i - 1) (gD w i)).set i tmp).Perm
            (w.set (i - 1) tmp) := by
          have hu : (w.set (i - 1) (gD w i)).set i tmp
              = ((w.set (i - 1) tmp).set (i - 1)
                  (gD (w.set (i - 1) tmp) i)).set i
                  (gD (w.set (i - 1) tmp) (i - 1)) := by
            rw [gD_set_ne (by omega), gD_set_self (by omega), List.set_set]
          rw [hu]
          exact set_set_swap_perm (w.set (i - 1) tmp) (i - 1) i (by omega)
            (by simp only [List.length_set]; omega)
        exact outPerm_consT (outPerm_trans ih hperm)
      · exact List.Perm.refl _

/-- insert_head: every outcome, including the post-unwind array, is a
permutation of the input. -/
theorem insert_headE_perm [Inhabited α] (cmp : Nat → α → α → Option Bool)
    (c : Nat) (v : List α) (hv : 2 ≤ v.length) :
    outPerm (insert_headE cmp c v) v := by
  unfold insert_headE
  split
  · exact List.Perm.refl _
  · split
    · have ih := ih_walkE_perm cmp (gD v 0) (v.length - 2) 2 (c + 1)
        (v.set 0 (gD v 1)) (by omega)
        (by simp only [List.length_set]; omega)
      rw [show (2 : Nat) - 1 = 1 from rfl] at ih
      have hperm : ((v.set 0 (gD v 1)).set 1 (gD v 0)).Perm v :=
        set_set_swap_perm v 0 1 (by omega) (by omega)
      exact outPerm_consT (outPerm_trans ih hperm)
    · exact List.Perm.refl _

theorem descWhileE_ok_le [Inhabited α] (cmp : Nat → α → α → Option Bool)
    (v : List α) : ∀ (s c s' : Nat),
      (descWhileE cmp v s c).1 = .ok s' → s' ≤ s
  | 0, c, s' => by
    intro h
    have : (0 : Nat) = s' := by simpa [descWhileE] using h
    omega
  | s + 1, c, s' => by
    unfold descWhileE
    split
    · intro h; exact absurd h (by simp)
    · split
      · intro h
        dsimp only at h
        exact (descWhileE_ok_le cmp v s (c + 1) s' h).trans (by omega)
      · intro h
        have : s + 1 = s' := by simpa using h
        omega

theorem descWhileE_error_eq [Inhabited α] (cmp : Nat → α → α → Option Bool)
    (v : List α) : ∀ (s c : Nat) (w : List α),
      (descWhileE cmp v s c).1 = .error w → w = v
  | 0, c, w => by intro h; exact absurd h (by simp [descWhileE])
  | s + 1, c, w => by
    unfold descWhileE
    split
    · intro h
      have : v = w := by simpa using h
      exact this.symm
    · split
      · intro h
        dsimp only at h
        exact descWhileE_error_eq cmp v s (c + 1) w h
      · intro h; exact absurd h (by simp)

theorem ascendWhileE_ok_le [Inhabited α] (cmp : Nat → α → α → Option Bool)
    (v : List α) : ∀ (s c s' : Nat),
      (ascendWhileE cmp v s c).1 = .ok s' → s' ≤ s
  | 0, c, s' => by
    intro h
    have : (0 : Nat) = s' := by simpa [ascendWhileE] using h
    omega
  | s + 1, c, s' => by
    unfold ascendWhileE
    split
    · intro h; exact absurd h (by simp)
    · split
      · intro h
        have : s + 1 = s' := by simpa using h
        omega
      · intro h
        dsimp only at h
        exact (ascendWhileE_ok_le cmp v s (c + 1) s' h).trans (by omega)

theorem ascendWhileE_error_eq [Inhabited α] (cmp : Nat → α → α → Option Bool)
    (v : List α) : ∀ (s c : Nat) (w : List α),
      (ascendWhileE cmp v s c).1 = .error w → w = v
  | 0, c, w => by intro h; exact absurd h (by simp [ascendWhileE])
  | s + 1, c, w => by
    unfold ascendWhileE
    split
    · intro h
      have : v = w := by simpa using h
      exact this.symm
    · split
      · intro h; exact absurd h (by simp)
      · intro h
        dsimp only at h
        exact ascendWhileE_error_eq cmp v s (c + 1) w h

/-- find_run: a panic leaves the array unchanged; a normal return yields a
permutation (the detected run possibly reversed in place) and a start
strictly below e. -/
theorem find_runE_perm [Inhabited α] (cmp : Nat → α → α → Option Bool)
    (c : Nat) (v : List α) (e : Nat) :
    (∀ w, (find_runE cmp c v e).1 = .error w → w = v) ∧
    (∀ s w, (find_runE cmp c v e).1 = .ok (s, w) →
      w.Perm v ∧ s ≤ e - 1) := by
  simp only [find_runE]
  split
  · split
    · constructor
      · intro w h
        have : v = w := by simpa using h
        exact this.symm
      · intro s w h; exact absurd h (by simp)
    · split
      · split
        · next w0 c2 t heq =>
          constructor
          · intro w h
            have hw : w0 = w := by simpa using h
            have hd := descWhileE_error_eq cmp v (e - 1 - 1) (c + 1) w0
              (by rw [heq])
            exact hw ▸ hd
          · intro s w h; exact absurd h (by simp)
        · next s0 c2 t heq =>
          constructor
          · intro w h; exact absurd h (by simp)
          · intro s w h
            obtain ⟨hs, hw⟩ : s0 = s ∧ reverseRange v s0 e = w := by
              simpa using h
            have hs0 := descWhileE_ok_le cmp v (e - 1 - 1) (c + 1) s0
              (by rw [heq])
            subst hs
            subst hw
            exact ⟨reverseRange_perm (by omega), by omega⟩
      · split
        · next w0 c2 t heq =>
          constructor
          · intro w h
            have hw : w0 = w := by simpa using h
            have hd := ascendWhileE_error_eq cmp v (e - 1 - 1) (c + 1) w0
              (by rw [heq])
            exact hw ▸ hd
          · intro s w h; exact absurd h (by simp)
        · next s0 c2 t heq =>
          constructor
          · intro w h; exact absurd h (by simp)
          · intro s w h
            obtain ⟨hs, hw⟩ : s0 = s ∧ v = w := by simpa using h
            have hs0 := ascendWhileE_ok_le cmp v (e - 1 - 1) (c + 1) s0
              (by rw [heq])
            subst hs
            subst hw
            exact ⟨List.Perm.refl _, by omega⟩
  · constructor
    · intro w h; exact absurd h (by simp)
    · intro s w h
      obtain ⟨hs, hw⟩ : e - 1 = s ∧ v = w := by simpa using h
      subst hs
      subst hw
      exact ⟨List.Perm.refl _, Nat.le_refl _⟩

/-- The insert_head batch loop of provide_sorted_batch preserves the
multiset on every outcome; S is the original start of the sorted suffix. -/
theorem pb_insert_loopE_perm [Inhabited α] (cmp : Nat → α → α → Option Bool)
    (e start' S : Nat) : ∀ (n c : Nat) (v : List α), start' + n ≤ S →
      S < e → e ≤ v.length → outPerm (pb_insert_loopE cmp e start' n c v) v
  | 0, c, v => by
    intro h1 h2 h3
    unfold pb_insert_loopE
    exact List.Perm.refl _
  | n + 1, c, v => by
    intro h1 h2 h3
    unfold pb_insert_loopE
    refine outPerm_bindE (outPerm_applyInE (by omega) ?_) ?_
    · intro c0
      refine insert_headE_perm cmp c0 _ ?_
      simp only [List.length_take, List.length_drop]
      omega
    · intro c' w hr
      have hlen : w.length = v.length :=
        (outPerm_def (outPerm_applyInE (by omega) (fun c0 =>
          insert_headE_perm cmp c0 _ (by
            simp only [List.length_take, List.length_drop]; omega))) w
          (Or.inl hr)).length_eq
      exact pb_insert_loopE_perm cmp e start' S n c' w (by omega) h2
        (by omega)

/-- provide_sorted_batch on the non-Copy path: every outcome is a
permutation, and the returned start does not exceed the given one. -/
theorem provide_sorted_batchE_perm [Inhabited α]
    (cmp : Nat → α → α → Option Bool) (c : Nat) (v : List α) (start e : Nat)
    (hse : start < e) (hev : e ≤ v.length) :
    (∀ w, (provide_sorted_batchE cmp false c v start e).1 = .error w →
      w.Perm v) ∧
    (∀ s' w, (provide_sorted_batchE cmp false c v start e).1 = .ok (s', w) →
      w.Perm v ∧ s' ≤ start) := by
  simp only [provide_sorted_batchE]
  split
  · next hcond => exact absurd hcond.1 (by simp)
  split
  · have hp := pb_insert_loopE_perm cmp e (start - (10 - (e - start))) start
      (start - (start - (10 - (e - start)))) c v (by omega) hse hev
    split
    · next w0 c1 t1 heq =>
      constructor
      · intro w h
        have hw : w0 = w := by simpa using h
        have := outPerm_def hp w0 (Or.inr (by rw [heq]))
        exact hw ▸ this
      · intro s' w h; exact absurd h (by simp)
    · next v1 c1 t1 heq =>
      constructor
      · intro w h; exact absurd h (by simp)
      · intro s' w h
        obtain ⟨hs, hw⟩ : start - (10 - (e - start)) = s' ∧ v1 = w := by
          simpa using h
        subst hs
        refine ⟨?_, by omega⟩
        rw [← hw]
        exact outPerm_def hp v1 (Or.inl (by rw [heq]))
  · constructor
    · intro w h; exact absurd h (by simp)
    · intro s' w h
      obtain ⟨hs, hw⟩ : start = s' ∧ v = w := by simpa using h
      subst hs
      subst hw
      exact ⟨List.Perm.refl _, Nat.le_refl _⟩

/-- The forward merge loop: every outcome is a permutation of the
hole-restored frame contents. -/
theorem mergeFwdE_perm [Inhabited α] (cmp : Nat → α → α → Option Bool)
    (buf : List α) (mid len : Nat) :
    ∀ (fuel c lc rc : Nat) (w : List α), lc ≤ mid → mid ≤ rc → rc ≤ len →
      len = w.length → buf.length = mid →
      outPerm (mergeFwdE cmp buf mid len fuel c lc rc w)
        (mrest buf mid lc rc w)
  | 0, c, lc, rc, w => by
    intro h1 h2 h3 h4 h5
    unfold mergeFwdE
    exact List.Perm.refl _
  | fuel + 1, c, lc, rc, w => by
    intro h1 h2 h3 h4 h5
    unfold mergeFwdE
    split
    · next hg =>
      split
      · exact List.Perm.refl _
      · split
        · -- consume right: v[rc] is copied to the output slot
          have ih := mergeFwdE_perm cmp buf mid len fuel (c + 1) lc (rc + 1)
            (w.set (lc + rc - mid) (gD w rc)) h1 (by omega) (by omega)
            (by simp only [List.length_set]; omega) h5
          refine outPerm_consT (outPerm_trans ih ?_)
          have e1 : lc + (rc + 1) - mid = (lc + rc - mid) + 1 := by omega
          have e2 : (w.set (lc + rc - mid) (gD w rc)).take (lc + rc - mid + 1)
              = w.take (lc + rc - mid) ++ [gD w rc] :=
            take_set_last (by omega) _
          have e3 : (w.set (lc + rc - mid) (gD w rc)).drop (rc + 1)
              = w.drop (rc + 1) := drop_set_of_lt (by omega) _
          have e4 : w.drop rc = gD w rc :: w.drop (rc + 1) :=
            drop_eq_gD_cons (by omega)
          unfold mrest
          rw [e1, e2, e3, e4]
          have hshape : w.take (lc + rc - mid) ++ [gD w rc] ++ buf.drop lc
              ++ w.drop (rc + 1)
              = w.take (lc + rc - mid)
                ++ (gD w rc :: (buf.drop lc ++ w.drop (rc + 1))) := by
            simp [List.append_assoc]
          rw [hshape]
          rw [show w.take (lc + rc - mid) ++ buf.drop lc
              ++ gD w rc :: w.drop (rc + 1)
            = w.take (lc + rc - mid)
              ++ (buf.drop lc ++ gD w rc :: w.drop (rc + 1)) by
            simp [List.append_assoc]]
          exact List.Perm.append_left _ List.perm_middle.symm
        · -- consume left: buf[lc] is copied to the output slot
          have ih := mergeFwdE_perm cmp buf mid len fuel (c + 1) (lc + 1) rc
            (w.set (lc + rc - mid) (gD buf lc)) (by omega) h2 h3
            (by simp only [List.length_set]; omega) h5
          refine outPerm_consT (outPerm_trans ih ?_)
          have e1 : lc + 1 + rc - mid = (lc + rc - mid) + 1 := by omega
          have e2 : (w.set (lc + rc - mid) (gD buf lc)).take
                (lc + rc - mid + 1)
              = w.take (lc + rc - mid) ++ [gD buf lc] :=
            take_set_last (by omega) _
          have e3 : (w.set (lc + rc - mid) (gD buf lc)).drop rc
              = w.drop rc := drop_set_of_lt (by omega) _
          have e4 : buf.drop lc = gD buf lc :: buf.drop (lc + 1) :=
            drop_eq_gD_cons (by omega)
          unfold mrest
          rw [e1, e2, e3, e4]
          have hshape : w.take (lc + rc - mid) ++ [gD buf lc]
              ++ buf.drop (lc + 1) ++ w.drop rc
              = w.take (lc + rc - mid)
                ++ (gD buf lc :: buf.drop (lc + 1)) ++ w.drop rc := by
            simp [List.append_assoc]
          rw [hshape]
    · exact List.Perm.refl _

/-- The backward merge loop: every outcome is a permutation of the
hole-restored frame contents. -/
theorem mergeBackE_perm [Inhabited α] (cmp : Nat → α → α → Option Bool)
    (buf : List α) :
    ∀ (fuel c l rr : Nat) (w : List α), l + rr ≤ w.length →
      rr ≤ buf.length →
      outPerm (mergeBackE cmp buf fuel c l rr w) (brest buf l rr w)
  | 0, c, l, rr, w => by
    intro h1 h2
    unfold mergeBackE
    exact List.Perm.refl _
  | fuel + 1, c, l, rr, w => by
    intro h1 h2
    unfold mergeBackE
    split
    · next hg =>
      split
      · exact List.Perm.refl _
      · split
        · -- consume left: v[l-1] is copied down
          have ih := mergeBackE_perm cmp buf fuel (c + 1) (l - 1) rr
            (w.set (l + rr - 1) (gD w (l - 1)))
            (by simp only [List.length_set]; omega) h2
          refine outPerm_consT (outPerm_trans ih ?_)
          have e1 : (w.set (l + rr - 1) (gD w (l - 1))).take (l - 1)
              = w.take (l - 1) := take_set_of_le (by omega) _
          have e2 : l - 1 + rr = l + rr - 1 := by omega
          have e3 : (w.set (l + rr - 1) (gD w (l - 1))).drop (l + rr - 1)
              = gD w (l - 1) :: w.drop (l + rr) := by
            rw [drop_set_self (by omega)]
            congr 1
            congr 1
            omega
          have e4 : w.take l = w.take (l - 1) ++ [gD w (l - 1)] := by
            have := @take_succ_gD _ _ w (l - 1) (by omega)
            rw [show l - 1 + 1 = l by omega] at this
            exact this
          unfold brest
          rw [e1, e2, e3, e4]
          have hshape : w.take (l - 1) ++ [gD w (l - 1)] ++ buf.take rr
              ++ w.drop (l + rr)
              = w.take (l - 1)
                ++ (gD w (l - 1) :: (buf.take rr ++ w.drop (l + rr))) := by
            simp [List.append_assoc]
          rw [hshape]
          rw [List.append_assoc]
          exact List.Perm.append_left _ List.perm_middle
        · -- consume right: buf[rr-1] is copied down
          have ih := mergeBackE_perm cmp buf fuel (c + 1) l (rr - 1)
            (w.set (l + rr - 1) (gD buf (rr - 1)))
            (by simp only [List.length_set]; omega) (by omega)
          refine outPerm_consT (outPerm_trans ih ?_)
          have e1 : (w.set (l + rr - 1) (gD buf (rr - 1))).take l
              = w.take l := take_set_of_le (by omega) _
          have e2 : l + (rr - 1) = l + rr - 1 := by omega
          have e3 : (w.set (l + rr - 1) (gD buf (rr - 1))).drop (l + rr - 1)
              = gD buf (rr - 1) :: w.drop (l + rr) := by
            rw [drop_set_self (by omega)]
            congr 1
            congr 1
            omega
          have e4 : buf.take rr = buf.take (rr - 1) ++ [gD buf (rr - 1)] := by
            have := @take_succ_gD _ _ buf (rr - 1) (by omega)
            rw [show rr - 1 + 1 = rr by omega] at this
            exact this
          unfold brest
          rw [e1, e2, e3, e4]
          have hshape : w.take l ++ (buf.take (rr - 1) ++ [gD buf (rr - 1)])
              ++ w.drop (l + rr)
              = w.take l ++ (buf.take (rr - 1)
                ++ (gD buf (rr - 1) :: w.drop (l + rr))) := by
            simp [List.append_assoc]
          rw [hshape, List.append_assoc]
    · exact List.Perm.refl _

/-- merge: every outcome — the merged range or the hole-restored range after
a panic — is a permutation of the input range. -/
theorem mergeE_perm [Inhabited α] (cmp : Nat → α → α → Option Bool)
    (c : Nat) (v : List α) (mid : Nat) (hmid : mid ≤ v.length) :
    outPerm (mergeE cmp c v mid) v := by
  unfold mergeE
  split
  · next hb =>
    have hstart : mrest (v.take mid) mid 0 mid v = v := by
      unfold mrest
      simp
    have := mergeFwdE_perm cmp (v.take mid) mid v.length v.length c 0 mid v
      (by omega) (by omega) (by omega) rfl
      (by simp only [List.length_take]; omega)
    rw [hstart] at this
    exact this
  · next hb =>
    have hstart : brest (v.drop mid) mid (v.length - mid) v = v := by
      unfold brest
      have htk : (v.drop mid).take (v.length - mid) = v.drop mid :=
        List.take_of_length_le (by simp only [List.length_drop]; omega)
      rw [htk, show mid + (v.length - mid) = v.length from by omega,
        List.drop_length, List.append_nil, List.take_append_drop]
    have := mergeBackE_perm cmp (v.drop mid) v.length c mid
      (v.length - mid) v (by omega) (by simp only [List.length_drop]; omega)
    rw [hstart] at this
    exact this

/-- One collapse-demanded merge step: the two runs are adjacent, their span
lies inside the array, and the updated stack still tiles [e, t). -/
theorem collapse_covers_step {runs : List Run} {t e r : Nat}
    (hcol : collapse runs = some r) (hcov : covers t runs e) :
    (runs.getD (r + 1) ⟨0, 0⟩).start + (runs.getD (r + 1) ⟨0, 0⟩).len
        = (runs.getD r ⟨0, 0⟩).start ∧
    (runs.getD r ⟨0, 0⟩).start + (runs.getD r ⟨0, 0⟩).len ≤ t ∧
    covers t ((runs.set r ⟨(runs.getD (r + 1) ⟨0, 0⟩).len +
        (runs.getD r ⟨0, 0⟩).len,
      (runs.getD (r + 1) ⟨0, 0⟩).start⟩).eraseIdx (r + 1)) e := by
  rcases collapse_some_cases hcol with ⟨h2, hr⟩ | ⟨h3, hr⟩
  · obtain ⟨A, x, y, hruns, hA⟩ := exists_append_two runs h2
    subst hruns
    have hrA : r = A.length := by omega
    have hgl : (A ++ [x, y]).getD (r + 1) (⟨0, 0⟩ : Run) = y := by
      rw [hrA, getD_append_skip]
      rfl
    have hgr : (A ++ [x, y]).getD r (⟨0, 0⟩ : Run) = x := by
      rw [hrA, show A.length = A.length + 0 from rfl, getD_append_skip]
      rfl
    obtain ⟨m, hcA, hcxy⟩ := covers_append_split hcov
    obtain ⟨hx, hy, hz0⟩ := hcxy
    have hz : y.start = e := hz0
    have hmt : m ≤ t := covers_le hcA
    rw [hgl, hgr]
    refine ⟨by omega, by omega, ?_⟩
    rw [hrA, set_eraseIdx_last2]
    refine covers_append_build hcA ?_
    show (⟨y.len + x.len, y.start⟩ : Run).start
        + (⟨y.len + x.len, y.start⟩ : Run).len = m ∧
      (⟨y.len + x.len, y.start⟩ : Run).start = e
    refine ⟨?_, ?_⟩ <;> dsimp only <;> omega
  · obtain ⟨A, x, y, z, hruns, hA⟩ := exists_append_three runs h3
    subst hruns
    have hrA : r = A.length := by omega
    have hgl : (A ++ [x, y, z]).getD (r + 1) (⟨0, 0⟩ : Run) = y := by
      rw [hrA, getD_append_skip]
      rfl
    have hgr : (A ++ [x, y, z]).getD r (⟨0, 0⟩ : Run) = x := by
      rw [hrA, show A.length = A.length + 0 from rfl, getD_append_skip]
      rfl
    obtain ⟨m, hcA, hcxyz⟩ := covers_append_split hcov
    obtain ⟨hx, hy, hz, hw0⟩ := hcxyz
    have hw : z.start = e := hw0
    have hmt : m ≤ t := covers_le hcA
    rw [hgl, hgr]
    refine ⟨by omega, by omega, ?_⟩
    rw [hrA, set_eraseIdx_last3]
    refine covers_append_build hcA ?_
    show (⟨y.len + x.len, y.start⟩ : Run).start
        + (⟨y.len + x.len, y.start⟩ : Run).len = m ∧
      z.start + z.len = (⟨y.len + x.len, y.start⟩ : Run).start ∧ z.start = e
    refine ⟨?_, ?_, ?_⟩ <;> dsimp only <;> omega

/-- The collapse loop: every outcome is a permutation and, on a normal
return, the remaining stack still tiles the array. -/
theorem collapse_loopE_perm [Inhabited α] (cmp : Nat → α → α → Option Bool) :
    ∀ (fuel c : Nat) (v : List α) (runs : List Run) (e0 : Nat),
      covers v.length runs e0 →
      (∀ w, (collapse_loopE cmp fuel c v runs).1 = .error w → w.Perm v) ∧
      (∀ w runs', (collapse_loopE cmp fuel c v runs).1 = .ok (w, runs') →
        w.Perm v ∧ covers w.length runs' e0)
  | 0, c, v, runs, e0 => by
    intro hcov
    constructor
    · intro w h; exact absurd h (by simp [collapse_loopE])
    · intro w runs' h
      obtain ⟨hw, hruns⟩ : v = w ∧ runs = runs' := by
        simpa [collapse_loopE] using h
      refine ⟨hw ▸ List.Perm.refl v, ?_⟩
      rw [← hw, ← hruns]
      exact hcov
  | fuel + 1, c, v, runs, e0 => by
    intro hcov
    unfold collapse_loopE
    split
    · constructor
      · intro w h; exact absurd h (by simp)
      · intro w runs' h
        obtain ⟨hw, hruns⟩ : v = w ∧ runs = runs' := by simpa using h
        refine ⟨hw ▸ List.Perm.refl v, ?_⟩
        rw [← hw, ← hruns]
        exact hcov
    · next r heq =>
      obtain ⟨hadj, hbound, hcov'⟩ := collapse_covers_step heq hcov
      have hwin : ∀ c0, outPerm (mergeE cmp c0
          ((v.drop (runs.getD (r + 1) ⟨0, 0⟩).start).take
            ((runs.getD r ⟨0, 0⟩).start + (runs.getD r ⟨0, 0⟩).len
              - (runs.getD (r + 1) ⟨0, 0⟩).start))
          (runs.getD (r + 1) ⟨0, 0⟩).len)
          ((v.drop (runs.getD (r + 1) ⟨0, 0⟩).start).take
            ((runs.getD r ⟨0, 0⟩).start + (runs.getD r ⟨0, 0⟩).len
              - (runs.getD (r + 1) ⟨0, 0⟩).start)) := by
        intro c0
        refine mergeE_perm cmp c0 _ _ ?_
        simp only [List.length_take, List.length_drop]
        omega
      have hap := outPerm_applyInE (i := (runs.getD (r + 1) ⟨0, 0⟩).start)
        (j := (runs.getD r ⟨0, 0⟩).start + (runs.getD r ⟨0, 0⟩).len)
        (f := fun c' w => mergeE cmp c' w (runs.getD (r + 1) ⟨0, 0⟩).len)
        (v := v) (c := c) (by omega) hwin
      rcases hr2 : applyInE (runs.getD (r + 1) ⟨0, 0⟩).start
          ((runs.getD r ⟨0, 0⟩).start + (runs.getD r ⟨0, 0⟩).len)
          (fun c' w => mergeE cmp c' w (runs.getD (r + 1) ⟨0, 0⟩).len) v c
        with ⟨e1, c1, t1⟩
      rw [hr2] at hap
      cases e1 with
      | error w0 =>
        constructor
        · intro w h
          simp only [hr2] at h
          obtain hw : w0 = w := by simpa using h
          rw [← hw]
          exact hap
        · intro w runs' h
          simp only [hr2] at h
          exact absurd h (by simp)
      | ok v1 =>
        have hv1 : v1.Perm v := hap
        have hrec := collapse_loopE_perm cmp fuel c1 v1
          ((runs.set r ⟨(runs.getD (r + 1) ⟨0, 0⟩).len +
              (runs.getD r ⟨0, 0⟩).len,
            (runs.getD (r + 1) ⟨0, 0⟩).start⟩).eraseIdx (r + 1)) e0
          (by rw [hv1.length_eq]; exact hcov')
        constructor
        · intro w h
          simp only [hr2] at h
          exact (hrec.1 w h).trans hv1
        · intro w runs' h
          simp only [hr2] at h
          obtain ⟨hperm, hcw⟩ := hrec.2 w runs' h
          exact ⟨hperm.trans hv1, hcw⟩

theorem insert_head_loopE_perm [Inhabited α]
    (cmp : Nat → α → α → Option Bool) : ∀ (k c : Nat) (v : List α),
      k ≤ v.length - 1 → outPerm (insert_head_loopE cmp k c v) v
  | 0, c, v => by
    intro hk
    unfold insert_head_loopE
    exact List.Perm.refl _
  | k + 1, c, v => by
    intro hk
    unfold insert_head_loopE
    refine outPerm_bindE (outPerm_applyInE (by omega) ?_) ?_
    · intro c0
      refine insert_headE_perm cmp c0 _ ?_
      simp only [List.length_take, List.length_drop]
      omega
    · intro c' w hr
      have hlen : w.length = v.length :=
        (outPerm_def (outPerm_applyInE (by omega) (fun c0 =>
          insert_headE_perm cmp c0 _ (by
            simp only [List.length_take, List.length_drop]; omega))) w
          (Or.inl hr)).length_eq
      exact insert_head_loopE_perm cmp k c' w (by omega)

/-- sort_small on the non-Copy path is the guarded insert_head loop; every
outcome is a permutation. -/
theorem sort_smallE_perm [Inhabited α] (cmp : Nat → α → α → Option Bool)
    (c : Nat) (v : List α) : outPerm (sort_smallE cmp false c v) v := by
  unfold sort_smallE
  split
  · exact List.Perm.refl _
  split
  · next hcopy => exact absurd hcopy (by simp)
  · exact insert_head_loopE_perm cmp (v.length - 1) c v (Nat.le_refl _)

/-- The run-building loop on the non-Copy path: every outcome, normal or
post-unwind, is a permutation of the input. -/
theorem merge_sort_loopE_perm [Inhabited α]
    (cmp : Nat → α → α → Option Bool) :
    ∀ (fuel c : Nat) (v : List α) (runs : List Run) (e : Nat),
      covers v.length runs e → e ≤ v.length →
      outPerm (merge_sort_loopE cmp false fuel c v runs e) v
  | 0, c, v, runs, e => by
    intro hcov he
    unfold merge_sort_loopE
    exact List.Perm.refl _
  | fuel + 1, c, v, runs, e => by
    intro hcov he
    unfold merge_sort_loopE
    split
    · next hepos =>
      split
      · next w1 c1 t1 heq1 =>
        have hw1 : w1 = v := (find_runE_perm cmp c v e).1 w1 (by rw [heq1])
        show w1.Perm v
        rw [hw1]
      · next s1 v1 c1 t1 heq1 =>
        obtain ⟨hperm1, hs1⟩ := (find_runE_perm cmp c v e).2 s1 v1
          (by rw [heq1])
        have hpsb := provide_sorted_batchE_perm cmp c1 v1 s1 e (by omega)
          (by rw [hperm1.length_eq]; exact he)
        split
        · next w2 c2 t2 heq2 =>
          have hw2 : w2.Perm v1 := hpsb.1 w2 (by rw [heq2])
          show w2.Perm v
          exact hw2.trans hperm1
        · next s2 v2 c2 t2 heq2 =>
          obtain ⟨hperm2, hs2⟩ := hpsb.2 s2 v2 (by rw [heq2])
          have hcov2 : covers v2.length (runs ++ [⟨e - s2, s2⟩]) s2 := by
            rw [hperm2.length_eq, hperm1.length_eq]
            refine covers_append_build hcov ?_
            show (⟨e - s2, s2⟩ : Run).start + (⟨e - s2, s2⟩ : Run).len = e ∧
              (⟨e - s2, s2⟩ : Run).start = s2
            refine ⟨?_, rfl⟩
            dsimp only
            omega
          have hcl := collapse_loopE_perm cmp (runs.length + 1) c2 v2
            (runs ++ [⟨e - s2, s2⟩]) s2 hcov2
          split
          · next w3 c3 t3 heq3 =>
            have hw3 : w3.Perm v2 := hcl.1 w3 (by rw [heq3])
            show w3.Perm v
            exact (hw3.trans hperm2).trans hperm1
          · next v3 runs3 c3 t3 heq3 =>
            obtain ⟨hperm3, hcov3⟩ := hcl.2 v3 runs3 (by rw [heq3])
            have hrec := merge_sort_loopE_perm cmp fuel c3 v3 runs3 s2 hcov3
              (by
                rw [hperm3.length_eq, hperm2.length_eq, hperm1.length_eq]
                omega)
            exact outPerm_trans (outPerm_trans (outPerm_trans hrec hperm3)
              hperm2) hperm1
    · exact List.Perm.refl _

/-- C10: on the non-Copy path (the guarded insertion sort and the buffered
merges; the branchless networks are never taken), for every comparator —
including one that panics at an arbitrary invocation — every outcome of the
sort, normal or post-unwind, holds exactly the original multiset of
elements, each exactly once: the drop-guards restore the lifted element or
the unconsumed scratch range on every unwind path. -/
theorem claim_C10_non_copy_panic_preserves_multiset [Inhabited α]
    (cmp : Nat → α → α → Option Bool) (isZst : Bool) (c : Nat)
    (v : List α) : outPerm (stable_sortE cmp isZst false c v) v := by
  unfold stable_sortE
  split
  · exact List.Perm.refl _
  · unfold merge_sortE
    split
    · exact List.Perm.refl _
    split
    · exact sort_smallE_perm cmp c v
    · exact merge_sort_loopE_perm cmp v.length c v [] v.length rfl
        (Nat.le_refl _)

end NewStableSort